import Mathlib

/-!
# nnForge: training loop, add layer, cuDNN convolution tester, gradient check

A shallow embedding of the parts of nnForge that the checked statements are about:

* `network_trainer::is_broken`, `network_trainer::is_last_epoch` and
  `network_trainer::train` (`nnforge/network_trainer.cpp`);
* `add_layer::get_output_layer_configuration_specific` (`nnforge/add_layer.cpp`);
* `convolution_layer_tester_cuda::tester_configured`
  (`nnforge/cuda/convolution_layer_tester_cuda.cpp`);
* `toolset::check_gradient`, `toolset::get_schema`,
  `toolset::get_starting_index_for_batch_training`, `toolset::get_trained_ann_list`,
  `toolset::get_snapshot_ann_list` and `toolset::shuffle_data` (`nnforge/toolset.cpp`);
* the action scheduler and the buffer allocator, which are modelled from the
  specification.

Definitions come first, theorems afterwards.
-/

namespace nnforge

/-! ## Definitions -/

/-! ### C++ `double`, as far as comparison and negation see it

`is_broken` only compares `double`s and negates them.  Both operations are exact in
IEEE-754, so a value is a NaN, one of the two infinities, or a finite number, which is
kept as a rational (every finite `double` is a dyadic rational; `-0.0` and `0.0` compare
equal and are both `finite 0`). -/

/-- A `double` value: NaN, minus infinity, plus infinity or a finite number. -/
inductive double where
  | nan : double
  | neg_inf : double
  | pos_inf : double
  | finite (q : ℚ) : double
deriving DecidableEq

namespace double

/-- The C++ comparison `a < b` on `double`: false as soon as an operand is NaN. -/
def lt : double → double → Bool
  | nan, _ => false
  | _, nan => false
  | neg_inf, neg_inf => false
  | neg_inf, _ => true
  | pos_inf, _ => false
  | finite _, neg_inf => false
  | finite _, pos_inf => true
  | finite a, finite b => decide (a < b)

/-- The C++ comparison `a > b` on `double`. -/
def gt (a b : double) : Bool := lt b a

/-- Unary minus on `double`. -/
def neg : double → double
  | nan => nan
  | neg_inf => pos_inf
  | pos_inf => neg_inf
  | finite q => finite (-q)

end double

/-- The literal `1.0e+10` (`1.0E+10`), which a `double` holds exactly. -/
def threshold : double := double.finite 10000000000

/-! ### Layer configurations and training task state -/

/-- The fields of `layer_configuration_specific` that the code under study reads. -/
structure layer_configuration_specific where
  feature_map_count : Nat
  dimension_sizes : List Nat
deriving DecidableEq, Repr

/-- Weights of a network (`network_data`); only its identity matters to the trainer. -/
structure network_data where
  id : Nat
deriving DecidableEq, Repr

/-- The value type of the map in a history entry:
`std::pair<layer_configuration_specific, std::shared_ptr<std::vector<double> > >`. -/
abbrev error_stat := layer_configuration_specific × List double

/-- One element of `training_task_state::history`: a statistics record (kept as a number)
and the `std::map` from layer name to its error values, as the list of its entries in
iteration order. -/
abbrev history_entry := Nat × List (String × error_stat)

/-- The members of `training_task_state` used by `network_trainer`. -/
structure training_task_state where
  index_peeked : Nat
  data : network_data
  momentum_data : Option network_data
  momentum_data2 : Option network_data
  initial_epoch : Nat
  history : List history_entry
deriving DecidableEq

/-! ### `network_trainer::is_broken` -/

/-- The local `sanity_check` of `is_broken`:
`(error < 1.0e+10) && (-error > -1.0E+10) && !(-error < -1.0E+10)`. -/
def sanity_check (error : double) : Bool :=
  double.lt error threshold
    && double.gt (double.neg error) (double.neg threshold)
    && !(double.lt (double.neg error) (double.neg threshold))

/-- The inner loop of `is_broken` over one vector of error values: `return true` at the
first value that fails the sanity check. -/
def is_broken_values : List double → Bool
  | [] => false
  | error :: rest => if !sanity_check error then true else is_broken_values rest

/-- The outer loop of `is_broken` over the entries of `history.back().second`. -/
def is_broken_map : List (String × error_stat) → Bool
  | [] => false
  | it :: rest => if is_broken_values it.2.2 then true else is_broken_map rest

/-- The function `network_trainer::is_broken`.  `history.back()` of an empty vector is
undefined in C++; the embedding returns `none` there. -/
def is_broken (state : training_task_state) : Option Bool :=
  match state.history.getLast? with
  | none => none
  | some back => some (is_broken_map back.2)

/-- The reading of the check that the specification gives: the value is non-finite or its
absolute value is greater than `1e10`. -/
def non_finite_or_absurd : double → Prop
  | double.finite q => |q| > 10000000000
  | _ => True

/-- What the code tests: the value is NaN, or it is at least `1e10` (plus infinity
included). -/
def nan_or_at_least_threshold : double → Prop
  | double.nan => True
  | double.pos_inf => True
  | double.neg_inf => False
  | double.finite q => 10000000000 ≤ q

/-- A task whose latest history entry holds the single error value `-1e12`. -/
def task_negative_error : training_task_state :=
  { index_peeked := 0, data := ⟨0⟩, momentum_data := none, momentum_data2 := none,
    initial_epoch := 0,
    history := [(0, [("loss", (⟨1, [1]⟩, [double.finite (-1000000000000)]))])] }

/-- A task whose latest history entry holds the error values `3` and `1e12`. -/
def task_diverged : training_task_state :=
  { index_peeked := 0, data := ⟨0⟩, momentum_data := none, momentum_data2 := none,
    initial_epoch := 0,
    history := [(0, [("loss", (⟨1, [2]⟩, [double.finite 3, double.finite 1000000000000]))])] }

/-! ### `network_trainer::train`

The collaborators of `train` (the reader, the peeker, the two pushers and the private
state that the virtual `train_step` works on) are kept as one world state `σ`, which every
call may change.  Next to the world state the embedding records the sequence of calls
made on the collaborators.  Output to `std::cout` is left out. -/

/-- The structure `network_data_peek_entry`; a null `data` pointer is `none`. -/
structure network_data_peek_entry where
  index : Nat
  start_epoch : Nat
  data : Option network_data
  momentum_data : Option network_data
  momentum_data2 : Option network_data
deriving DecidableEq

/-- A call made by `train` on one of its collaborators. -/
inductive call where
  | peek (entry_peeked : network_data_peek_entry) : call
  | set_epoch (reader_epoch_id : Nat) : call
  | train_step (task : training_task_state) : call
  | progress_push (task : training_task_state) : call
  | push (task : training_task_state) : call
deriving DecidableEq

/-- A `network_trainer` with its collaborators.  `get_current_epoch` is
`training_task_state::get_current_epoch`, whose definition is outside the files at hand;
`train_step` is the pure virtual member; `fresh_network_data` stands for
`new network_data(schema->get_layers())`. -/
structure network_trainer (σ : Type) where
  epoch_count : Nat
  is_momentum_data : Bool
  is_momentum_data2 : Bool
  fresh_network_data : network_data
  get_current_epoch : training_task_state → Nat
  initialize_train : σ → σ
  peek : σ → network_data_peek_entry × σ
  set_epoch : Nat → σ → σ
  train_step : σ → training_task_state → σ × training_task_state
  progress_push : training_task_state → σ → σ
  push : training_task_state → σ → σ

/-- How a loop of the embedding stopped: it left the loop as the code does, the fuel ran
out first, or the code reached undefined behaviour (`history.back()` on an empty
history). -/
inductive status where
  | done : status
  | out_of_fuel : status
  | undefined : status
deriving DecidableEq, Repr

/-- The result of running a loop: how it stopped, the world state, the calls made. -/
structure run (σ : Type) where
  stopped : status
  world : σ
  calls : List call

/-- The function `network_trainer::is_last_epoch`. -/
def is_last_epoch {σ : Type} (tr : network_trainer σ) (state : training_task_state) : Bool :=
  decide (tr.get_current_epoch state ≥ tr.epoch_count)

/-- The task that `train` builds from a peeked entry whose `data` is not null. -/
def new_task {σ : Type} (tr : network_trainer σ) (entry_peeked : network_data_peek_entry)
    (data : network_data) : training_task_state :=
  { index_peeked := entry_peeked.index
    data := data
    initial_epoch := entry_peeked.start_epoch
    momentum_data :=
      if tr.is_momentum_data then
        (match entry_peeked.momentum_data with
          | some m => some m
          | none => some tr.fresh_network_data)
      else none
    momentum_data2 :=
      if tr.is_momentum_data2 then
        (match entry_peeked.momentum_data2 with
          | some m => some m
          | none => some tr.fresh_network_data)
      else none
    history := [] }

/-- The inner `while(true)` loop of `train`, one iteration per unit of fuel:
`set_epoch`, `train_step`, `++reader_epoch_id` (an `unsigned int`), the progress push, then
the broken check and the last-epoch check. -/
def epoch_loop {σ : Type} (tr : network_trainer σ) :
    Nat → σ → training_task_state → Nat → run σ
  | 0, w, _, _ => ⟨status.out_of_fuel, w, []⟩
  | fuel + 1, w, task, reader_epoch_id =>
    let w1 := tr.set_epoch reader_epoch_id w
    let stepped := tr.train_step w1 task
    let w3 := tr.progress_push stepped.2 stepped.1
    let made := [call.set_epoch reader_epoch_id, call.train_step stepped.2,
      call.progress_push stepped.2]
    match is_broken stepped.2 with
    | none => ⟨status.undefined, w3, made⟩
    | some true => ⟨status.done, w3, made⟩
    | some false =>
      if is_last_epoch tr stepped.2 then
        ⟨status.done, tr.push stepped.2 w3, made ++ [call.push stepped.2]⟩
      else
        let rest := epoch_loop tr fuel w3 stepped.2 ((reader_epoch_id + 1) % 2 ^ 32)
        ⟨rest.stopped, rest.world, made ++ rest.calls⟩

/-- The body of the outer loop of `train` for a peeked entry whose `data` is not null: a
task that is already complete is skipped (`continue`), any other task runs the epoch
loop. -/
def run_task {σ : Type} (tr : network_trainer σ) (fuel : Nat) (w : σ)
    (entry_peeked : network_data_peek_entry) (data : network_data) : run σ :=
  if is_last_epoch tr (new_task tr entry_peeked data) then
    ⟨status.done, w, []⟩
  else
    epoch_loop tr fuel w (new_task tr entry_peeked data)
      (new_task tr entry_peeked data).initial_epoch

/-- The outer `while(true)` loop of `train`, one iteration per unit of fuel; the epoch
loop of each task gets the fuel that is left. -/
def train_loop {σ : Type} (tr : network_trainer σ) : Nat → σ → run σ
  | 0, w => ⟨status.out_of_fuel, w, []⟩
  | fuel + 1, w =>
    let peeked := tr.peek w
    match peeked.1.data with
    | none => ⟨status.done, peeked.2, [call.peek peeked.1]⟩
    | some data =>
      let task_run := run_task tr fuel peeked.2 peeked.1 data
      match task_run.stopped with
      | status.done =>
        let rest := train_loop tr fuel task_run.world
        ⟨rest.stopped, rest.world, call.peek peeked.1 :: (task_run.calls ++ rest.calls)⟩
      | stopped => ⟨stopped, task_run.world, call.peek peeked.1 :: task_run.calls⟩

/-- The function `network_trainer::train`. -/
def train {σ : Type} (tr : network_trainer σ) (fuel : Nat) (w : σ) : run σ :=
  train_loop tr fuel (tr.initialize_train w)

/-- The call is a `train_step` on a task that satisfies `p`. -/
def call.is_train_step (p : training_task_state → Bool) : call → Bool
  | call.train_step t => p t
  | _ => false

/-- The call is a progress push of a task that satisfies `p`. -/
def call.is_progress_push (p : training_task_state → Bool) : call → Bool
  | call.progress_push t => p t
  | _ => false

/-- The call is a final push of a task that satisfies `p`. -/
def call.is_push (p : training_task_state → Bool) : call → Bool
  | call.push t => p t
  | _ => false

/-- The call ends the epoch loop of its task: a final push, or the progress push of a
task that `is_broken` reports as broken. -/
def call.ends_task : call → Prop
  | call.push _ => True
  | call.progress_push t => is_broken t = some true
  | _ => False

/-- The history entry appended by the example trainers: one error value for one layer. -/
def history_entry_of (error : double) : history_entry :=
  (0, [("loss", (⟨1, [1]⟩, [error]))])

/-- An example trainer with `epoch_count = 2`.  Its world is the queue of entries that the
peeker still holds; `train_step` appends a history entry with the error `1e12` for the
task with index 0 and with the error `3` for any other task; the current epoch of a task
is its initial epoch plus the length of its history. -/
def example_trainer : network_trainer (List network_data_peek_entry) where
  epoch_count := 2
  is_momentum_data := false
  is_momentum_data2 := false
  fresh_network_data := ⟨0⟩
  get_current_epoch := fun t => t.initial_epoch + t.history.length
  initialize_train := fun w => w
  peek := fun w =>
    match w with
    | [] => (⟨0, 0, none, none, none⟩, [])
    | e :: rest => (e, rest)
  set_epoch := fun _ w => w
  train_step := fun w t =>
    (w, { t with history := t.history ++
      [history_entry_of (if t.index_peeked = 0 then double.finite 1000000000000
        else double.finite 3)] })
  progress_push := fun _ w => w
  push := fun _ w => w

/-- The three tasks of the example run: indices 0, 1 and 2, all starting at epoch 0. -/
def example_tasks : List network_data_peek_entry :=
  [⟨0, 0, some ⟨10⟩, none, none⟩, ⟨1, 0, some ⟨11⟩, none, none⟩, ⟨2, 0, some ⟨12⟩, none, none⟩]

/-- An example trainer that never diverges: as `example_trainer`, with `epoch_count = 3`
and the error `3` in every epoch. -/
def steady_trainer : network_trainer (List network_data_peek_entry) :=
  { example_trainer with
    epoch_count := 3
    train_step := fun w t =>
      (w, { t with history := t.history ++ [history_entry_of (double.finite 3)] }) }

/-- The sequences of calls that the epoch loop of one task can make, together with the way
the loop stops: each epoch is `set_epoch`, `train_step`, progress push; a broken task stops
there, a task in its last epoch gets the final push, any other task goes on. -/
inductive epoch_calls {σ : Type} (tr : network_trainer σ) : List call → status → Prop
  | out_of_fuel : epoch_calls tr [] status.out_of_fuel
  | undefined (rid : Nat) (t : training_task_state) (hb : is_broken t = none) :
      epoch_calls tr [call.set_epoch rid, call.train_step t, call.progress_push t]
        status.undefined
  | broken (rid : Nat) (t : training_task_state) (hb : is_broken t = some true) :
      epoch_calls tr [call.set_epoch rid, call.train_step t, call.progress_push t]
        status.done
  | last (rid : Nat) (t : training_task_state) (hb : is_broken t = some false)
      (hl : is_last_epoch tr t = true) :
      epoch_calls tr
        [call.set_epoch rid, call.train_step t, call.progress_push t, call.push t]
        status.done
  | next (rid : Nat) (t : training_task_state) (l : List call) (s : status)
      (hb : is_broken t = some false) (hl : is_last_epoch tr t = false)
      (hrest : epoch_calls tr l s) :
      epoch_calls tr
        (call.set_epoch rid :: call.train_step t :: call.progress_push t :: l) s

/-- The sequences of calls that the outer loop of `train` can make, together with the way
it stops: a peek without data ends the run; a peek with data is followed by the calls of
the epoch loop of that task (none when the task is already complete) and then by the next
iteration. -/
inductive train_calls {σ : Type} (tr : network_trainer σ) : List call → status → Prop
  | out_of_fuel : train_calls tr [] status.out_of_fuel
  | no_data (e : network_data_peek_entry) (he : e.data = none) :
      train_calls tr [call.peek e] status.done
  | skipped (e : network_data_peek_entry) (l : List call) (s : status)
      (he : e.data ≠ none) (hrest : train_calls tr l s) :
      train_calls tr (call.peek e :: l) s
  | task (e : network_data_peek_entry) (l₁ l₂ : List call) (s : status)
      (he : e.data ≠ none) (htask : epoch_calls tr l₁ status.done)
      (hrest : train_calls tr l₂ s) :
      train_calls tr (call.peek e :: (l₁ ++ l₂)) s
  | stopped (e : network_data_peek_entry) (l : List call) (s : status)
      (he : e.data ≠ none) (htask : epoch_calls tr l s) (hs : s ≠ status.done) :
      train_calls tr (call.peek e :: l) s

/-- Which call may come right after which in a run of `train`. -/
def call.may_precede : call → call → Prop
  | call.peek _, b => (∃ e, b = call.peek e) ∨ (∃ rid, b = call.set_epoch rid)
  | call.set_epoch _, b => ∃ t, b = call.train_step t
  | call.train_step t, b => b = call.progress_push t
  | call.progress_push t, b =>
      (is_broken t = some true ∧ ∃ e, b = call.peek e) ∨
      (is_broken t = some false ∧ (b = call.push t ∨ ∃ rid, b = call.set_epoch rid))
  | call.push _, b => ∃ e, b = call.peek e

/-! ### `add_layer::get_output_layer_configuration_specific` -/

/-- How a call fails: it throws `neural_network_exception` or `std::runtime_error` with a
message, it throws `std::out_of_range` (from `std::vector::at`), or it reaches undefined
behaviour (an index outside a `std::vector`). -/
inductive failure where
  | neural_network_exception (message : String) : failure
  | undefined_behaviour : failure
  | runtime_error (message : String) : failure
  | out_of_range : failure
deriving DecidableEq, Repr

/-- Modelled from the spec: `layer_configuration_specific::get_neuron_count` is defined
outside the files at hand; it is the neuron count per entry, the feature-map count times
the product of the dimension sizes, and its result is an `unsigned int`. -/
def layer_configuration_specific.get_neuron_count (c : layer_configuration_specific) : Nat :=
  (c.feature_map_count * c.dimension_sizes.prod) % 2 ^ 32

namespace add_layer

/-- The message of the exception thrown by `get_output_layer_configuration_specific`. -/
def mismatch_message : String :=
  "Neuron count per entry mismatch in 2 input layers for add_layer"

/-- The `for` loop of `get_output_layer_configuration_specific` over the inputs from the
second on: throw at the first input whose neuron count differs from
`neuron_count_per_entry`. -/
def check_inputs (neuron_count_per_entry : Nat) :
    List layer_configuration_specific → Except failure Unit
  | [] => Except.ok ()
  | it :: rest =>
    if it.get_neuron_count ≠ neuron_count_per_entry then
      Except.error (failure.neural_network_exception mismatch_message)
    else check_inputs neuron_count_per_entry rest

/-- The function `add_layer::get_output_layer_configuration_specific`.  Element 0 of an
empty list is undefined behaviour. -/
def get_output_layer_configuration_specific
    (input_configuration_specific_list : List layer_configuration_specific) :
    Except failure layer_configuration_specific :=
  match input_configuration_specific_list with
  | [] => Except.error failure.undefined_behaviour
  | first :: rest =>
    match check_inputs first.get_neuron_count rest with
    | Except.error e => Except.error e
    | Except.ok _ => Except.ok first

end add_layer

/-! ### `convolution_layer_tester_cuda::tester_configured` -/

/-- The members of `convolution_layer` read by the tester. -/
structure convolution_layer where
  window_sizes : List Nat
  strides : List Nat
  dilation : List Nat
  left_zero_padding : List Nat
  right_zero_padding : List Nat
  bias : Bool
deriving DecidableEq, Repr

/-- The members of `convolution_layer_tester_cuda` that `tester_configured` sets.  The
three cuDNN descriptors are kept as the arguments that `cudnn_util::set_filter_descriptor`,
`cudnn_util::set_tensor_bias_descriptor` and `cudnn_util::set_convolution_descriptor`
receive; failures inside cuDNN are outside the embedding. -/
structure convolution_layer_tester_cuda where
  window_sizes : List Nat
  strides : List Nat
  dilation : List Nat
  bias : Bool
  weights_desc : Nat × Nat × List Nat
  bias_desc : Nat × Nat
  convolution_desc : List Nat × List Nat × List Nat
deriving DecidableEq, Repr

namespace convolution_layer_tester_cuda

/-- The message of the exception thrown by `tester_configured`. -/
def padding_message : String :=
  "cuDNN is not able to run convolution when left and right padding sizes don't match"

/-- The `for` loop of `tester_configured` over the indices `i` still to visit: throw at the
first `i` with `zero_padding[i] != right_zero_padding[i]`; an index outside one of the two
vectors is undefined behaviour. -/
def check_padding (zero_padding right_zero_padding : List Nat) :
    List Nat → Except failure Unit
  | [] => Except.ok ()
  | i :: rest =>
    match zero_padding[i]?, right_zero_padding[i]? with
    | some l, some r =>
      if l ≠ r then Except.error (failure.neural_network_exception padding_message)
      else check_padding zero_padding right_zero_padding rest
    | _, _ => Except.error failure.undefined_behaviour

/-- The function `convolution_layer_tester_cuda::tester_configured`, given the layer and
the output and input configurations that the tester holds. -/
def tester_configured (layer_derived : convolution_layer)
    (output_configuration_specific : layer_configuration_specific)
    (input_configuration_specific_list : List layer_configuration_specific) :
    Except failure convolution_layer_tester_cuda :=
  match check_padding layer_derived.left_zero_padding layer_derived.right_zero_padding
      (List.range layer_derived.window_sizes.length) with
  | Except.error e => Except.error e
  | Except.ok _ =>
    match input_configuration_specific_list with
    | [] => Except.error failure.undefined_behaviour
    | input0 :: _ =>
      Except.ok
        { window_sizes := layer_derived.window_sizes
          strides := layer_derived.strides
          dilation := layer_derived.dilation
          bias := layer_derived.bias
          weights_desc := (output_configuration_specific.feature_map_count,
            input0.feature_map_count, layer_derived.window_sizes)
          bias_desc := (output_configuration_specific.feature_map_count,
            output_configuration_specific.dimension_sizes.length % 2 ^ 32)
          convolution_desc := (layer_derived.left_zero_padding, layer_derived.strides,
            layer_derived.dilation) }

end convolution_layer_tester_cuda

/-- A two-dimensional convolution with padding 1 on both sides of each dimension. -/
def symmetric_convolution : convolution_layer :=
  { window_sizes := [3, 3], strides := [1, 1], dilation := [1, 1],
    left_zero_padding := [1, 1], right_zero_padding := [1, 1], bias := true }

/-! ### The weights that `toolset::check_gradient` checks in one weight set -/

/-- The conversion `static_cast<int>` of an unsigned value (two's complement, 32 bits). -/
def static_cast_int (n : Nat) : Int :=
  if n % 2 ^ 32 < 2 ^ 31 then ((n % 2 ^ 32 : Nat) : Int) else ((n % 2 ^ 32 : Nat) : Int) - 2 ^ 32

/-- The `std::swap` of the elements at positions `i` and `j` of a vector. -/
def swap_at (l : List Int) (i j : Nat) : List Int :=
  (l.set i (l.getD j 0)).set j (l.getD i 0)

/-- The second loop of the branch `param_weight_id == -1`, with `count` iterations left and
loop variable `i`: draw `index` from `0 .. size - 1 - i`, append
`candidate_weight_id_list[index]` to `weight_id_list`, and swap that candidate with the one
at position `size - 1 - i`.  `weight_gen i` is the raw value of the random generator at the
`i`-th draw, which `std::uniform_int_distribution` maps into the requested range. -/
def pick_candidates (weight_gen : Nat → Nat) :
    Nat → Nat → List Int → List Int → List Int
  | 0, _, _, weight_id_list => weight_id_list
  | count + 1, i, candidate_weight_id_list, weight_id_list =>
    let index := weight_gen i % (candidate_weight_id_list.length - 1 - i + 1)
    pick_candidates weight_gen count (i + 1)
      (swap_at candidate_weight_id_list index (candidate_weight_id_list.length - 1 - i))
      (weight_id_list ++ [candidate_weight_id_list.getD index 0])

/-- The `weight_id_list` that `check_gradient` builds for a weight set of `size` weights:
with `param_weight_id != -1` that id if it is inside the set; otherwise the first weight,
the last weight, and `min(candidates, check_gradient_max_weights_per_set)` of the
candidates `1 .. size - 2` drawn at random.  `weight_list.size() - 2` is computed in
`size_t` and cast to `int`. -/
def weight_id_list (size : Nat) (param_weight_id : Int)
    (check_gradient_max_weights_per_set : Int) (weight_gen : Nat → Nat) : List Int :=
  if param_weight_id ≠ -1 then
    (if param_weight_id % 2 ^ 64 < (size : Int) then [param_weight_id] else [])
  else
    let first : List Int := if size > 0 then [0] else []
    let last : List Int := if size > 1 then [static_cast_int size - 1] else []
    let candidate_weight_id_list : List Int :=
      List.map (fun i : Nat => (i : Int) + 1)
        (List.range (static_cast_int ((size + 2 ^ 64 - 2) % 2 ^ 64)).toNat)
    pick_candidates weight_gen
      (min (static_cast_int candidate_weight_id_list.length)
        check_gradient_max_weights_per_set).toNat
      0 candidate_weight_id_list (first ++ last)

/-! ### `toolset::check_gradient`: the option `check_gradient_weights` -/

/-- The call `boost::split(result, input, boost::is_any_of(":"))` for a one-character
separator set: the fields between the separators, empty fields included. -/
def split (sep : Char) : List Char → List (List Char)
  | [] => [[]]
  | c :: rest =>
    if c = sep then [] :: split sep rest
    else
      match split sep rest with
      | [] => [[c]]
      | field :: fields => (c :: field) :: fields

/-- The C function `isspace` in the "C" locale. -/
def isspace (c : Char) : Bool :=
  decide (c.toNat = 32) || (decide (9 ≤ c.toNat) && decide (c.toNat ≤ 13))

/-- The digits that `atol` reads: the value of the longest prefix of decimal digits,
continuing from `acc`. -/
def atol_digits : Nat → List Char → Nat
  | acc, [] => acc
  | acc, c :: rest =>
    if 48 ≤ c.toNat ∧ c.toNat ≤ 57 then atol_digits (acc * 10 + (c.toNat - 48)) rest else acc

/-- The C function `atol`: leading white space, an optional sign, decimal digits.  A value
outside the range of `long` (64 bits) is clipped to `LONG_MAX` or `LONG_MIN`, as by
`strtol`, through which the C library computes `atol`. -/
def atol (s : List Char) : Int :=
  match s.dropWhile isspace with
  | [] => 0
  | c :: rest =>
    if c = '-' then max (-((atol_digits 0 rest : Nat) : Int)) (-(2 ^ 63))
    else if c = '+' then min ((atol_digits 0 rest : Nat) : Int) (2 ^ 63 - 1)
    else min ((atol_digits 0 (c :: rest) : Nat) : Int) (2 ^ 63 - 1)

/-- The conversion of a `long` to `int` (two's complement, 32 bits). -/
def long_to_int (z : Int) : Int := static_cast_int (z % 2 ^ 32).toNat

/-- The characters of `s.c_str()`: the string up to its first NUL character. -/
def c_str (s : List Char) : List Char := s.takeWhile (fun c => c ≠ Char.ofNat 0)

/-- The three values that `check_gradient` reads from `check_gradient_weights`. -/
structure check_gradient_weight_params where
  param_layer_name : String
  param_weight_set : Int
  param_weight_id : Int
deriving DecidableEq, Repr

/-- The first statements of `toolset::check_gradient`: split `check_gradient_weights` on
`:`, throw unless there are three fields, and read the layer name, the weight set and the
weight id, an empty field leaving the default (empty name, `-1`, `-1`). -/
def parse_check_gradient_weights (check_gradient_weights : String) :
    Except failure check_gradient_weight_params :=
  match split ':' check_gradient_weights.toList with
  | [layer, weight_set, weight_id] =>
    Except.ok
      { param_layer_name := if layer.isEmpty then "" else String.mk (c_str layer)
        param_weight_set := if weight_set.isEmpty then -1 else long_to_int (atol (c_str weight_set))
        param_weight_id := if weight_id.isEmpty then -1 else long_to_int (atol (c_str weight_id)) }
  | _ =>
    Except.error (failure.runtime_error
      ("Invalid check_gradient_weights parameter: " ++ check_gradient_weights))

/-! ### `toolset::check_gradient`: the runs

The arithmetic of `float` and `double` is kept abstract: the embedding works for every
interpretation of the operations, IEEE-754 rounding included.  `backprop->run`, together
with the accumulation of the averages that the writer collected into one error value, is a
parameter.  The classification of each weight into errors and warnings and the printed
summary are left out. -/

/-- The operations on `float` (`F`) and `double` (`D`) that `check_gradient` uses. -/
structure float_arith (F D : Type) where
  zero : F
  two : F
  large_rate : F
  neg : F → F
  sub : F → F → F
  add : F → F → F
  mul : F → F → F
  div : F → F → F
  dsub : D → D → D
  to_float : D → F

/-- The weights of a network (`network_data::data_list`): for each layer name the weight
sets of the layer, each a vector of `float`. -/
abbrev network_weights (F : Type) := String → List (List F)

/-- The table `learning_rates`: for each layer name and weight set its learning rate.  The
`std::map` of vectors is kept as a function; `check_gradient` fills it with `0.0F`. -/
abbrev learning_rate_table (F : Type) := String → Nat → F

/-- The vector `dt->at(weight_set)` of a layer. -/
def weight_list_of {F : Type} (data : network_weights F) (layer_name : String)
    (weight_set : Nat) : List F :=
  (data layer_name).getD weight_set []

/-- The network weights after the vector `dt->at(weight_set)` of a layer became `w`. -/
def with_weight_list {F : Type} (data : network_weights F) (layer_name : String)
    (weight_set : Nat) (w : List F) : network_weights F :=
  Function.update data layer_name ((data layer_name).set weight_set w)

/-- The table after `learning_rates[layer_name][weight_set] = rate`. -/
def with_learning_rate {F : Type} (learning_rates : learning_rate_table F)
    (layer_name : String) (weight_set : Nat) (rate : F) : learning_rate_table F :=
  Function.update learning_rates layer_name
    (Function.update (learning_rates layer_name) weight_set rate)

/-- The call `std::copy(src.begin(), src.end(), dst.begin())`: the first elements of `dst`
are overwritten with `src`. -/
def std_copy {F : Type} (src dst : List F) : List F := src ++ dst.drop src.length

/-- What `check_gradient` works with: the arithmetic, the options
`check_gradient_base_step` and `check_gradient_max_weights_per_set`, the raw values of the
random generator, everything between the parsing of the option and the loop over the
layers (`setup`: it fails, or yields the weights read from disk, the names of the layers
that have weights and the layers in forward propagation order), and `backprop->run`, which
gets the weights and the learning rates and yields the updated weights and the sum of the
averages of the error source layers. -/
structure gradient_checker (F D : Type) where
  arith : float_arith F D
  check_gradient_base_step : F
  check_gradient_max_weights_per_set : Int
  weight_gen : Nat → Nat
  setup : Except failure (network_weights F × List String × List String)
  run : network_weights F → learning_rate_table F → network_weights F × D

/-- A call of `backprop->run`: the layer and weight set under test, and the weights and
learning rates passed to the call. -/
structure run_call (F : Type) where
  layer_name : String
  weight_set : Nat
  data : network_weights F
  learning_rates : learning_rate_table F

/-- The check of one weight: its id, the gradient recorded from the update run, the two
runs with the weight moved down and up by the base step, their errors, and the finite
difference estimate `gradient_checked`. -/
structure weight_check (F D : Type) where
  weight_id : Int
  gradient_backprop : F
  minus_run : run_call F
  minus_error : D
  plus_run : run_call F
  plus_error : D
  gradient_checked : F

/-- The loop that fills `gradient_backprops` after the update run:
`-(weight_list[weight_id_list[weight_index]] - original_weights[weight_index]) / learning_rate`
for every `weight_index`. -/
def gradient_backprops {F D : Type} (a : float_arith F D) (weight_list original_weights : List F)
    (weight_id_list : List Int) (learning_rate : F) : List F :=
  List.map
    (fun weight_index : Nat =>
      a.div
        (a.neg (a.sub (weight_list.getD (weight_id_list.getD weight_index 0).toNat a.zero)
          (original_weights.getD weight_index a.zero)))
        learning_rate)
    (List.range weight_id_list.length)

/-- The loop of `check_gradient` over the weight ids still to check, `weight_index` being
the position of the first of them: move the weight down by the base step, run, restore the
weights; move it up, run, restore the weights; compute `gradient_checked`.  It yields the
checks and the weights at the end. -/
def check_weights {F D : Type} (env : gradient_checker F D) (layer_name : String)
    (weight_set : Nat) (learning_rates : learning_rate_table F) (original_weights : List F)
    (backprops : List F) :
    List Int → Nat → network_weights F → List (weight_check F D) × network_weights F
  | [], _, data => ([], data)
  | weight_id :: rest, weight_index, data =>
    let w := weight_list_of data layer_name weight_set
    let data_minus := with_weight_list data layer_name weight_set
      (w.set weight_id.toNat
        (env.arith.sub (w.getD weight_id.toNat env.arith.zero) env.check_gradient_base_step))
    let minus := env.run data_minus learning_rates
    let data1 := with_weight_list minus.1 layer_name weight_set
      (std_copy original_weights (weight_list_of minus.1 layer_name weight_set))
    let w1 := weight_list_of data1 layer_name weight_set
    let data_plus := with_weight_list data1 layer_name weight_set
      (w1.set weight_id.toNat
        (env.arith.add (w1.getD weight_id.toNat env.arith.zero) env.check_gradient_base_step))
    let plus := env.run data_plus learning_rates
    let data2 := with_weight_list plus.1 layer_name weight_set
      (std_copy original_weights (weight_list_of plus.1 layer_name weight_set))
    let checked : weight_check F D :=
      { weight_id := weight_id
        gradient_backprop := backprops.getD weight_index env.arith.zero
        minus_run := ⟨layer_name, weight_set, data_minus, learning_rates⟩
        minus_error := minus.2
        plus_run := ⟨layer_name, weight_set, data_plus, learning_rates⟩
        plus_error := plus.2
        gradient_checked :=
          env.arith.div (env.arith.to_float (env.arith.dsub plus.2 minus.2))
            (env.arith.mul env.arith.two env.check_gradient_base_step) }
    let later := check_weights env layer_name weight_set learning_rates original_weights
      backprops rest (weight_index + 1) data2
    (checked :: later.1, later.2)

/-- The result of the body of the loop over the weight sets, for one weight set: the ids
checked, the weights saved before the update run, the update run, the checks of the
weights, and the weights and learning rates at the end. -/
structure weight_set_check (F D : Type) where
  weight_id_list : List Int
  original_weights : List F
  update_run : run_call F
  checks : List (weight_check F D)
  data : network_weights F
  learning_rates : learning_rate_table F

/-- The body of the loop of `check_gradient` over the weight sets of a layer: choose the
weight ids, set the learning rate of the weight set to `1.0e+6F`, save the weights, do the
update run, record `gradient_backprops`, restore the weights, check every chosen weight,
and set the learning rate back to `0.0F`. -/
def check_weight_set {F D : Type} (env : gradient_checker F D) (param_weight_id : Int)
    (layer_name : String) (weight_set : Nat) (data : network_weights F)
    (learning_rates : learning_rate_table F) : weight_set_check F D :=
  let weight_list := weight_list_of data layer_name weight_set
  let ids := weight_id_list weight_list.length param_weight_id
    env.check_gradient_max_weights_per_set env.weight_gen
  let rates := with_learning_rate learning_rates layer_name weight_set env.arith.large_rate
  let original_weights := weight_list
  let updated := env.run data rates
  let backprops := gradient_backprops env.arith (weight_list_of updated.1 layer_name weight_set)
    original_weights ids (rates layer_name weight_set)
  let data1 := with_weight_list updated.1 layer_name weight_set
    (std_copy original_weights (weight_list_of updated.1 layer_name weight_set))
  let checked := check_weights env layer_name weight_set rates original_weights backprops
    ids 0 data1
  { weight_id_list := ids
    original_weights := original_weights
    update_run := ⟨layer_name, weight_set, data, rates⟩
    checks := checked.1
    data := checked.2
    learning_rates := with_learning_rate rates layer_name weight_set env.arith.zero }

/-- The calls of `backprop->run` made for one weight set, in order: the update run, then
the minus run and the plus run of each checked weight. -/
def weight_set_check.runs {F D : Type} (r : weight_set_check F D) : List (run_call F) :=
  r.update_run :: r.checks.flatMap (fun c => [c.minus_run, c.plus_run])

/-- The state of `check_gradient` in its loops: the weights, the learning rates, the calls
of `backprop->run` made so far, the weight sets checked so far, and the exception that
ended the function, if any. -/
structure check_state (F D : Type) where
  data : network_weights F
  learning_rates : learning_rate_table F
  runs : List (run_call F)
  checked : List (String × Nat × weight_set_check F D)
  failed : Option failure

/-- The values of `weight_set` that the loop over the weight sets of a layer with `size`
weight sets visits: from `min_weight_set` to `max_weight_set - 1`. -/
def weight_sets_to_check (size : Nat) (param_weight_set : Int) : List Int :=
  let min_weight_set : Int := if param_weight_set = -1 then 0 else param_weight_set
  let max_weight_set : Int :=
    if param_weight_set = -1 then static_cast_int size
    else min (static_cast_int size) (param_weight_set + 1)
  List.map (fun i : Nat => min_weight_set + (i : Int))
    (List.range (max_weight_set - min_weight_set).toNat)

/-- The loop of `check_gradient` over the weight sets of one layer; `dt->at(weight_set)`
throws `std::out_of_range` for an index outside the weight sets of the layer. -/
def check_layer {F D : Type} (env : gradient_checker F D) (param_weight_id : Int)
    (layer_name : String) : List Int → check_state F D → check_state F D
  | [], st => st
  | weight_set :: rest, st =>
    match st.failed with
    | some _ => st
    | none =>
      if 0 ≤ weight_set ∧ weight_set.toNat < (st.data layer_name).length then
        let r := check_weight_set env param_weight_id layer_name weight_set.toNat st.data
          st.learning_rates
        check_layer env param_weight_id layer_name rest
          { data := r.data
            learning_rates := r.learning_rates
            runs := st.runs ++ r.runs
            checked := st.checked ++ [(layer_name, weight_set.toNat, r)]
            failed := none }
      else { st with failed := some failure.out_of_range }

/-- The loop of `check_gradient` over the layers (given in the order in which they are
visited): a layer without weights, or one that is not the requested layer, is skipped. -/
def check_layers {F D : Type} (env : gradient_checker F D) (params : check_gradient_weight_params)
    (weights_layer_names : List String) : List String → check_state F D → check_state F D
  | [], st => st
  | layer_name :: rest, st =>
    match st.failed with
    | some _ => st
    | none =>
      if layer_name ∉ weights_layer_names then
        check_layers env params weights_layer_names rest st
      else if params.param_layer_name ≠ "" ∧ layer_name ≠ params.param_layer_name then
        check_layers env params weights_layer_names rest st
      else
        check_layers env params weights_layer_names rest
          (check_layer env params.param_weight_id layer_name
            (weight_sets_to_check (st.data layer_name).length params.param_weight_set) st)

/-- The function `toolset::check_gradient`, up to the summary: parse the option, set up the
schema, the reader and the weights, fill the learning rates with `0.0F`, and visit the
layers in reverse forward propagation order. -/
def check_gradient {F D : Type} (env : gradient_checker F D) (check_gradient_weights : String) :
    check_state F D :=
  match parse_check_gradient_weights check_gradient_weights with
  | Except.error e =>
    { data := fun _ => [], learning_rates := fun _ _ => env.arith.zero, runs := [],
      checked := [], failed := some e }
  | Except.ok params =>
    match env.setup with
    | Except.error e =>
      { data := fun _ => [], learning_rates := fun _ _ => env.arith.zero, runs := [],
        checked := [], failed := some e }
    | Except.ok (data, weights_layer_names, layers_ordered) =>
      check_layers env params weights_layer_names layers_ordered.reverse
        { data := data, learning_rates := fun _ _ => env.arith.zero, runs := [],
          checked := [], failed := none }

/-- Exact arithmetic on rationals for both `float` and `double`, for examples whose values
and results `float` holds exactly. -/
def exact_arith : float_arith ℚ ℚ where
  zero := 0
  two := 2
  large_rate := 1000000
  neg := fun x => -x
  sub := fun x y => x - y
  add := fun x y => x + y
  mul := fun x y => x * y
  div := fun x y => x / y
  dsub := fun x y => x - y
  to_float := fun x => x

/-- An example checker over `exact_arith`: one layer `fc` with the single weight set
`[1, 2]`, base step `1/4`, and a `backprop->run` that leaves the weights as they are (a
zero gradient) and reports the sum of the weights of `fc` as the error. -/
def example_checker : gradient_checker ℚ ℚ where
  arith := exact_arith
  check_gradient_base_step := 1 / 4
  check_gradient_max_weights_per_set := 20
  weight_gen := fun _ => 0
  setup := Except.ok (fun name => if name = "fc" then [[1, 2]] else [], ["fc"], ["fc"])
  run := fun data _ => (data, (weight_list_of data "fc" 0).sum)

/-- The learning-rate table passed to a call of `backprop->run` holds `1.0e+6F` for the
layer and weight set under test and `0.0F` everywhere else. -/
def run_call.only_rate_under_test {F D : Type} (a : float_arith F D) (c : run_call F) : Prop :=
  c.learning_rates c.layer_name c.weight_set = a.large_rate ∧
  ∀ l s, (l, s) ≠ (c.layer_name, c.weight_set) → c.learning_rates l s = a.zero

/-- What `check_weights` establishes for the check of one weight of the weight set
`(layer_name, weight_set)`, `original_weights` being the weights saved before the update
run: the minus run gets the saved weights with the entry of the weight decreased by the
base step, the plus run gets them with this entry increased by the base step, the two
errors are those of these runs, and `gradient_checked` is
`static_cast<float>(plus_error - minus_error) / (2.0F * check_gradient_base_step)`. -/
def weight_check.central_difference {F D : Type} (env : gradient_checker F D)
    (layer_name : String) (weight_set : Nat) (original_weights : List F)
    (c : weight_check F D) : Prop :=
  weight_list_of c.minus_run.data layer_name weight_set =
    original_weights.set c.weight_id.toNat
      (env.arith.sub (original_weights.getD c.weight_id.toNat env.arith.zero)
        env.check_gradient_base_step) ∧
  weight_list_of c.plus_run.data layer_name weight_set =
    original_weights.set c.weight_id.toNat
      (env.arith.add (original_weights.getD c.weight_id.toNat env.arith.zero)
        env.check_gradient_base_step) ∧
  c.minus_error = (env.run c.minus_run.data c.minus_run.learning_rates).2 ∧
  c.plus_error = (env.run c.plus_run.data c.plus_run.learning_rates).2 ∧
  c.gradient_checked =
    env.arith.div (env.arith.to_float (env.arith.dsub c.plus_error c.minus_error))
      (env.arith.mul env.arith.two env.check_gradient_base_step)

/-- The run `backprop->run` keeps the number of weight sets of the layer and the length of
the weight vector `(layer_name, weight_set)`. -/
def run_keeps_shape {F D : Type} (env : gradient_checker F D) (layer_name : String)
    (weight_set : Nat) : Prop :=
  ∀ data rates,
    ((env.run data rates).1 layer_name).length = (data layer_name).length ∧
    (weight_list_of (env.run data rates).1 layer_name weight_set).length =
      (weight_list_of data layer_name weight_set).length

/-- The weights of `example_checker`: the layer `fc` with the single weight set
`[1, 2]`. -/
def example_weights : network_weights ℚ := fun name => if name = "fc" then [[1, 2]] else []

/-- The weights checked by `check_gradient`: for every weight set visited, in order, its
layer, its index and the ids of the weights checked in it. -/
def check_state.checked_weights {F D : Type} (st : check_state F D) :
    List (String × Nat × List Int) :=
  st.checked.map (fun c => (c.1, c.2.1, c.2.2.checks.map (fun k => k.weight_id)))

/-- Two sets of network weights have the same shape: every layer has as many weight sets in
the one as in the other, and every weight set as many weights. -/
def same_shape {F : Type} (a b : network_weights F) : Prop :=
  ∀ l, (a l).length = (b l).length ∧
    ∀ ws, (weight_list_of a l ws).length = (weight_list_of b l ws).length

/-- A checker like `example_checker` whose layer `fc` has one weight set of 23 weights, with
the default `check_gradient_max_weights_per_set` of 20. -/
def wide_checker : gradient_checker ℚ ℚ where
  arith := exact_arith
  check_gradient_base_step := 1 / 4
  check_gradient_max_weights_per_set := 20
  weight_gen := fun _ => 0
  setup := Except.ok (fun name => if name = "fc" then [List.replicate 23 1] else [], ["fc"],
    ["fc"])
  run := fun data _ => (data, 0)

/-- The weights of `wide_checker`: the layer `fc` with one weight set of 23 weights. -/
def wide_weights : network_weights ℚ :=
  fun name => if name = "fc" then [List.replicate 23 1] else []

/-! ### The reader epochs of `network_trainer::train` -/

/-- The arguments of the `reader.set_epoch` calls of a sequence of calls, in order. -/
def reader_epoch_ids : List call → List Nat
  | [] => []
  | call.set_epoch reader_epoch_id :: rest => reader_epoch_id :: reader_epoch_ids rest
  | _ :: rest => reader_epoch_ids rest

/-! ### `toolset::get_schema` -/

/-- The enumeration `schema_usage`. -/
inductive schema_usage where
  | schema_usage_train : schema_usage
  | schema_usage_validate_when_train : schema_usage
  | schema_usage_inference : schema_usage
  | schema_usage_dump_schema : schema_usage
deriving DecidableEq, Repr

/-- A layer of a schema, as far as `get_schema` sees it: its instance name, and the rest of
the layer (type and parameters), which `get_schema` does not look at. -/
structure layer (β : Type) where
  instance_name : String
  body : β

/-- The first loop of `get_schema` over `inference_force_data_layer_names`: for each name a
new layer created by the factory for the type `data` (`data_layer` is the body of such a
layer) gets the name and is appended to `new_layers`, and the name is inserted into
`exclude_layer_names`. -/
def force_data_layers {β : Type} (data_layer : β) :
    List String → List (layer β) × List String → List (layer β) × List String
  | [], acc => acc
  | it :: rest, (new_layers, exclude_layer_names) =>
    force_data_layers data_layer rest
      (new_layers ++ [⟨it, data_layer⟩], exclude_layer_names ++ [it])

/-- The second loop of `get_schema` over `all_layers`: a layer whose instance name is not in
`exclude_layer_names` is appended to `new_layers`. -/
def keep_other_layers {β : Type} (exclude_layer_names : List String) :
    List (layer β) → List (layer β) → List (layer β)
  | [], new_layers => new_layers
  | it :: rest, new_layers =>
    if it.instance_name ∉ exclude_layer_names then
      keep_other_layers exclude_layer_names rest (new_layers ++ [it])
    else keep_other_layers exclude_layer_names rest new_layers

/-- The function `toolset::get_schema`, a schema being the sequence of its layers:
`loaded` is the result of `load_schema()`, and `network_schema(new_layers)` keeps the
layers it is given. -/
def get_schema {β : Type} (data_layer : β) (inference_force_data_layer_names : List String)
    (loaded : List (layer β)) (usage : schema_usage) : List (layer β) :=
  if usage = schema_usage.schema_usage_inference ∧ inference_force_data_layer_names ≠ [] then
    let forced := force_data_layers data_layer inference_force_data_layer_names ([], [])
    keep_other_layers forced.2 loaded forced.1
  else loaded

/-! ### `toolset::get_starting_index_for_batch_training` and the snapshot list -/

/-- The character is a decimal digit (the class `\d` of the patterns). -/
def is_digit (c : Char) : Bool := decide (48 ≤ c.toNat) && decide (c.toNat ≤ 57)

/-- The rest of `s` after the leading characters `p`, if `s` starts with them. -/
def drop_leading : List Char → List Char → Option (List Char)
  | [], s => some s
  | _ :: _, [] => none
  | p :: ps, c :: cs => if p = c then drop_leading ps cs else none

/-- The match of `trained_ann_index_extractor_pattern`, `^ann_trained_(\d+)$`, on a folder
name: the digits captured, if the name matches. -/
def trained_ann_index_digits (folder_name : String) : Option (List Char) :=
  match drop_leading "ann_trained_".toList folder_name.toList with
  | none => none
  | some digits => if digits ≠ [] ∧ digits.all is_digit then some digits else none

/-- The match of `snapshot_ann_index_extractor_pattern`,
`^ann_trained_(\d+)_epoch_(\d+)$`, on a folder name: the two digit strings captured, if
the name matches. -/
def snapshot_ann_index_digits (folder_name : String) : Option (List Char × List Char) :=
  match drop_leading "ann_trained_".toList folder_name.toList with
  | none => none
  | some rest =>
    match drop_leading "_epoch_".toList (rest.dropWhile is_digit) with
    | none => none
    | some epoch_digits =>
      if rest.takeWhile is_digit ≠ [] ∧ epoch_digits ≠ [] ∧ epoch_digits.all is_digit then
        some (rest.takeWhile is_digit, epoch_digits)
      else none

/-- The loop of `get_starting_index_for_batch_training` over the entries of the batch
folder: `max_index` becomes the maximum of itself and the index of every entry whose name
matches, the index being read by `atol` into an `int`. -/
def max_trained_index : List String → Int → Int
  | [], max_index => max_index
  | folder_name :: rest, max_index =>
    match trained_ann_index_digits folder_name with
    | some digits => max_trained_index rest (max max_index (long_to_int (atol digits)))
    | none => max_trained_index rest max_index

/-- The function `toolset::get_starting_index_for_batch_training`:
`static_cast<unsigned int>(max_index + 1) + batch_offset`, in `unsigned int`. -/
def get_starting_index_for_batch_training (folder_names : List String) (batch_offset : Int) :
    Nat :=
  ((max_trained_index folder_names (-1) + 1 + batch_offset) % 2 ^ 32).toNat

/-- The loop of `toolset::train` over `leading_tasks`:
`starting_index = std::max(starting_index, it->index + 1)`, in `unsigned int`. -/
def raise_starting_index : List network_data_peek_entry → Nat → Nat
  | [], starting_index => starting_index
  | it :: rest, starting_index =>
    raise_starting_index rest (max starting_index ((it.index + 1) % 2 ^ 32))

/-- The starting index that `toolset::train` hands to the task peeker, given the names of
the entries of the batch folder and the tasks resumed from snapshots (none unless
`resume_from_snapshot` is set). -/
def train_starting_index (folder_names : List String) (batch_offset : Int)
    (leading_tasks : List network_data_peek_entry) : Nat :=
  raise_starting_index leading_tasks
    (get_starting_index_for_batch_training folder_names batch_offset)

/-- An entry of a directory: its file name and whether it is a directory. -/
structure directory_entry where
  folder_name : String
  is_directory : Bool
deriving DecidableEq, Repr

/-- The conversion `static_cast<unsigned int>` of a `long`. -/
def long_to_unsigned (z : Int) : Nat := (z % 2 ^ 32).toNat

/-- The body of the loop of `get_snapshot_ann_list` for one directory entry, `res` being the
`std::map` from index to epoch, kept as a function: an entry that is a directory, whose
name matches and whose index is not excluded, inserts its epoch for a new index and
raises the stored epoch to the maximum for a known one. -/
def snapshot_step (exclusion_ann_list : List Nat) (res : Nat → Option Nat)
    (it : directory_entry) : Nat → Option Nat :=
  if it.is_directory then
    match snapshot_ann_index_digits it.folder_name with
    | none => res
    | some (index_digits, epoch_digits) =>
      if long_to_unsigned (atol index_digits) ∉ exclusion_ann_list then
        match res (long_to_unsigned (atol index_digits)) with
        | none =>
          Function.update res (long_to_unsigned (atol index_digits))
            (some (long_to_unsigned (atol epoch_digits)))
        | some epoch =>
          Function.update res (long_to_unsigned (atol index_digits))
            (some (max epoch (long_to_unsigned (atol epoch_digits))))
      else res
  else res

/-- The function `toolset::get_snapshot_ann_list` on the entries of the snapshot folder. -/
def get_snapshot_ann_list (exclusion_ann_list : List Nat) (entries : List directory_entry) :
    Nat → Option Nat :=
  entries.foldl (snapshot_step exclusion_ann_list) (fun _ => none)

/-- Some directory among `entries` has a name that matches the snapshot pattern with index
`i` and epoch `e`. -/
def has_snapshot (entries : List directory_entry) (i e : Nat) : Prop :=
  ∃ it ∈ entries, it.is_directory = true ∧
    ∃ index_digits epoch_digits,
      snapshot_ann_index_digits it.folder_name = some (index_digits, epoch_digits) ∧
      long_to_unsigned (atol index_digits) = i ∧ long_to_unsigned (atol epoch_digits) = e

/-- The index of a folder of the batch folder: the number written by the digits of its name
`ann_trained_<digits>`, if the name has this form. -/
def trained_index (folder_name : String) : Option Nat :=
  (trained_ann_index_digits folder_name).map (atol_digits 0)

/-- The index and epoch that `get_snapshot_ann_list` reads from a directory entry, if the
entry is a directory whose name matches the snapshot pattern. -/
def entry_snapshot (it : directory_entry) : Option (Nat × Nat) :=
  if it.is_directory then
    (snapshot_ann_index_digits it.folder_name).map
      (fun d => (long_to_unsigned (atol d.1), long_to_unsigned (atol d.2)))
  else none

/-- The description of the map `res` of `get_snapshot_ann_list` after the entries `entries`:
an index without value is excluded or has no snapshot; the value of an index is the epoch
of one of its snapshots and is at least the epoch of each of them, and the index is not
excluded. -/
def snapshot_list_of (exclusion_ann_list : List Nat) (entries : List directory_entry)
    (res : Nat → Option Nat) : Prop :=
  ∀ i,
    (res i = none → i ∈ exclusion_ann_list ∨ ∀ e, ¬ has_snapshot entries i e) ∧
    (∀ v, res i = some v →
      i ∉ exclusion_ann_list ∧ has_snapshot entries i v ∧
        ∀ e, has_snapshot entries i e → e ≤ v)

/-- The function `toolset::get_trained_ann_list` on the entries of the batch folder: the
indices of the directories whose name matches `^ann_trained_(\d+)$`, read by `atol` into an
`unsigned int`.  The `std::set` is kept as a list. -/
def get_trained_ann_list (entries : List directory_entry) : List Nat :=
  entries.filterMap (fun it =>
    if it.is_directory then
      (trained_ann_index_digits it.folder_name).map
        (fun digits => long_to_unsigned (atol digits))
    else none)

/-- The map `snapshot_ann_list` of `toolset::get_snapshot_ann_list_entry_list`:
`get_snapshot_ann_list(get_trained_ann_list())`.  Every entry of this map becomes a task to
resume, its key the `index` and its value the `start_epoch` of the task. -/
def snapshot_ann_list (batch_entries snapshot_entries : List directory_entry) :
    Nat → Option Nat :=
  get_snapshot_ann_list (get_trained_ann_list batch_entries) snapshot_entries

/-- The index and the epoch written in a folder name `ann_trained_<index>_epoch_<epoch>`:
the numbers that the two digit strings denote, if the name has this form. -/
def snapshot_index_epoch (folder_name : String) : Option (Nat × Nat) :=
  (snapshot_ann_index_digits folder_name).map
    (fun d => (atol_digits 0 d.1, atol_digits 0 d.2))

/-- Some directory among `entries` is named `ann_trained_<i>_epoch_<e>`. -/
def snapshot_folder_named (entries : List directory_entry) (i e : Nat) : Prop :=
  ∃ it ∈ entries, it.is_directory = true ∧ snapshot_index_epoch it.folder_name = some (i, e)

/-- Some directory among `entries` is named `ann_trained_<i>`. -/
def trained_folder_named (entries : List directory_entry) (i : Nat) : Prop :=
  ∃ it ∈ entries, it.is_directory = true ∧ trained_index it.folder_name = some i

/-! ### The action scheduler

The scheduler is not among the files at hand; it is modelled from sections 3 and 4.2 of the
specification.  A layer is named by its position in the base forward order of the schema
graph, and an input reference is the position of the layer referred to. -/

/-- Modelled from the spec: the phases of an action, "phase ∈ {forward, backward-error,
backward-weight}". -/
inductive phase where
  | forward : phase
  | backward_error : phase
  | backward_weight : phase
deriving DecidableEq, Repr

/-- Modelled from the spec: an Action, "(layer, phase)", the layer given by its position in
the schema graph. -/
structure action where
  layer : Nat
  phase : phase
deriving DecidableEq, Repr

/-- Modelled from the spec: a LayerNode, as far as the scheduler needs it: its "ordered list
of input references" and whether it has "trainable parameters". -/
structure layer_node where
  inputs : List Nat
  has_parameters : Bool
deriving DecidableEq, Repr

/-- Modelled from the spec: a SchemaGraph, the "ordered collection of layer nodes" in their
base forward order. -/
abbrev schema_graph := List layer_node

/-- Modelled from the spec: the SchemaGraph invariant "every input reference resolves to an
earlier node". -/
def schema_graph.well_formed (g : schema_graph) : Prop :=
  ∀ (k : Nat) (node : layer_node), g[k]? = some node → ∀ i ∈ node.inputs, i < k

/-- The input references of the layer at position `k` (none outside the graph). -/
def schema_graph.inputs_of (g : schema_graph) (k : Nat) : List Nat :=
  match g[k]? with
  | some node => node.inputs
  | none => []

/-- Modelled from the spec: the "reverse (sink-to-source) reachability walk" of the
scheduler over the layers `k - 1, ..., 0`: a marked layer marks its inputs. -/
def schema_graph.reach (g : schema_graph) : Nat → List Nat → List Nat
  | 0, marked => marked
  | k + 1, marked =>
    if k ∈ marked then schema_graph.reach g k (g.inputs_of k ++ marked)
    else schema_graph.reach g k marked

/-- Modelled from the spec: the layers "whose forward output is needed", reached from "the
union of {requested outputs} ∪ {error sources}". -/
def forward_marked (g : schema_graph) (outputs error_sources : List Nat) : List Nat :=
  g.reach g.length (outputs ++ error_sources)

/-- Modelled from the spec: the layers "reachable from an error source". -/
def error_marked (g : schema_graph) (error_sources : List Nat) : List Nat :=
  g.reach g.length error_sources

/-- Modelled from the spec: the backward actions of one layer: "for each marked layer
reachable from an error source, mark its backward-error action; for each marked layer with
parameters not in the excluded set and reachable from an error source, mark its
backward-weight action", backward-error first. -/
def backward_actions_of (g : schema_graph) (error_sources excluded : List Nat) (k : Nat) :
    List action :=
  (if k ∈ error_marked g error_sources then [(⟨k, phase.backward_error⟩ : action)] else []) ++
  (if k ∈ error_marked g error_sources ∧
      (match g[k]? with
        | some node => node.has_parameters
        | none => false) = true ∧ k ∉ excluded
    then [(⟨k, phase.backward_weight⟩ : action)] else [])

/-- Modelled from the spec: the ActionSchedule emitted by the scheduler of section 4.2: the
forward actions of the marked layers in base forward order, then the backward actions in
reversed base order ("ties broken by the base forward order (reversed for backward
phases)"). -/
def action_schedule (g : schema_graph) (outputs error_sources excluded : List Nat) :
    List action :=
  List.map (fun k => (⟨k, phase.forward⟩ : action))
      ((List.range g.length).filter
        (fun k => decide (k ∈ forward_marked g outputs error_sources))) ++
  (List.range g.length).reverse.flatMap (backward_actions_of g error_sources excluded)

/-- The action `a` appears before the action `b` in the schedule: `[a, b]` is a subsequence
of it (each action appears at most once in a schedule). -/
def appears_before (schedule : List action) (a b : action) : Prop :=
  List.Sublist [a, b] schedule

/-- A graph of four layers: an input, two layers with parameters fed by it and by each
other, and an error layer on top. -/
def example_graph : schema_graph :=
  [⟨[], false⟩, ⟨[0], true⟩, ⟨[1], true⟩, ⟨[2, 0], false⟩]

/-! ### The buffer allocator

The buffer allocator is not among the files at hand; it is modelled from sections 3 and 4.3
of the specification.  The tensor produced by the action at position `k` of the schedule is
the tensor `k`.  Parameter tensors and persistent working data are "never reassigned" and
take no part in the slot assignment. -/

/-- Modelled from the spec: what the allocator reads of an action of the schedule: the size
of its output tensor, the positions of the actions whose outputs it consumes, and the
position of the backward action into which its output "must additionally survive", if
any. -/
structure scheduled_action where
  output_size : Nat
  consumes : List Nat
  retained_until : Option Nat
deriving DecidableEq, Repr

/-- The positions of the actions of the schedule that consume the tensor `k`. -/
def consumers (schedule : List scheduled_action) (k : Nat) : List Nat :=
  (List.range schedule.length).filter
    (fun j => match schedule[j]? with
      | some a => decide (k ∈ a.consumes)
      | none => false)

/-- Modelled from the spec: the death point of the tensor `k`: "the last action index that
consumes it", and the action it is retained for, "regardless of [its] natural death
point". -/
def death_point (schedule : List scheduled_action) (k : Nat) : Nat :=
  max ((consumers schedule k).foldl max k)
    (match schedule[k]? with
      | some a => a.retained_until.getD 0
      | none => 0)

/-- Modelled from the spec: a memory slot: its size and the death point of the tensor that
holds it. -/
structure memory_slot where
  size : Nat
  death : Nat
deriving DecidableEq, Repr

/-- Modelled from the spec: among the candidate slots, "a free slot whose size is ≥ the
requested size with minimum waste": the candidate of least size, the first of them. -/
def pick_min_waste (slots : List memory_slot) : List Nat → Option Nat → Option Nat
  | [], best => best
  | s :: rest, none => pick_min_waste slots rest (some s)
  | s :: rest, some b =>
    if (slots.getD s ⟨0, 0⟩).size < (slots.getD b ⟨0, 0⟩).size then
      pick_min_waste slots rest (some s)
    else pick_min_waste slots rest (some b)

/-- Modelled from the spec: the free-list lookup at the position `position` for a tensor of
the size `size`: the slots "whose death point has passed" and whose size is at least
`size`, and the best fit among them. -/
def best_fit (slots : List memory_slot) (position size : Nat) : Option Nat :=
  pick_min_waste slots
    ((List.range slots.length).filter
      (fun s => decide ((slots.getD s ⟨0, 0⟩).death < position) &&
        decide (size ≤ (slots.getD s ⟨0, 0⟩).size)))
    none

/-- Modelled from the spec: the state of the slot assignment: the slots allocated so far and
the BufferPlan so far, the memory-slot id and the death point of each tensor. -/
structure buffer_plan_state where
  slots : List memory_slot
  plan : List (Nat × Nat)
deriving DecidableEq, Repr

/-- Modelled from the spec: the slot assignment of the tensor `k`: "assign from a free-list
before allocating a new slot". -/
def assign_slot (schedule : List scheduled_action) (st : buffer_plan_state) (k : Nat) :
    buffer_plan_state :=
  let size := (schedule.getD k ⟨0, [], none⟩).output_size
  match best_fit st.slots k size with
  | some s =>
    { slots := st.slots.set s ⟨(st.slots.getD s ⟨0, 0⟩).size, death_point schedule k⟩
      plan := st.plan ++ [(s, death_point schedule k)] }
  | none =>
    { slots := st.slots ++ [⟨size, death_point schedule k⟩]
      plan := st.plan ++ [(st.slots.length, death_point schedule k)] }

/-- Modelled from the spec: the slot assignment after the first `k` actions: "process
actions in schedule order". -/
def buffer_plan_upto (schedule : List scheduled_action) (k : Nat) : buffer_plan_state :=
  (List.range k).foldl (assign_slot schedule) ⟨[], []⟩

/-- Modelled from the spec: the BufferPlan of a schedule: for each tensor its memory-slot
id and its death point. -/
def buffer_plan (schedule : List scheduled_action) : List (Nat × Nat) :=
  (buffer_plan_upto schedule schedule.length).plan

/-- Modelled from the spec: `peakBytes()`, the total size of the slots of the plan. -/
def peak_bytes (schedule : List scheduled_action) : Nat :=
  ((buffer_plan_upto schedule schedule.length).slots.map (fun s => s.size)).sum

/-- A schedule of five actions: the outputs of the actions 0 and 1 are consumed by the
action 2, the output of 2 by 3 and 4, and the output of 0 is retained for the action 4. -/
def example_schedule : List scheduled_action :=
  [⟨8, [], some 4⟩, ⟨4, [0], none⟩, ⟨4, [0, 1], none⟩, ⟨4, [2], none⟩, ⟨2, [2, 3], none⟩]

/-- What the slot assignment keeps true after the first `k` tensors: the plan has `k`
entries; each entry holds the death point of its tensor and a slot that exists and whose
recorded death point is at least that of the tensor; and two tensors in the same slot do
not overlap: the earlier one has died before the position of the later one. -/
def buffer_plan_invariant (schedule : List scheduled_action) (k : Nat)
    (st : buffer_plan_state) : Prop :=
  st.plan.length = k ∧
  (∀ i s d : Nat, st.plan[i]? = some (s, d) →
    d = death_point schedule i ∧ ∃ sl, st.slots[s]? = some sl ∧ d ≤ sl.death) ∧
  (∀ i j si di sj dj : Nat, i < j → st.plan[i]? = some (si, di) →
    st.plan[j]? = some (sj, dj) → si = sj → di < j)

/-! ### `convolution_layer_tester_cuda::get_temporary_working_fixed_buffer_size` -/

/-- The loop of `get_temporary_working_fixed_buffer_size` over the window sizes:
`working_buffer_elem_count *= window_sizes[i]`, in `unsigned int`. -/
def multiply_window_sizes : List Nat → Nat → Nat
  | [], working_buffer_elem_count => working_buffer_elem_count
  | window_size :: rest, working_buffer_elem_count =>
    multiply_window_sizes rest ((working_buffer_elem_count * window_size) % 2 ^ 32)

/-- The function `convolution_layer_tester_cuda::get_temporary_working_fixed_buffer_size`:
the element count is the larger feature-map count times the window sizes, in
`unsigned int`; the size is the element count times `sizeof(int)`, in `size_t` (64 bits),
but at least `1024*1024`.  `is_over_sol_algos_available` is the result of the `cudnn_util`
function of that name; element 0 of an empty input list is undefined behaviour. -/
def get_temporary_working_fixed_buffer_size (is_over_sol_algos_available : Bool)
    (window_sizes : List Nat)
    (input_configuration_specific_list : List layer_configuration_specific)
    (output_configuration_specific : layer_configuration_specific) :
    Except failure (Nat × Bool) :=
  match input_configuration_specific_list with
  | [] => Except.error failure.undefined_behaviour
  | input0 :: _ =>
    Except.ok
      (max
        ((multiply_window_sizes window_sizes
            (max input0.feature_map_count output_configuration_specific.feature_map_count
              % 2 ^ 32)
          * 4) % 2 ^ 64)
        (1024 * 1024),
      is_over_sol_algos_available)

/-! ### `is_broken` as a single comparison -/

/-- The sanity test of `is_broken` as the statement under study words it: the single
comparison `error < 1.0e10`. -/
def sanity_check_single_comparison (error : double) : Bool :=
  double.lt error threshold

/-- The result of `is_broken` as the statement under study words it: some value of the last
history entry fails the single comparison `error < 1.0e10`. -/
def is_broken_single_comparison (state : training_task_state) : Option Bool :=
  match state.history.getLast? with
  | none => none
  | some back =>
    some (back.2.any (fun it => it.2.2.any (fun error => !sanity_check_single_comparison error)))

/-- A task with two history entries: an earlier one with the error `1e12`, and the latest
one with the errors `-1e12` and minus infinity. -/
def task_recovered : training_task_state :=
  { index_peeked := 0, data := ⟨0⟩, momentum_data := none, momentum_data2 := none,
    initial_epoch := 0,
    history := [(0, [("loss", (⟨1, [1]⟩, [double.finite 1000000000000]))]),
      (1, [("loss", (⟨1, [2]⟩, [double.finite (-1000000000000), double.neg_inf]))])] }

/-! ### `toolset::shuffle_data` -/

/-- The call `std::swap(v[i], v[j])` on the elements of a vector; positions outside the
vector, which the callers never pass, leave it as it is. -/
def swap_elements {α : Type} (l : List α) (i j : Nat) : List α :=
  match l[i]?, l[j]? with
  | some a, some b => (l.set i b).set j a
  | _, _ => l

/-- The swap loop of `shuffle_data`, at the loop variable `i + 1` and going down to 1: draw
`index` from `0 .. i + 1` and swap `shuffled_indexes[i + 1]` with `shuffled_indexes[index]`.
`rnd draw` is the raw value of the random generator at the `draw`-th draw, which
`std::uniform_int_distribution` maps into the requested range. -/
def shuffle_loop (rnd : Nat → Nat) : Nat → Nat → List Nat → List Nat
  | 0, _, shuffled_indexes => shuffled_indexes
  | i + 1, draw, shuffled_indexes =>
    let index := rnd draw % (i + 1 + 1)
    shuffle_loop rnd i (draw + 1) (swap_elements shuffled_indexes (i + 1) index)

/-- The vector `shuffled_indexes` that `shuffle_data` builds for `entry_count` entries: the
identity, then the swap loop from `entry_count - 1` down to 1.  At this point `entry_count`
is a positive `int`, so the casts to `unsigned int` keep its value. -/
def shuffled_indexes (rnd : Nat → Nat) (entry_count : Nat) : List Nat :=
  shuffle_loop rnd (entry_count - 1) 0 (List.range entry_count)

/-- A data file of a dataset: its path, the entry count that its reader reports (negative
when unknown), and its entries. -/
structure data_file (α : Type) where
  path : String
  entry_count : Int
  entries : List α

/-- The first loop of `shuffle_data` over the data files: every file must report an entry
count, and the same one as the files before it. -/
def common_entry_count {α : Type} : List (data_file α) → Int → Except failure Int
  | [], entry_count => Except.ok entry_count
  | it :: rest, entry_count =>
    if it.entry_count < 0 then
      Except.error (failure.runtime_error ("Unknown entry count in " ++ it.path))
    else if entry_count < 0 then common_entry_count rest it.entry_count
    else if entry_count ≠ it.entry_count then
      Except.error (failure.runtime_error
        ("Entry count mismatch: " ++ toString entry_count ++ " and " ++
          toString it.entry_count))
    else common_entry_count rest entry_count

/-- The copy loop of `shuffle_data` for one file: the entry written at the position `i` is
the entry read at the position `shuffled_indexes[i]`, for `i` from 0 to
`entry_count - 1`. -/
def shuffle_file {α : Type} (shuffled : List Nat) (entry_count : Nat) (entries : List α) :
    List α :=
  (List.range entry_count).filterMap (fun i => (shuffled[i]?).bind (fun j => entries[j]?))

/-- The function `toolset::shuffle_data` on the data files of the dataset, in the order of
their names: it fails when a file has no entry count, when two files differ in it, or when
there is no file; it leaves the files as they are when they have no entries; otherwise it
rewrites every file in the order given by one vector `shuffled_indexes`. -/
def shuffle_data {α : Type} (rnd : Nat → Nat) (shuffle_dataset_name : String)
    (data_files : List (data_file α)) : Except failure (List (data_file α)) :=
  match common_entry_count data_files (-1) with
  | Except.error e => Except.error e
  | Except.ok entry_count =>
    if entry_count < 0 then
      Except.error (failure.runtime_error
        ("No data found for dataset " ++ shuffle_dataset_name))
    else if entry_count = 0 then Except.ok data_files
    else
      Except.ok (data_files.map (fun it =>
        { it with
          entries := shuffle_file (shuffled_indexes rnd entry_count.toNat) entry_count.toNat
            it.entries }))

/-! ## Theorems -/

theorem sanity_check_false_iff (e : double) :
    sanity_check e = false ↔ nan_or_at_least_threshold e := by
  cases e with
  | nan => simp [sanity_check, double.lt, nan_or_at_least_threshold]
  | neg_inf =>
    simp [sanity_check, double.lt, double.gt, double.neg, threshold, nan_or_at_least_threshold]
  | pos_inf =>
    simp [sanity_check, double.lt, double.gt, double.neg, threshold, nan_or_at_least_threshold]
  | finite q =>
    simp only [sanity_check, double.lt, double.gt, double.neg, threshold,
      nan_or_at_least_threshold]
    by_cases h : q < 10000000000
    · have h2 : ¬ (10000000000 ≤ q) := not_le.mpr h
      have h3 : (-10000000000 : ℚ) < -q := by linarith
      have h4 : ¬ (-q < (-10000000000 : ℚ)) := by linarith
      simp [h, h2, h3, h4]
    · have h2 : 10000000000 ≤ q := not_lt.mp h
      simp [h, h2]

theorem is_broken_values_iff (l : List double) :
    is_broken_values l = true ↔ ∃ e ∈ l, nan_or_at_least_threshold e := by
  induction l with
  | nil => simp [is_broken_values]
  | cons e rest ih =>
    by_cases h : sanity_check e = false
    · simp [is_broken_values, h, (sanity_check_false_iff e).mp h]
    · have h2 : ¬ nan_or_at_least_threshold e := fun hn => h ((sanity_check_false_iff e).mpr hn)
      simp only [Bool.not_eq_false] at h
      simp [is_broken_values, h, h2, ih]

theorem is_broken_map_iff (m : List (String × error_stat)) :
    is_broken_map m = true ↔ ∃ it ∈ m, ∃ e ∈ it.2.2, nan_or_at_least_threshold e := by
  induction m with
  | nil => simp [is_broken_map]
  | cons it rest ih =>
    by_cases h : is_broken_values it.2.2 = true
    · have := (is_broken_values_iff it.2.2).mp h
      simp only [is_broken_map, h, if_true, List.mem_cons, true_iff]
      exact ⟨it, Or.inl rfl, this⟩
    · have h2 : ¬ ∃ e ∈ it.2.2, nan_or_at_least_threshold e :=
        fun hn => h ((is_broken_values_iff it.2.2).mpr hn)
      have h3 : is_broken_values it.2.2 = false := by simpa using h
      simp only [is_broken_map, h3, Bool.false_eq_true, if_false, ih, List.mem_cons]
      constructor
      · rintro ⟨x, hx, he⟩
        exact ⟨x, Or.inr hx, he⟩
      · rintro ⟨x, hx | hx, he⟩
        · exact absurd (hx ▸ he) h2
        · exact ⟨x, hx, he⟩

/-- C1 (as the code behaves): for a task state with a non-empty history, `is_broken`
returns true exactly when some error value of the most recent history entry is NaN or is
at least `1e10` (plus infinity included); no negative value, minus infinity included,
makes it return true. -/
theorem is_broken_iff_nan_or_at_least_threshold (state : training_task_state)
    (back : history_entry) (hback : state.history.getLast? = some back) :
    is_broken state = some true ↔
      ∃ it ∈ back.2, ∃ e ∈ it.2.2, nan_or_at_least_threshold e := by
  simp only [is_broken, hback, Option.some.injEq]
  exact is_broken_map_iff back.2

/-- Witness of C1: the task `task_diverged`, whose latest entry holds `1e12`, is broken. -/
theorem is_broken_iff_nan_or_at_least_threshold_witness :
    task_diverged.history.getLast? =
        some (0, [("loss", (⟨1, [2]⟩, [double.finite 3, double.finite 1000000000000]))]) ∧
      (is_broken task_diverged = some true ↔
        ∃ it ∈ [("loss", ((⟨1, [2]⟩ : layer_configuration_specific),
            [double.finite 3, double.finite 1000000000000]))],
          ∃ e ∈ it.2.2, nan_or_at_least_threshold e) :=
  ⟨rfl, is_broken_iff_nan_or_at_least_threshold task_diverged _ rfl⟩

/-- C1 fails as stated: the latest history entry of `task_negative_error` holds `-1e12`,
whose absolute value is greater than `1e10`, and `is_broken` returns false. -/
theorem is_broken_misses_negative_error :
    is_broken task_negative_error = some false ∧
      ∃ back, task_negative_error.history.getLast? = some back ∧
        ∃ it ∈ back.2, ∃ e ∈ it.2.2, non_finite_or_absurd e := by
  refine ⟨by decide, _, rfl, _, List.mem_singleton.mpr rfl, _, List.mem_singleton.mpr rfl, ?_⟩
  simp only [non_finite_or_absurd]
  norm_num [abs_of_neg]

/-! ### The calls made by `train` -/

theorem epoch_loop_calls {σ : Type} (tr : network_trainer σ) (fuel : Nat) :
    ∀ (w : σ) (task : training_task_state) (rid : Nat),
      epoch_calls tr (epoch_loop tr fuel w task rid).calls
        (epoch_loop tr fuel w task rid).stopped := by
  induction fuel with
  | zero => intro w task rid; exact epoch_calls.out_of_fuel
  | succ fuel ih =>
    intro w task rid
    simp only [epoch_loop]
    split
    · next hb => exact epoch_calls.undefined _ _ hb
    · next hb => exact epoch_calls.broken _ _ hb
    · next hb =>
      split
      · next hl => exact epoch_calls.last _ _ hb hl
      · next hl =>
        have hl2 : is_last_epoch tr (tr.train_step (tr.set_epoch rid w) task).2 = false := by
          simpa using hl
        exact epoch_calls.next _ _ _ _ hb hl2 (ih _ _ _)

theorem run_task_calls {σ : Type} (tr : network_trainer σ) (fuel : Nat) (w : σ)
    (e : network_data_peek_entry) (data : network_data) :
    ((run_task tr fuel w e data).calls = [] ∧ (run_task tr fuel w e data).stopped = status.done)
      ∨ epoch_calls tr (run_task tr fuel w e data).calls (run_task tr fuel w e data).stopped := by
  unfold run_task
  split
  · exact Or.inl ⟨rfl, rfl⟩
  · exact Or.inr (epoch_loop_calls tr fuel _ _ _)

theorem train_loop_calls {σ : Type} (tr : network_trainer σ) (fuel : Nat) :
    ∀ (w : σ), train_calls tr (train_loop tr fuel w).calls (train_loop tr fuel w).stopped := by
  induction fuel with
  | zero => intro w; exact train_calls.out_of_fuel
  | succ fuel ih =>
    intro w
    simp only [train_loop]
    split
    · next he => exact train_calls.no_data _ he
    · next data he =>
      have hne : (tr.peek w).1.data ≠ none := by simp [he]
      rcases run_task_calls tr fuel (tr.peek w).2 (tr.peek w).1 data with ⟨hnil, hdone⟩ | hcalls
      · simp only [hdone, hnil, List.nil_append]
        exact train_calls.skipped _ _ _ hne (ih _)
      · split
        · next hst =>
          rw [hst] at hcalls
          exact train_calls.task _ _ _ _ hne hcalls (ih _)
        · next s hst =>
          refine train_calls.stopped _ _ _ hne hcalls ?_
          intro hd
          exact hst hd

theorem train_calls_of_train {σ : Type} (tr : network_trainer σ) (fuel : Nat) (w : σ) :
    train_calls tr (train tr fuel w).calls (train tr fuel w).stopped :=
  train_loop_calls tr fuel _

theorem epoch_calls_ne_nil {σ : Type} {tr : network_trainer σ} {l : List call} {s : status}
    (h : epoch_calls tr l s) (hs : s ≠ status.out_of_fuel) : l ≠ [] := by
  cases h <;> simp_all

theorem epoch_calls_head {σ : Type} {tr : network_trainer σ} {l : List call} {s : status}
    (h : epoch_calls tr l s) : ∀ c ∈ l.head?, ∃ rid, c = call.set_epoch rid := by
  cases h <;> simp

theorem epoch_calls_getLast {σ : Type} {tr : network_trainer σ} {l : List call} {s : status}
    (h : epoch_calls tr l s) :
    ∀ c ∈ l.getLast?, (∃ t, c = call.push t ∧ s = status.done) ∨
      (∃ t, c = call.progress_push t ∧
        (is_broken t = some true ∨ s ≠ status.done)) := by
  induction h with
  | out_of_fuel => simp
  | undefined rid t hb => simp
  | broken rid t hb => simp [hb]
  | last rid t hb hl => simp
  | next rid t l s hb hl hrest ih =>
    intro c hc
    by_cases hnil : l = []
    · subst hnil
      cases hrest
      simp at hc
      subst hc
      exact Or.inr ⟨t, rfl, Or.inr (by simp)⟩
    · have : (call.set_epoch rid :: call.train_step t :: call.progress_push t :: l).getLast?
          = l.getLast? := by
        have h3 : call.set_epoch rid :: call.train_step t :: call.progress_push t :: l
            = [call.set_epoch rid, call.train_step t, call.progress_push t] ++ l := rfl
        rw [h3, List.getLast?_append_of_ne_nil _ hnil]
      rw [this] at hc
      exact ih c hc

theorem epoch_calls_chain {σ : Type} {tr : network_trainer σ} {l : List call} {s : status}
    (h : epoch_calls tr l s) : List.Chain' call.may_precede l := by
  induction h with
  | out_of_fuel => exact List.chain'_nil
  | undefined rid t hb => simp [call.may_precede]
  | broken rid t hb => simp [call.may_precede]
  | last rid t hb hl => simp [call.may_precede, hb]
  | next rid t l s hb hl hrest ih =>
    refine List.Chain'.cons (by simp [call.may_precede]) ?_
    refine List.Chain'.cons (by simp [call.may_precede]) ?_
    rw [List.chain'_cons']
    refine ⟨?_, ih⟩
    intro y hy
    obtain ⟨rid2, rfl⟩ := epoch_calls_head hrest y hy
    exact Or.inr ⟨hb, Or.inr ⟨rid2, rfl⟩⟩

theorem train_calls_head {σ : Type} {tr : network_trainer σ} {l : List call} {s : status}
    (h : train_calls tr l s) : ∀ c ∈ l.head?, ∃ e, c = call.peek e := by
  cases h <;> simp

theorem train_calls_chain {σ : Type} {tr : network_trainer σ} {l : List call} {s : status}
    (h : train_calls tr l s) : List.Chain' call.may_precede l := by
  induction h with
  | out_of_fuel => exact List.chain'_nil
  | no_data e he => exact List.chain'_singleton _
  | skipped e l s he hrest ih =>
    rw [List.chain'_cons']
    refine ⟨?_, ih⟩
    intro y hy
    exact Or.inl (train_calls_head hrest y hy)
  | task e l₁ l₂ s he htask hrest ih =>
    rw [List.chain'_cons']
    constructor
    · intro y hy
      have hne : l₁ ≠ [] := epoch_calls_ne_nil htask (by simp)
      have hy2 : y ∈ l₁.head? := by
        cases l₁ with
        | nil => exact absurd rfl hne
        | cons a l => simpa using hy
      exact Or.inr (epoch_calls_head htask y hy2)
    · rw [List.chain'_append]
      refine ⟨epoch_calls_chain htask, ih, ?_⟩
      intro x hx y hy
      obtain ⟨e2, rfl⟩ := train_calls_head hrest y hy
      rcases epoch_calls_getLast htask x hx with ⟨t, rfl, _⟩ | ⟨t, rfl, hb | hb⟩
      · exact ⟨e2, rfl⟩
      · exact Or.inl ⟨hb, e2, rfl⟩
      · exact absurd rfl hb
  | stopped e l s he htask hs =>
    rw [List.chain'_cons']
    refine ⟨?_, epoch_calls_chain htask⟩
    intro y hy
    exact Or.inr (epoch_calls_head htask y hy)

theorem epoch_calls_no_peek {σ : Type} {tr : network_trainer σ} {l : List call} {s : status}
    (h : epoch_calls tr l s) : ∀ e, call.peek e ∉ l := by
  induction h with
  | out_of_fuel => simp
  | undefined rid t hb => simp
  | broken rid t hb => simp
  | last rid t hb hl => simp
  | next rid t l s hb hl hrest ih => simpa using ih

theorem epoch_calls_push_not_broken {σ : Type} {tr : network_trainer σ} {l : List call}
    {s : status} (h : epoch_calls tr l s) :
    ∀ t, call.push t ∈ l → is_broken t = some false ∧ is_last_epoch tr t = true := by
  induction h with
  | out_of_fuel => simp
  | undefined rid t hb => simp
  | broken rid t hb => simp
  | last rid t hb hl =>
    intro u hu
    simp at hu
    subst hu
    exact ⟨hb, hl⟩
  | next rid t l s hb hl hrest ih =>
    intro u hu
    simp at hu
    exact ih u hu

theorem epoch_calls_broken_no_push {σ : Type} {tr : network_trainer σ} {l : List call}
    {s : status} (h : epoch_calls tr l s) :
    (∃ t, call.progress_push t ∈ l ∧ is_broken t = some true) → ∀ u, call.push u ∉ l := by
  induction h with
  | out_of_fuel => simp
  | undefined rid t hb => simp
  | broken rid t hb => simp
  | last rid t hb hl =>
    rintro ⟨u, hu, hbu⟩
    simp at hu
    subst hu
    rw [hb] at hbu
    cases hbu
  | next rid t l s hb hl hrest ih =>
    rintro ⟨u, hu, hbu⟩ v
    simp at hu
    rcases hu with rfl | hu
    · rw [hb] at hbu
      cases hbu
    · simpa using ih ⟨u, hu, hbu⟩ v

theorem train_calls_push_not_broken {σ : Type} {tr : network_trainer σ} {l : List call}
    {s : status} (h : train_calls tr l s) :
    ∀ t, call.push t ∈ l → is_broken t = some false ∧ is_last_epoch tr t = true := by
  induction h with
  | out_of_fuel => simp
  | no_data e he => simp
  | skipped e l s he hrest ih =>
    intro t ht
    simp at ht
    exact ih t ht
  | task e l₁ l₂ s he htask hrest ih =>
    intro t ht
    simp at ht
    rcases ht with ht | ht
    · exact epoch_calls_push_not_broken htask t ht
    · exact ih t ht
  | stopped e l s he htask hs =>
    intro t ht
    simp at ht
    exact epoch_calls_push_not_broken htask t ht

theorem epoch_calls_count {σ : Type} {tr : network_trainer σ} {l : List call} {s : status}
    (h : epoch_calls tr l s) (p : training_task_state → Bool) :
    l.countP (call.is_train_step p) = l.countP (call.is_progress_push p) := by
  induction h with
  | out_of_fuel => rfl
  | undefined rid t hb =>
    cases hp : p t <;> simp [List.countP_cons, call.is_train_step, call.is_progress_push, hp]
  | broken rid t hb =>
    cases hp : p t <;> simp [List.countP_cons, call.is_train_step, call.is_progress_push, hp]
  | last rid t hb hl =>
    cases hp : p t <;> simp [List.countP_cons, call.is_train_step, call.is_progress_push, hp]
  | next rid t l s hb hl hrest ih =>
    cases hp : p t <;>
      simp [List.countP_cons, call.is_train_step, call.is_progress_push, hp, ih]

theorem train_calls_count {σ : Type} {tr : network_trainer σ} {l : List call} {s : status}
    (h : train_calls tr l s) (p : training_task_state → Bool) :
    l.countP (call.is_train_step p) = l.countP (call.is_progress_push p) := by
  induction h with
  | out_of_fuel => rfl
  | no_data e he => simp [List.countP_cons, call.is_train_step, call.is_progress_push]
  | skipped e l s he hrest ih =>
    simp [List.countP_cons, call.is_train_step, call.is_progress_push, ih]
  | task e l₁ l₂ s he htask hrest ih =>
    simp [List.countP_cons, List.countP_append, call.is_train_step, call.is_progress_push, ih,
      epoch_calls_count htask p]
  | stopped e l s he htask hs =>
    simp [List.countP_cons, call.is_train_step, call.is_progress_push,
      epoch_calls_count htask p]

theorem train_calls_getLast {σ : Type} {tr : network_trainer σ} {l : List call} {s : status}
    (h : train_calls tr l s) :
    ∀ c ∈ l.getLast?, (∃ e, c = call.peek e) ∨ (∃ t, c = call.push t) ∨
      (∃ t, c = call.progress_push t) := by
  induction h with
  | out_of_fuel => simp
  | no_data e he => simp
  | skipped e l s he hrest ih =>
    intro c hc
    cases l with
    | nil => simp at hc; exact Or.inl ⟨e, hc.symm⟩
    | cons a l => rw [List.getLast?_cons_cons] at hc; exact ih c hc
  | task e l₁ l₂ s he htask hrest ih =>
    intro c hc
    have hne : l₁ ≠ [] := epoch_calls_ne_nil htask (by simp)
    have h1 : (call.peek e :: (l₁ ++ l₂)).getLast? = (l₁ ++ l₂).getLast? := by
      cases l₁ with
      | nil => exact absurd rfl hne
      | cons a l => simp [List.getLast?_cons_cons]
    rw [h1] at hc
    by_cases h2 : l₂ = []
    · subst h2
      rw [List.append_nil] at hc
      rcases epoch_calls_getLast htask c hc with ⟨t, rfl, _⟩ | ⟨t, rfl, _⟩
      · exact Or.inr (Or.inl ⟨t, rfl⟩)
      · exact Or.inr (Or.inr ⟨t, rfl⟩)
    · rw [List.getLast?_append_of_ne_nil _ h2] at hc
      exact ih c hc
  | stopped e l s he htask hs =>
    intro c hc
    cases l with
    | nil => simp at hc; exact Or.inl ⟨e, hc.symm⟩
    | cons a l =>
      rw [List.getLast?_cons_cons] at hc
      rcases epoch_calls_getLast htask c hc with ⟨t, rfl, _⟩ | ⟨t, rfl, _⟩
      · exact Or.inr (Or.inl ⟨t, rfl⟩)
      · exact Or.inr (Or.inr ⟨t, rfl⟩)

theorem train_calls_done {σ : Type} {tr : network_trainer σ} {l : List call} {s : status}
    (h : train_calls tr l s) (hs : s = status.done) :
    ∃ pre e, l = pre ++ [call.peek e] ∧ e.data = none ∧
      ∀ e2, call.peek e2 ∈ pre → e2.data ≠ none := by
  induction h with
  | out_of_fuel => cases hs
  | no_data e he => exact ⟨[], e, rfl, he, by simp⟩
  | skipped e l s he hrest ih =>
    obtain ⟨pre, e1, hl, he1, hpre⟩ := ih hs
    refine ⟨call.peek e :: pre, e1, by rw [hl]; rfl, he1, ?_⟩
    intro e2 he2
    simp at he2
    rcases he2 with rfl | he2
    · exact he
    · exact hpre e2 he2
  | task e l₁ l₂ s he htask hrest ih =>
    obtain ⟨pre, e1, hl, he1, hpre⟩ := ih hs
    refine ⟨call.peek e :: (l₁ ++ pre), e1, by rw [hl]; simp, he1, ?_⟩
    intro e2 he2
    simp at he2
    rcases he2 with rfl | he2 | he2
    · exact he
    · exact absurd he2 (epoch_calls_no_peek htask e2)
    · exact hpre e2 he2
  | stopped e l s he htask hs2 => exact absurd hs hs2

/-- C2: the final pusher is never invoked for a task that `is_broken` reported as broken.
(1) An iteration of the epoch loop whose `train_step` leaves the task broken makes the
calls `set_epoch`, `train_step`, progress push and leaves the loop, whatever
`is_last_epoch` says of the task.  (2) If among the calls made for one peeked task there
is the progress push of a broken task state, there is no final push among them.  (3) In a
whole run of `train`, every final push is of a task state that `is_broken` reports as not
broken. -/
theorem train_never_pushes_broken_task {σ : Type} (tr : network_trainer σ) (fuel : Nat)
    (w : σ) (task : training_task_state) (rid : Nat) (e : network_data_peek_entry)
    (data : network_data) :
    (is_broken (tr.train_step (tr.set_epoch rid w) task).2 = some true →
      (epoch_loop tr (fuel + 1) w task rid).stopped = status.done ∧
      (epoch_loop tr (fuel + 1) w task rid).calls =
        [call.set_epoch rid, call.train_step (tr.train_step (tr.set_epoch rid w) task).2,
          call.progress_push (tr.train_step (tr.set_epoch rid w) task).2]) ∧
    ((∃ t, call.progress_push t ∈ (run_task tr fuel w e data).calls ∧
        is_broken t = some true) →
      ∀ u, call.push u ∉ (run_task tr fuel w e data).calls) ∧
    (∀ t, call.push t ∈ (train tr fuel w).calls → is_broken t = some false) := by
  refine ⟨?_, ?_, ?_⟩
  · intro hb
    simp [epoch_loop, hb]
  · rcases run_task_calls tr fuel w e data with ⟨hnil, _⟩ | hcalls
    · simp [hnil]
    · exact epoch_calls_broken_no_push hcalls
  · intro t ht
    exact (train_calls_push_not_broken (train_calls_of_train tr fuel w) t ht).1

/-- C3: in every run of `train`, each `train_step` call is immediately followed by the
progress push of the same task state, no run ends on a `train_step`, a final push comes
only right after the progress push of the same task state, and for every selection `p` of
task states the number of `train_step` calls equals the number of progress pushes. -/
theorem train_progress_push_after_every_train_step {σ : Type} (tr : network_trainer σ)
    (fuel : Nat) (w : σ) :
    List.Chain' (fun a b => ∀ t, a = call.train_step t → b = call.progress_push t)
        (train tr fuel w).calls ∧
    (∀ t, (train tr fuel w).calls.getLast? ≠ some (call.train_step t)) ∧
    List.Chain' (fun a b => ∀ t, b = call.push t → a = call.progress_push t)
        (train tr fuel w).calls ∧
    (∀ p : training_task_state → Bool,
      (train tr fuel w).calls.countP (call.is_train_step p) =
        (train tr fuel w).calls.countP (call.is_progress_push p)) := by
  have h := train_calls_of_train tr fuel w
  refine ⟨?_, ?_, ?_, fun p => train_calls_count h p⟩
  · refine List.Chain'.imp ?_ (train_calls_chain h)
    intro a b hab t ha
    subst ha
    exact hab
  · intro t ht
    rcases train_calls_getLast h _ (Option.mem_def.mpr ht) with ⟨_, h1⟩ | ⟨_, h1⟩ | ⟨_, h1⟩ <;>
      cases h1
  · refine List.Chain'.imp ?_ (train_calls_chain h)
    intro a b hab t hb
    subst hb
    cases a with
    | peek e1 =>
      rcases hab with ⟨_, h1⟩ | ⟨_, h1⟩ <;> cases h1
    | set_epoch r => obtain ⟨_, h1⟩ := hab; cases h1
    | train_step u => cases hab
    | progress_push u =>
      rcases hab with ⟨_, _, h1⟩ | ⟨_, h1 | ⟨_, h1⟩⟩
      · cases h1
      · cases h1; rfl
      · cases h1
    | push u => obtain ⟨_, h1⟩ := hab; cases h1

/-- C5: in every run of `train`, a call that ends the epoch loop of a task (a final push,
or the progress push of a broken task) is followed, if anything follows, by a peek; and
when `train` returns, the last call is a peek that yielded no data, so a call that ends a
task is never the last one, and every earlier peek yielded data. -/
theorem train_peeks_after_every_task {σ : Type} (tr : network_trainer σ) (fuel : Nat)
    (w : σ) :
    List.Chain' (fun a b => call.ends_task a → ∃ e, b = call.peek e)
        (train tr fuel w).calls ∧
    ((train tr fuel w).stopped = status.done →
      ∃ pre e, (train tr fuel w).calls = pre ++ [call.peek e] ∧ e.data = none ∧
        ∀ e2, call.peek e2 ∈ pre → e2.data ≠ none) := by
  have h := train_calls_of_train tr fuel w
  refine ⟨?_, train_calls_done h⟩
  refine List.Chain'.imp ?_ (train_calls_chain h)
  intro a b hab ha
  cases a with
  | peek e1 => exact absurd ha (by simp [call.ends_task])
  | set_epoch r => exact absurd ha (by simp [call.ends_task])
  | train_step u => exact absurd ha (by simp [call.ends_task])
  | progress_push u =>
    simp only [call.ends_task] at ha
    rcases hab with ⟨_, h1⟩ | ⟨h1, _⟩
    · exact h1
    · rw [ha] at h1; cases h1
  | push u => exact hab

/-- Witness of C2: the task with index 0 of the example run is broken after its first
epoch (error `1e12`), and no final push is made for it. -/
theorem train_never_pushes_broken_task_witness :
    ∀ u, call.push u ∉
      (run_task example_trainer 5 [] ⟨0, 0, some ⟨10⟩, none, none⟩ ⟨10⟩).calls :=
  (train_never_pushes_broken_task example_trainer 5 [] task_diverged 0
      ⟨0, 0, some ⟨10⟩, none, none⟩ ⟨10⟩).2.1
    ⟨{ index_peeked := 0, data := ⟨10⟩, momentum_data := none, momentum_data2 := none,
       initial_epoch := 0, history := [history_entry_of (double.finite 1000000000000)] },
      by decide, by decide⟩

/-- Witness of C5: the example run over three tasks, the first of which ends as broken,
returns, and its last call is the peek that yields no data. -/
theorem train_peeks_after_every_task_witness :
    ∃ pre e, (train example_trainer 10 example_tasks).calls = pre ++ [call.peek e] ∧
      e.data = none ∧ ∀ e2, call.peek e2 ∈ pre → e2.data ≠ none :=
  (train_peeks_after_every_task example_trainer 10 example_tasks).2 (by decide)

/-- The example run of the specification: three tasks with `epoch_count = 2`, the task with
index 0 diverging in its first epoch.  The run returns after four peeks, five `train_step`
calls, five progress pushes and two final pushes, none of them for the task with index
0. -/
theorem example_run_calls :
    (train example_trainer 10 example_tasks).stopped = status.done ∧
    (train example_trainer 10 example_tasks).calls.length = 21 ∧
    (train example_trainer 10 example_tasks).calls.countP
      (call.is_train_step fun _ => true) = 5 ∧
    (train example_trainer 10 example_tasks).calls.countP
      (call.is_progress_push fun _ => true) = 5 ∧
    (train example_trainer 10 example_tasks).calls.countP (call.is_push fun _ => true) = 2 ∧
    (train example_trainer 10 example_tasks).calls.countP
      (call.is_push fun t => decide (t.index_peeked = 0)) = 0 := by
  decide

theorem check_inputs_ok (n : Nat) (rest : List layer_configuration_specific)
    (h : ∀ c ∈ rest, c.get_neuron_count = n) : add_layer.check_inputs n rest = Except.ok () := by
  induction rest with
  | nil => rfl
  | cons it rest ih =>
    have h1 : it.get_neuron_count = n := h it (List.mem_cons_self _ _)
    simp only [add_layer.check_inputs, h1, ne_eq, not_true_eq_false, if_false]
    exact ih (fun c hc => h c (List.mem_cons_of_mem _ hc))

theorem check_inputs_error (n : Nat) (rest : List layer_configuration_specific)
    (h : ∃ c ∈ rest, c.get_neuron_count ≠ n) :
    add_layer.check_inputs n rest =
      Except.error (failure.neural_network_exception add_layer.mismatch_message) := by
  induction rest with
  | nil => simp at h
  | cons it rest ih =>
    by_cases h1 : it.get_neuron_count = n
    · simp only [add_layer.check_inputs, h1, ne_eq, not_true_eq_false, if_false]
      obtain ⟨c, hc, hne⟩ := h
      rcases List.mem_cons.mp hc with rfl | hc
      · exact absurd h1 hne
      · exact ih ⟨c, hc, hne⟩
    · simp [add_layer.check_inputs, h1]

theorem get_output_error_iff (first : layer_configuration_specific)
    (rest : List layer_configuration_specific) :
    ((∃ e, add_layer.get_output_layer_configuration_specific (first :: rest) = Except.error e)
      ↔ ∃ c ∈ rest, c.get_neuron_count ≠ first.get_neuron_count) ∧
    (∀ e, add_layer.get_output_layer_configuration_specific (first :: rest) = Except.error e →
      e = failure.neural_network_exception add_layer.mismatch_message) := by
  by_cases h : ∃ c ∈ rest, c.get_neuron_count ≠ first.get_neuron_count
  · have h1 := check_inputs_error first.get_neuron_count rest h
    refine ⟨⟨fun _ => h, fun _ =>
      ⟨failure.neural_network_exception add_layer.mismatch_message, by
        simp only [add_layer.get_output_layer_configuration_specific, h1]⟩⟩, ?_⟩
    intro e he
    simp only [add_layer.get_output_layer_configuration_specific, h1,
      Except.error.injEq] at he
    exact he.symm
  · have h2 : ∀ c ∈ rest, c.get_neuron_count = first.get_neuron_count := by
      intro c hc
      by_contra hne
      exact h ⟨c, hc, hne⟩
    have h1 := check_inputs_ok first.get_neuron_count rest h2
    refine ⟨⟨?_, fun h3 => absurd h3 h⟩, ?_⟩
    · rintro ⟨e, he⟩
      simp [add_layer.get_output_layer_configuration_specific, h1] at he
    · intro e he
      simp [add_layer.get_output_layer_configuration_specific, h1] at he

theorem get_neuron_count_of_fit (c : layer_configuration_specific)
    (h : c.feature_map_count * c.dimension_sizes.prod < 2 ^ 32) :
    c.get_neuron_count = c.feature_map_count * c.dimension_sizes.prod :=
  Nat.mod_eq_of_lt h

/-- C6, amended: for every list of two or more input configurations whose neuron counts per
entry (feature-map count times the product of the dimension sizes) are all below `2^32`, if
some input's neuron count per entry differs from the first input's then
`get_output_layer_configuration_specific` throws `neural_network_exception` instead of
returning an output configuration; whenever it succeeds all inputs have the neuron count per
entry of the first; and inputs whose neuron counts per entry all agree are accepted,
whatever their feature-map counts. -/
theorem add_layer_rejects_neuron_count_mismatch (first : layer_configuration_specific)
    (rest : List layer_configuration_specific)
    (hfit : ∀ c ∈ first :: rest, c.feature_map_count * c.dimension_sizes.prod < 2 ^ 32) :
    ((∃ c ∈ rest, c.feature_map_count * c.dimension_sizes.prod ≠
        first.feature_map_count * first.dimension_sizes.prod) →
      add_layer.get_output_layer_configuration_specific (first :: rest) =
        Except.error (failure.neural_network_exception add_layer.mismatch_message)) ∧
    (∀ out, add_layer.get_output_layer_configuration_specific (first :: rest) = Except.ok out →
      ∀ c ∈ rest, c.feature_map_count * c.dimension_sizes.prod =
        first.feature_map_count * first.dimension_sizes.prod) ∧
    ((∀ c ∈ rest, c.feature_map_count * c.dimension_sizes.prod =
        first.feature_map_count * first.dimension_sizes.prod) →
      add_layer.get_output_layer_configuration_specific (first :: rest) = Except.ok first) := by
  have hfirst := get_neuron_count_of_fit first (hfit first (List.mem_cons_self _ _))
  have hrest : ∀ c ∈ rest,
      c.get_neuron_count = c.feature_map_count * c.dimension_sizes.prod :=
    fun c hc => get_neuron_count_of_fit c (hfit c (List.mem_cons_of_mem _ hc))
  have hthrow : (∃ c ∈ rest, c.feature_map_count * c.dimension_sizes.prod ≠
        first.feature_map_count * first.dimension_sizes.prod) →
      add_layer.get_output_layer_configuration_specific (first :: rest) =
        Except.error (failure.neural_network_exception add_layer.mismatch_message) := by
    rintro ⟨c, hc, hne⟩
    have h : ∃ c ∈ rest, c.get_neuron_count ≠ first.get_neuron_count :=
      ⟨c, hc, by rw [hrest c hc, hfirst]; exact hne⟩
    simp only [add_layer.get_output_layer_configuration_specific,
      check_inputs_error first.get_neuron_count rest h]
  refine ⟨hthrow, ?_, ?_⟩
  · intro out hout c hc
    by_contra hne
    rw [hthrow ⟨c, hc, hne⟩] at hout
    cases hout
  · intro hall
    have h : ∀ c ∈ rest, c.get_neuron_count = first.get_neuron_count :=
      fun c hc => by rw [hrest c hc, hfirst]; exact hall c hc
    simp only [add_layer.get_output_layer_configuration_specific,
      check_inputs_ok first.get_neuron_count rest h]

/-- Witness of C6, amended: 4 feature maps of 2 x 2 neurons against 4 feature maps of 3
neurons. -/
theorem add_layer_rejects_neuron_count_mismatch_witness :
    add_layer.get_output_layer_configuration_specific [⟨4, [2, 2]⟩, ⟨4, [3]⟩] =
      Except.error (failure.neural_network_exception add_layer.mismatch_message) :=
  (add_layer_rejects_neuron_count_mismatch ⟨4, [2, 2]⟩ [⟨4, [3]⟩] (by decide)).1
    ⟨⟨4, [3]⟩, List.mem_singleton.mpr rfl, by decide⟩

/-- C6 fails as stated: the inputs with 2 feature maps of 3 neurons and 3 feature maps of 2
neurons differ in their feature-map count, and the function returns the first of them. -/
theorem add_layer_accepts_feature_map_mismatch :
    (2 : Nat) ≤ ([⟨2, [3]⟩, ⟨3, [2]⟩] : List layer_configuration_specific).length ∧
    (∃ c ∈ ([⟨2, [3]⟩, ⟨3, [2]⟩] : List layer_configuration_specific),
      c.feature_map_count ≠ (⟨2, [3]⟩ : layer_configuration_specific).feature_map_count) ∧
    add_layer.get_output_layer_configuration_specific [⟨2, [3]⟩, ⟨3, [2]⟩] =
      Except.ok ⟨2, [3]⟩ := by
  refine ⟨by decide, ⟨⟨3, [2]⟩, by simp, by decide⟩, rfl⟩

/-- C7 fails as stated: the inputs with 1 feature map of 1 neuron and 3 feature maps of
2863311531 neurons have the neuron counts per entry 1 and 8589934593, which differ, and the
function does not throw: the counts are compared as `unsigned int`, where the second one
is 1 as well. -/
theorem add_layer_accepts_wrapped_neuron_count :
    (∃ c ∈ ([⟨3, [2863311531]⟩] : List layer_configuration_specific),
      c.feature_map_count * c.dimension_sizes.prod ≠
        (⟨1, [1]⟩ : layer_configuration_specific).feature_map_count *
          (⟨1, [1]⟩ : layer_configuration_specific).dimension_sizes.prod) ∧
    (3 : Nat) * [2863311531].prod = 8589934593 ∧
    (⟨3, [2863311531]⟩ : layer_configuration_specific).get_neuron_count = 1 ∧
    add_layer.get_output_layer_configuration_specific [⟨1, [1]⟩, ⟨3, [2863311531]⟩] =
      Except.ok ⟨1, [1]⟩ := by
  refine ⟨⟨⟨3, [2863311531]⟩, by simp, by decide⟩, by decide, by decide, rfl⟩

/-- C7, amended: for every non-empty list of input configurations whose neuron counts per
entry (feature-map count times the product of the dimension sizes) are all below `2^32`,
`get_output_layer_configuration_specific` throws if and only if some input's neuron count per
entry differs from that of the first input.  Without the bound it throws if and only if the
`unsigned int` values of `get_neuron_count` differ; the failure is always the
`neural_network_exception`, and the function never fails for a single input. -/
theorem add_layer_throws_iff_neuron_count_mismatch (first : layer_configuration_specific)
    (rest : List layer_configuration_specific) :
    ((∀ c ∈ first :: rest, c.feature_map_count * c.dimension_sizes.prod < 2 ^ 32) →
      ((∃ e, add_layer.get_output_layer_configuration_specific (first :: rest)
          = Except.error e) ↔
        ∃ c ∈ rest, c.feature_map_count * c.dimension_sizes.prod ≠
          first.feature_map_count * first.dimension_sizes.prod)) ∧
    ((∃ e, add_layer.get_output_layer_configuration_specific (first :: rest) = Except.error e)
      ↔ ∃ c ∈ rest, c.get_neuron_count ≠ first.get_neuron_count) ∧
    (∀ e, add_layer.get_output_layer_configuration_specific (first :: rest) = Except.error e →
      e = failure.neural_network_exception add_layer.mismatch_message) ∧
    add_layer.get_output_layer_configuration_specific [first] = Except.ok first := by
  obtain ⟨key1, key2⟩ := get_output_error_iff first rest
  refine ⟨?_, key1, key2, rfl⟩
  intro hfit
  rw [key1]
  have hfirst := get_neuron_count_of_fit first (hfit first (List.mem_cons_self _ _))
  constructor
  · rintro ⟨c, hc, hne⟩
    refine ⟨c, hc, ?_⟩
    have hcfit := get_neuron_count_of_fit c (hfit c (List.mem_cons_of_mem _ hc))
    rwa [hcfit, hfirst] at hne
  · rintro ⟨c, hc, hne⟩
    refine ⟨c, hc, ?_⟩
    have hcfit := get_neuron_count_of_fit c (hfit c (List.mem_cons_of_mem _ hc))
    rwa [hcfit, hfirst]

/-- Witness of C7, amended: two inputs of 6 and of 4 neurons are rejected. -/
theorem add_layer_throws_iff_neuron_count_mismatch_witness :
    ∃ e, add_layer.get_output_layer_configuration_specific [⟨2, [3]⟩, ⟨2, [2]⟩]
      = Except.error e :=
  ((add_layer_throws_iff_neuron_count_mismatch ⟨2, [3]⟩ [⟨2, [2]⟩]).1 (by decide)).mpr
    ⟨⟨2, [2]⟩, List.mem_singleton.mpr rfl, by decide⟩

/-- C8: whenever `get_output_layer_configuration_specific` succeeds on a non-empty list of
input configurations, the configuration it returns is the first input's; and on inputs
that all have the shape of the first one it succeeds, with that shape. -/
theorem add_layer_output_is_first_input (first : layer_configuration_specific)
    (rest : List layer_configuration_specific) :
    (∀ out, add_layer.get_output_layer_configuration_specific (first :: rest) = Except.ok out →
      out = first) ∧
    ((∀ c ∈ rest, c = first) →
      add_layer.get_output_layer_configuration_specific (first :: rest) = Except.ok first) := by
  constructor
  · intro out h
    simp only [add_layer.get_output_layer_configuration_specific] at h
    split at h
    · cases h
    · simp only [Except.ok.injEq] at h
      exact h.symm
  · intro h
    have h1 := check_inputs_ok first.get_neuron_count rest (fun c hc => by rw [h c hc])
    simp only [add_layer.get_output_layer_configuration_specific, h1]

/-- Witness of C8: two input branches with 4 features each give an output with 4
features. -/
theorem add_layer_output_is_first_input_witness :
    add_layer.get_output_layer_configuration_specific [⟨4, []⟩, ⟨4, []⟩] = Except.ok ⟨4, []⟩ :=
  (add_layer_output_is_first_input ⟨4, []⟩ [⟨4, []⟩]).2 (by simp)

/-! ### `convolution_layer_tester_cuda` -/

theorem check_padding_ok (left right : List Nat) (indices : List Nat)
    (hleft : ∀ i ∈ indices, i < left.length) (hright : ∀ i ∈ indices, i < right.length)
    (h : ∀ i ∈ indices, left[i]? = right[i]?) :
    convolution_layer_tester_cuda.check_padding left right indices = Except.ok () := by
  induction indices with
  | nil => rfl
  | cons i rest ih =>
    have hl := hleft i (List.mem_cons_self _ _)
    have hr := hright i (List.mem_cons_self _ _)
    have heq := h i (List.mem_cons_self _ _)
    rw [List.getElem?_eq_getElem hl, List.getElem?_eq_getElem hr, Option.some.injEq] at heq
    simp only [convolution_layer_tester_cuda.check_padding, List.getElem?_eq_getElem hl,
      List.getElem?_eq_getElem hr, heq, ne_eq, not_true_eq_false, if_false]
    exact ih (fun j hj => hleft j (List.mem_cons_of_mem _ hj))
      (fun j hj => hright j (List.mem_cons_of_mem _ hj))
      (fun j hj => h j (List.mem_cons_of_mem _ hj))

theorem check_padding_error (left right : List Nat) (indices : List Nat)
    (hleft : ∀ i ∈ indices, i < left.length) (hright : ∀ i ∈ indices, i < right.length)
    (h : ∃ i ∈ indices, left[i]? ≠ right[i]?) :
    convolution_layer_tester_cuda.check_padding left right indices =
      Except.error
        (failure.neural_network_exception convolution_layer_tester_cuda.padding_message) := by
  induction indices with
  | nil => simp at h
  | cons i rest ih =>
    have hl := hleft i (List.mem_cons_self _ _)
    have hr := hright i (List.mem_cons_self _ _)
    by_cases heq : left[i] = right[i]
    · simp only [convolution_layer_tester_cuda.check_padding, List.getElem?_eq_getElem hl,
        List.getElem?_eq_getElem hr, heq, ne_eq, not_true_eq_false, if_false]
      obtain ⟨j, hj, hne⟩ := h
      rcases List.mem_cons.mp hj with rfl | hj
      · rw [List.getElem?_eq_getElem hl, List.getElem?_eq_getElem hr, heq] at hne
        exact absurd rfl hne
      · exact ih (fun j hj => hleft j (List.mem_cons_of_mem _ hj))
          (fun j hj => hright j (List.mem_cons_of_mem _ hj)) ⟨j, hj, hne⟩
    · simp [convolution_layer_tester_cuda.check_padding, List.getElem?_eq_getElem hl,
        List.getElem?_eq_getElem hr, heq]

/-- C9: for a convolution layer that has a left and a right zero padding for each of its
window sizes, and a tester that holds at least one input configuration, `tester_configured`
throws its `neural_network_exception` if and only if some dimension `i` below the number of
window sizes has a left zero padding different from its right zero padding; with equal
paddings in every dimension it completes the configuration. -/
theorem tester_configured_throws_iff_asymmetric_padding (layer_derived : convolution_layer)
    (output_configuration_specific : layer_configuration_specific)
    (input_configuration_specific_list : List layer_configuration_specific)
    (hleft : layer_derived.window_sizes.length ≤ layer_derived.left_zero_padding.length)
    (hright : layer_derived.window_sizes.length ≤ layer_derived.right_zero_padding.length)
    (hinput : input_configuration_specific_list ≠ []) :
    ((∃ e, convolution_layer_tester_cuda.tester_configured layer_derived
          output_configuration_specific input_configuration_specific_list = Except.error e) ↔
      ∃ i, i < layer_derived.window_sizes.length ∧
        layer_derived.left_zero_padding[i]? ≠ layer_derived.right_zero_padding[i]?) ∧
    (∀ e, convolution_layer_tester_cuda.tester_configured layer_derived
          output_configuration_specific input_configuration_specific_list = Except.error e →
      e = failure.neural_network_exception convolution_layer_tester_cuda.padding_message) ∧
    ((∀ i, i < layer_derived.window_sizes.length →
        layer_derived.left_zero_padding[i]? = layer_derived.right_zero_padding[i]?) →
      ∃ tester, convolution_layer_tester_cuda.tester_configured layer_derived
          output_configuration_specific input_configuration_specific_list = Except.ok tester ∧
        tester.window_sizes = layer_derived.window_sizes ∧
        tester.convolution_desc = (layer_derived.left_zero_padding, layer_derived.strides,
          layer_derived.dilation)) := by
  have hl : ∀ i ∈ List.range layer_derived.window_sizes.length,
      i < layer_derived.left_zero_padding.length :=
    fun i hi => lt_of_lt_of_le (List.mem_range.mp hi) hleft
  have hr : ∀ i ∈ List.range layer_derived.window_sizes.length,
      i < layer_derived.right_zero_padding.length :=
    fun i hi => lt_of_lt_of_le (List.mem_range.mp hi) hright
  obtain ⟨input0, inputs, rfl⟩ : ∃ a l, input_configuration_specific_list = a :: l := by
    cases input_configuration_specific_list with
    | nil => exact absurd rfl hinput
    | cons a l => exact ⟨a, l, rfl⟩
  by_cases h : ∃ i, i < layer_derived.window_sizes.length ∧
      layer_derived.left_zero_padding[i]? ≠ layer_derived.right_zero_padding[i]?
  · have h1 := check_padding_error _ _ _ hl hr
      (by obtain ⟨i, hi, hne⟩ := h; exact ⟨i, List.mem_range.mpr hi, hne⟩)
    refine ⟨⟨fun _ => h, fun _ =>
      ⟨failure.neural_network_exception convolution_layer_tester_cuda.padding_message, by
        simp only [convolution_layer_tester_cuda.tester_configured, h1]⟩⟩, ?_, ?_⟩
    · intro e he
      simp only [convolution_layer_tester_cuda.tester_configured, h1,
        Except.error.injEq] at he
      exact he.symm
    · intro hsym
      obtain ⟨i, hi, hne⟩ := h
      exact absurd (hsym i hi) hne
  · have h2 : ∀ i ∈ List.range layer_derived.window_sizes.length,
        layer_derived.left_zero_padding[i]? = layer_derived.right_zero_padding[i]? := by
      intro i hi
      by_contra hne
      exact h ⟨i, List.mem_range.mp hi, hne⟩
    have h1 := check_padding_ok _ _ _ hl hr h2
    refine ⟨⟨?_, fun h3 => absurd h3 h⟩, ?_, ?_⟩
    · rintro ⟨e, he⟩
      simp [convolution_layer_tester_cuda.tester_configured, h1] at he
    · intro e he
      simp [convolution_layer_tester_cuda.tester_configured, h1] at he
    · intro _
      simp only [convolution_layer_tester_cuda.tester_configured, h1]
      exact ⟨_, rfl, rfl, rfl⟩

/-- Witness of C9: the convolution `symmetric_convolution`, with padding 1 on both sides of
its two dimensions, and one input configuration. -/
theorem tester_configured_throws_iff_asymmetric_padding_witness :
    ∃ tester, convolution_layer_tester_cuda.tester_configured symmetric_convolution
        ⟨4, [5, 5]⟩ [⟨3, [5, 5]⟩] = Except.ok tester ∧
      tester.window_sizes = symmetric_convolution.window_sizes ∧
      tester.convolution_desc = (symmetric_convolution.left_zero_padding,
        symmetric_convolution.strides, symmetric_convolution.dilation) :=
  (tester_configured_throws_iff_asymmetric_padding symmetric_convolution ⟨4, [5, 5]⟩
    [⟨3, [5, 5]⟩] (by decide) (by decide) (by simp)).2.2 (fun _ _ => rfl)

/-! ### The weights checked by `check_gradient` -/

theorem pick_candidates_length (weight_gen : Nat → Nat) (count : Nat) :
    ∀ (i : Nat) (candidates ids : List Int),
      (pick_candidates weight_gen count i candidates ids).length = ids.length + count := by
  induction count with
  | zero => intro i candidates ids; rfl
  | succ count ih =>
    intro i candidates ids
    simp only [pick_candidates, ih, List.length_append, List.length_singleton]
    omega

theorem weight_id_list_length (size : Nat) (max_weights : Int) (weight_gen : Nat → Nat)
    (hsize : 2 ≤ size) (hint : size < 2 ^ 31) (hmax : 0 ≤ max_weights) :
    ((weight_id_list size (-1) max_weights weight_gen).length : Int) =
      2 + min ((size : Int) - 2) max_weights := by
  have h1 : static_cast_int ((size + 2 ^ 64 - 2) % 2 ^ 64) = (size : Int) - 2 := by
    have e1 : (size + 2 ^ 64 - 2) % 2 ^ 64 = size - 2 := by
      norm_num at hint ⊢
      omega
    rw [e1]
    unfold static_cast_int
    norm_num at hint ⊢
    have e2 : (size - 2) % 4294967296 = size - 2 := by omega
    rw [e2, if_pos (by omega)]
    omega
  have h2 : ((size : Int) - 2).toNat = size - 2 := by omega
  have h3 : static_cast_int (size - 2) = (size : Int) - 2 := by
    unfold static_cast_int
    norm_num at hint ⊢
    have e2 : (size - 2) % 4294967296 = size - 2 := by omega
    rw [e2, if_pos (by omega)]
    omega
  have hs0 : size > 0 := by omega
  have hs1 : size > 1 := by omega
  simp only [weight_id_list, ne_eq, not_true_eq_false, if_false, h1, h2, List.length_map,
    List.length_range, h3, pick_candidates_length, hs0, hs1, if_true, List.length_append,
    List.length_singleton]
  have h4 : 0 ≤ min ((size : Int) - 2) max_weights := le_min (by omega) hmax
  rw [Nat.cast_add, Int.toNat_of_nonneg h4]
  norm_num

/-- C10 fails on the code: for a weight set of 100 weights, no requested weight id and
`check_gradient_max_weights_per_set = 20` (the default), `check_gradient` checks 22 weights,
whatever the random generator draws. -/
theorem weight_id_list_exceeds_max_weights (weight_gen : Nat → Nat) :
    (weight_id_list 100 (-1) 20 weight_gen).length = 22 := by
  have h := weight_id_list_length 100 20 weight_gen (by decide) (by decide) (by decide)
  have h2 : (2 : Int) + min ((100 : Nat) - 2 : Int) 20 = 22 := by decide
  rw [h2] at h
  exact_mod_cast h

/-! ### The option `check_gradient_weights` -/

theorem split_ne_nil (sep : Char) (s : List Char) : split sep s ≠ [] := by
  cases s with
  | nil => simp [split]
  | cons c rest =>
    simp only [split]
    split
    · simp
    · split <;> simp

theorem split_length (sep : Char) (s : List Char) :
    (split sep s).length = s.count sep + 1 := by
  induction s with
  | nil => simp [split]
  | cons c rest ih =>
    simp only [split]
    by_cases h : c = sep
    · subst h
      simp [ih]
    · have hne : (c == sep) = false := by simpa using h
      simp only [h, if_false, List.count_cons, hne]
      split
      · next heq => exact absurd heq (split_ne_nil sep rest)
      · next field fields heq =>
        rw [heq] at ih
        simpa using ih

theorem split_of_not_mem (sep : Char) (s : List Char) (h : sep ∉ s) : split sep s = [s] := by
  induction s with
  | nil => simp [split]
  | cons c rest ih =>
    have hc : c ≠ sep := fun hc => h (hc ▸ List.mem_cons_self _ _)
    have hrest : sep ∉ rest := fun hr => h (List.mem_cons_of_mem _ hr)
    simp [split, hc, ih hrest]

theorem split_append_sep (sep : Char) (field rest : List Char) (h : sep ∉ field) :
    split sep (field ++ sep :: rest) = field :: split sep rest := by
  induction field with
  | nil => simp [split]
  | cons c field ih =>
    have hc : c ≠ sep := fun hc => h (hc ▸ List.mem_cons_self _ _)
    have hfield : sep ∉ field := fun hr => h (List.mem_cons_of_mem _ hr)
    simp [split, hc, ih hfield]

theorem parse_ok_iff (s : String) :
    (∃ p, parse_check_gradient_weights s = Except.ok p) ↔
      (split ':' s.toList).length = 3 := by
  unfold parse_check_gradient_weights
  split
  · next a b c heq => rw [heq]; simp
  · next hne =>
    constructor
    · rintro ⟨p, hp⟩
      cases hp
    · intro hlen
      exfalso
      match hsplit : split ':' s.toList, hlen with
      | [a, b, c], _ => exact hne a b c hsplit

theorem parse_error_of_length_ne (s : String) (h : (split ':' s.toList).length ≠ 3) :
    parse_check_gradient_weights s = Except.error (failure.runtime_error
      ("Invalid check_gradient_weights parameter: " ++ s)) := by
  unfold parse_check_gradient_weights
  split
  · next a b c heq => rw [heq] at h; simp at h
  · rfl

/-! ### The runs of `check_gradient` -/

theorem weight_list_of_with_weight_list {F : Type} (data : network_weights F) (l : String)
    (ws : Nat) (w : List F) (h : ws < (data l).length) :
    weight_list_of (with_weight_list data l ws w) l ws = w := by
  simp [weight_list_of, with_weight_list, List.getD, List.getElem?_set, h]

theorem with_weight_list_length {F : Type} (data : network_weights F) (l : String)
    (ws : Nat) (w : List F) :
    ((with_weight_list data l ws w) l).length = (data l).length := by
  simp [with_weight_list]

theorem std_copy_eq_src {F : Type} (src dst : List F) (h : dst.length ≤ src.length) :
    std_copy src dst = src := by
  simp [std_copy, List.drop_eq_nil_of_le h]

theorem with_learning_rate_apply {F : Type} (t : learning_rate_table F) (l : String) (ws : Nat)
    (r : F) (l2 : String) (s2 : Nat) :
    with_learning_rate t l ws r l2 s2 = if (l2, s2) = (l, ws) then r else t l2 s2 := by
  unfold with_learning_rate
  by_cases h1 : l2 = l
  · subst h1
    by_cases h2 : s2 = ws
    · subst h2
      simp
    · simp [Function.update_noteq h2, h2]
  · simp [Function.update_noteq h1, h1]

theorem only_rate_under_test_of_zero {F D : Type} (a : float_arith F D) (l : String) (ws : Nat)
    (data : network_weights F) :
    run_call.only_rate_under_test a
      ⟨l, ws, data, with_learning_rate (fun _ _ => a.zero) l ws a.large_rate⟩ := by
  constructor
  · simp [with_learning_rate_apply]
  · intro l2 s2 hne
    simp only [with_learning_rate_apply] at hne ⊢
    rw [if_neg hne]

theorem with_learning_rate_reset {F : Type} (zero rate : F) (l : String) (ws : Nat) :
    with_learning_rate (with_learning_rate (fun _ _ => zero) l ws rate) l ws zero
      = fun _ _ => zero := by
  funext l2 s2
  simp only [with_learning_rate_apply]
  split <;> rfl

theorem check_weights_runs {F D : Type} (env : gradient_checker F D) (l : String) (ws : Nat)
    (rates : learning_rate_table F) (original backprops : List F) (ids : List Int) :
    ∀ (k : Nat) (data : network_weights F),
      ∀ c ∈ (check_weights env l ws rates original backprops ids k data).1,
        c.minus_run.learning_rates = rates ∧ c.plus_run.learning_rates = rates ∧
        c.minus_run.layer_name = l ∧ c.plus_run.layer_name = l ∧
        c.minus_run.weight_set = ws ∧ c.plus_run.weight_set = ws := by
  induction ids with
  | nil => intro k data c hc; simp [check_weights] at hc
  | cons id rest ih =>
    intro k data c hc
    simp only [check_weights, List.mem_cons] at hc
    rcases hc with rfl | hc
    · exact ⟨rfl, rfl, rfl, rfl, rfl, rfl⟩
    · exact ih _ _ c hc

theorem check_weights_central_difference {F D : Type} (env : gradient_checker F D) (l : String)
    (ws : Nat) (rates : learning_rate_table F) (original backprops : List F)
    (hrun : run_keeps_shape env l ws) (ids : List Int) :
    ∀ (k : Nat) (data : network_weights F),
      weight_list_of data l ws = original → ws < (data l).length →
      (∀ c ∈ (check_weights env l ws rates original backprops ids k data).1,
        weight_check.central_difference env l ws original c) ∧
      weight_list_of (check_weights env l ws rates original backprops ids k data).2 l ws
        = original ∧
      ws < ((check_weights env l ws rates original backprops ids k data).2 l).length ∧
      (check_weights env l ws rates original backprops ids k data).1.map
        (fun c => c.weight_id) = ids := by
  induction ids with
  | nil =>
    intro k data hw hlen
    simp [check_weights, hw, hlen]
  | cons id rest ih =>
    intro k data hw hlen
    -- the weights passed to the minus run
    have hminus := weight_list_of_with_weight_list data l ws
      (original.set id.toNat
        (env.arith.sub (original.getD id.toNat env.arith.zero) env.check_gradient_base_step))
      hlen
    have hlen_minus := with_weight_list_length data l ws
      (original.set id.toNat
        (env.arith.sub (original.getD id.toNat env.arith.zero) env.check_gradient_base_step))
    obtain ⟨hm1, hm2⟩ := hrun
      (with_weight_list data l ws (original.set id.toNat
        (env.arith.sub (original.getD id.toNat env.arith.zero) env.check_gradient_base_step)))
      rates
    rw [hminus, List.length_set] at hm2
    rw [hlen_minus] at hm1
    -- the weights restored after the minus run
    have hcopy1 := std_copy_eq_src original _ (le_of_eq hm2)
    have hlen1 : ws < ((env.run (with_weight_list data l ws (original.set id.toNat
        (env.arith.sub (original.getD id.toNat env.arith.zero)
          env.check_gradient_base_step))) rates).1 l).length := by
      rw [hm1]; exact hlen
    have hw1 := weight_list_of_with_weight_list _ l ws original hlen1
    have hlen1b := with_weight_list_length (env.run (with_weight_list data l ws
        (original.set id.toNat (env.arith.sub (original.getD id.toNat env.arith.zero)
          env.check_gradient_base_step))) rates).1 l ws original
    -- the weights passed to the plus run
    have hplus := weight_list_of_with_weight_list _ l ws
      (original.set id.toNat
        (env.arith.add (original.getD id.toNat env.arith.zero) env.check_gradient_base_step))
      (hlen1b ▸ hlen1)
    simp only [check_weights, hw, hcopy1, hw1]
    obtain ⟨hp1, hp2⟩ := hrun
      (with_weight_list (with_weight_list (env.run (with_weight_list data l ws
        (original.set id.toNat (env.arith.sub (original.getD id.toNat env.arith.zero)
          env.check_gradient_base_step))) rates).1 l ws original) l ws
        (original.set id.toNat
          (env.arith.add (original.getD id.toNat env.arith.zero)
            env.check_gradient_base_step)))
      rates
    rw [hplus, List.length_set] at hp2
    rw [with_weight_list_length, hlen1b, hm1] at hp1
    have hcopy2 := std_copy_eq_src original _ (le_of_eq hp2)
    rw [hcopy2]
    have hlen2 : ws < ((env.run (with_weight_list (with_weight_list (env.run
        (with_weight_list data l ws (original.set id.toNat (env.arith.sub
          (original.getD id.toNat env.arith.zero) env.check_gradient_base_step))) rates).1
        l ws original) l ws (original.set id.toNat (env.arith.add
          (original.getD id.toNat env.arith.zero) env.check_gradient_base_step))) rates).1
        l).length := by
      rw [hp1]; exact hlen
    have hw2 := weight_list_of_with_weight_list _ l ws original hlen2
    have hlen2b : ws < ((with_weight_list (env.run (with_weight_list (with_weight_list
        (env.run (with_weight_list data l ws (original.set id.toNat (env.arith.sub
          (original.getD id.toNat env.arith.zero) env.check_gradient_base_step))) rates).1
        l ws original) l ws (original.set id.toNat (env.arith.add
          (original.getD id.toNat env.arith.zero) env.check_gradient_base_step))) rates).1
        l ws original) l).length := by
      rw [with_weight_list_length]; exact hlen2
    obtain ⟨ih1, ih2, ih3, ih4⟩ := ih (k + 1) _ hw2 hlen2b
    refine ⟨?_, ih2, ih3, by simp only [List.map_cons, ih4]⟩
    intro c hc
    rcases List.mem_cons.mp hc with rfl | hc
    · exact ⟨hminus, hplus, rfl, rfl, rfl⟩
    · exact ih1 c hc

theorem check_weight_set_runs {F D : Type} (env : gradient_checker F D) (param_weight_id : Int)
    (l : String) (ws : Nat) (data : network_weights F) :
    (∀ c ∈ (check_weight_set env param_weight_id l ws data (fun _ _ => env.arith.zero)).runs,
      run_call.only_rate_under_test env.arith c) ∧
    (check_weight_set env param_weight_id l ws data (fun _ _ => env.arith.zero)).learning_rates
      = fun _ _ => env.arith.zero := by
  constructor
  · intro c hc
    simp only [weight_set_check.runs, check_weight_set, List.mem_cons, List.mem_flatMap,
      List.mem_singleton] at hc
    rcases hc with rfl | ⟨k, hk, rfl | rfl | hnil⟩
    · exact only_rate_under_test_of_zero env.arith l ws data
    · obtain ⟨h1, _, h3, _, h5, _⟩ := check_weights_runs env l ws _ _ _ _ _ _ k hk
      have h := only_rate_under_test_of_zero env.arith l ws data
      simp only [run_call.only_rate_under_test] at h ⊢
      rw [h1, h3, h5]
      exact h
    · obtain ⟨_, h2, _, h4, _, h6⟩ := check_weights_runs env l ws _ _ _ _ _ _ k hk
      have h := only_rate_under_test_of_zero env.arith l ws data
      simp only [run_call.only_rate_under_test] at h ⊢
      rw [h2, h4, h6]
      exact h
    · cases hnil
  · simp only [check_weight_set]
    exact with_learning_rate_reset _ _ _ _

theorem check_layer_invariant {F D : Type} (env : gradient_checker F D) (param_weight_id : Int)
    (l : String) (sets : List Int) :
    ∀ st : check_state F D,
      st.learning_rates = (fun _ _ => env.arith.zero) →
      (∀ c ∈ st.runs, run_call.only_rate_under_test env.arith c) →
      (check_layer env param_weight_id l sets st).learning_rates
          = (fun _ _ => env.arith.zero) ∧
        ∀ c ∈ (check_layer env param_weight_id l sets st).runs,
          run_call.only_rate_under_test env.arith c := by
  induction sets with
  | nil => intro st h1 h2; exact ⟨h1, h2⟩
  | cons ws rest ih =>
    intro st h1 h2
    simp only [check_layer]
    split
    · exact ⟨h1, h2⟩
    · split
      · rw [h1]
        obtain ⟨hr1, hr2⟩ := check_weight_set_runs env param_weight_id l ws.toNat st.data
        refine ih _ hr2 ?_
        intro c hc
        rcases List.mem_append.mp hc with hc | hc
        · exact h2 c hc
        · exact hr1 c hc
      · exact ⟨h1, h2⟩

theorem check_layers_invariant {F D : Type} (env : gradient_checker F D)
    (params : check_gradient_weight_params) (names : List String) (layers : List String) :
    ∀ st : check_state F D,
      st.learning_rates = (fun _ _ => env.arith.zero) →
      (∀ c ∈ st.runs, run_call.only_rate_under_test env.arith c) →
      (check_layers env params names layers st).learning_rates
          = (fun _ _ => env.arith.zero) ∧
        ∀ c ∈ (check_layers env params names layers st).runs,
          run_call.only_rate_under_test env.arith c := by
  induction layers with
  | nil => intro st h1 h2; exact ⟨h1, h2⟩
  | cons l rest ih =>
    intro st h1 h2
    simp only [check_layers]
    split
    · exact ⟨h1, h2⟩
    · split
      · exact ih st h1 h2
      · split
        · exact ih st h1 h2
        · obtain ⟨h3, h4⟩ := check_layer_invariant env params.param_weight_id l
            (weight_sets_to_check (st.data l).length params.param_weight_set) st h1 h2
          exact ih _ h3 h4

theorem check_gradient_invariant {F D : Type} (env : gradient_checker F D) (s : String) :
    (check_gradient env s).learning_rates = (fun _ _ => env.arith.zero) ∧
      ∀ c ∈ (check_gradient env s).runs, run_call.only_rate_under_test env.arith c := by
  unfold check_gradient
  split
  · simp
  · split
    · simp
    · exact check_layers_invariant env _ _ _ _ rfl (by simp)

theorem check_weight_set_restores_weights {F D : Type} (env : gradient_checker F D)
    (param_weight_id : Int) (l : String) (ws : Nat) (data : network_weights F)
    (rates : learning_rate_table F) (hws : ws < (data l).length)
    (hrun : run_keeps_shape env l ws) :
    weight_list_of (check_weight_set env param_weight_id l ws data rates).data l ws
      = weight_list_of data l ws := by
  obtain ⟨hu1, hu2⟩ := hrun data
    (with_learning_rate rates l ws env.arith.large_rate)
  have hcopy := std_copy_eq_src (weight_list_of data l ws) _ (le_of_eq hu2)
  have hlen : ws < ((env.run data (with_learning_rate rates l ws env.arith.large_rate)).1
      l).length := by
    rw [hu1]; exact hws
  have hw := weight_list_of_with_weight_list _ l ws (weight_list_of data l ws) hlen
  have hlen2 : ws < ((with_weight_list
      (env.run data (with_learning_rate rates l ws env.arith.large_rate)).1 l ws
      (weight_list_of data l ws)) l).length := by
    rw [with_weight_list_length]; exact hlen
  obtain ⟨h1, h2, _, h4⟩ := check_weights_central_difference env l ws
    (with_learning_rate rates l ws env.arith.large_rate) (weight_list_of data l ws)
    (gradient_backprops env.arith
      (weight_list_of (env.run data (with_learning_rate rates l ws env.arith.large_rate)).1
        l ws)
      (weight_list_of data l ws)
      (weight_id_list (weight_list_of data l ws).length param_weight_id
        env.check_gradient_max_weights_per_set env.weight_gen)
      (with_learning_rate rates l ws env.arith.large_rate l ws))
    hrun
    (weight_id_list (weight_list_of data l ws).length param_weight_id
      env.check_gradient_max_weights_per_set env.weight_gen)
    0 _ hw hlen2
  simp only [check_weight_set, hcopy]
  exact h2

/-- C15: for a weight set inside its layer and a `backprop->run` that keeps the shape of
the weights, every weight check of the set is a central difference on the saved weights:
its minus run gets the saved weights with the entry of the checked weight decreased by
`check_gradient_base_step`, its plus run gets them with that entry increased by it, and
`gradient_checked` is `(plus_error - minus_error) / (2 * check_gradient_base_step)` for the
errors of these two runs; the weights checked are those of `weight_id_list`, in order, and
at the end the weight vector holds the saved weights again. -/
theorem check_gradient_central_difference {F D : Type} (env : gradient_checker F D)
    (param_weight_id : Int) (l : String) (ws : Nat) (data : network_weights F)
    (rates : learning_rate_table F) (hws : ws < (data l).length)
    (hrun : run_keeps_shape env l ws) :
    (∀ c ∈ (check_weight_set env param_weight_id l ws data rates).checks,
      weight_check.central_difference env l ws (weight_list_of data l ws) c) ∧
    (check_weight_set env param_weight_id l ws data rates).checks.map (fun c => c.weight_id)
      = (check_weight_set env param_weight_id l ws data rates).weight_id_list ∧
    (check_weight_set env param_weight_id l ws data rates).original_weights
      = weight_list_of data l ws ∧
    weight_list_of (check_weight_set env param_weight_id l ws data rates).data l ws
      = weight_list_of data l ws := by
  obtain ⟨hu1, hu2⟩ := hrun data
    (with_learning_rate rates l ws env.arith.large_rate)
  have hcopy := std_copy_eq_src (weight_list_of data l ws) _ (le_of_eq hu2)
  have hlen : ws < ((env.run data (with_learning_rate rates l ws env.arith.large_rate)).1
      l).length := by
    rw [hu1]; exact hws
  have hw := weight_list_of_with_weight_list _ l ws (weight_list_of data l ws) hlen
  have hlen2 : ws < ((with_weight_list
      (env.run data (with_learning_rate rates l ws env.arith.large_rate)).1 l ws
      (weight_list_of data l ws)) l).length := by
    rw [with_weight_list_length]; exact hlen
  obtain ⟨h1, h2, _, h4⟩ := check_weights_central_difference env l ws
    (with_learning_rate rates l ws env.arith.large_rate) (weight_list_of data l ws)
    (gradient_backprops env.arith
      (weight_list_of (env.run data (with_learning_rate rates l ws env.arith.large_rate)).1
        l ws)
      (weight_list_of data l ws)
      (weight_id_list (weight_list_of data l ws).length param_weight_id
        env.check_gradient_max_weights_per_set env.weight_gen)
      (with_learning_rate rates l ws env.arith.large_rate l ws))
    hrun
    (weight_id_list (weight_list_of data l ws).length param_weight_id
      env.check_gradient_max_weights_per_set env.weight_gen)
    0 _ hw hlen2
  simp only [check_weight_set, hcopy]
  exact ⟨h1, h4, trivial, h2⟩

/-- Witness of C15: the weight set `[1, 2]` of the layer `fc` of `example_checker`. -/
theorem check_gradient_central_difference_witness :
    (∀ c ∈ (check_weight_set example_checker (-1) "fc" 0
        (fun name => if name = "fc" then [[1, 2]] else []) (fun _ _ => 0)).checks,
      weight_check.central_difference example_checker "fc" 0
        (weight_list_of (fun name => if name = "fc" then [[1, 2]] else []) "fc" 0) c) ∧
    (check_weight_set example_checker (-1) "fc" 0
        (fun name => if name = "fc" then [[1, 2]] else []) (fun _ _ => 0)).checks.map
        (fun c => c.weight_id)
      = (check_weight_set example_checker (-1) "fc" 0
        (fun name => if name = "fc" then [[1, 2]] else []) (fun _ _ => 0)).weight_id_list ∧
    (check_weight_set example_checker (-1) "fc" 0
        (fun name => if name = "fc" then [[1, 2]] else []) (fun _ _ => 0)).original_weights
      = weight_list_of (fun name => if name = "fc" then [[1, 2]] else []) "fc" 0 ∧
    weight_list_of (check_weight_set example_checker (-1) "fc" 0
        (fun name => if name = "fc" then [[1, 2]] else []) (fun _ _ => 0)).data "fc" 0
      = weight_list_of (fun name => if name = "fc" then [[1, 2]] else []) "fc" 0 :=
  check_gradient_central_difference example_checker (-1) "fc" 0
    (fun name => if name = "fc" then [[1, 2]] else []) (fun _ _ => 0) (by decide)
    (by intro data rates; exact ⟨rfl, rfl⟩)

/-- C16: at every call of `backprop->run` made by `check_gradient` the learning-rate table
holds `1.0e+6F` for the layer and weight set under test and `0.0F` in every other entry
(so, `1.0e+6F` not being `0.0F`, exactly that entry is non-zero); when `check_gradient`
ends every entry is `0.0F`; a weight set processed from a table of zeros leaves a table of
zeros, and, for a weight set inside its layer and a run that keeps the shape of the
weights, its weight vector is the one it had before. -/
theorem check_gradient_one_learning_rate {F D : Type} (env : gradient_checker F D)
    (s : String) (param_weight_id : Int) (l : String) (ws : Nat) (data : network_weights F) :
    (∀ c ∈ (check_gradient env s).runs, run_call.only_rate_under_test env.arith c) ∧
    (env.arith.large_rate ≠ env.arith.zero →
      ∀ c ∈ (check_gradient env s).runs, ∀ l2 s2,
        c.learning_rates l2 s2 ≠ env.arith.zero ↔ (l2, s2) = (c.layer_name, c.weight_set)) ∧
    (∀ l2 s2, (check_gradient env s).learning_rates l2 s2 = env.arith.zero) ∧
    (∀ c ∈ (check_weight_set env param_weight_id l ws data (fun _ _ => env.arith.zero)).runs,
      run_call.only_rate_under_test env.arith c ∧ c.layer_name = l ∧ c.weight_set = ws) ∧
    (check_weight_set env param_weight_id l ws data (fun _ _ => env.arith.zero)).learning_rates
      = (fun _ _ => env.arith.zero) ∧
    (ws < (data l).length → run_keeps_shape env l ws →
      weight_list_of (check_weight_set env param_weight_id l ws data
        (fun _ _ => env.arith.zero)).data l ws = weight_list_of data l ws) := by
  obtain ⟨h1, h2⟩ := check_gradient_invariant env s
  obtain ⟨h3, h4⟩ := check_weight_set_runs env param_weight_id l ws data
  refine ⟨h2, ?_, ?_, ?_, h4, ?_⟩
  · intro hne c hc l2 s2
    obtain ⟨hc1, hc2⟩ := h2 c hc
    constructor
    · intro hnz
      by_contra hpair
      exact hnz (hc2 l2 s2 hpair)
    · intro hpair
      simp only [Prod.mk.injEq] at hpair
      rw [hpair.1, hpair.2, hc1]
      exact hne
  · intro l2 s2
    rw [h1]
  · intro c hc
    refine ⟨h3 c hc, ?_⟩
    simp only [weight_set_check.runs, check_weight_set, List.mem_cons, List.mem_flatMap,
      List.mem_singleton] at hc
    rcases hc with rfl | ⟨k, hk, rfl | rfl | hnil⟩
    · exact ⟨rfl, rfl⟩
    · obtain ⟨_, _, h5, _, h6, _⟩ := check_weights_runs env l ws _ _ _ _ _ _ k hk
      exact ⟨h5, h6⟩
    · obtain ⟨_, _, _, h5, _, h6⟩ := check_weights_runs env l ws _ _ _ _ _ _ k hk
      exact ⟨h5, h6⟩
    · cases hnil
  · intro hws hrun
    exact check_weight_set_restores_weights env param_weight_id l ws data _ hws hrun

/-- Witness of C16: the five runs of `check_gradient` on `example_checker` with the default
option `::` (the update run and the minus and plus runs of the weights 0 and 1) all see
the learning rate `1e6` for the weight set 0 of `fc` and 0 elsewhere. -/
theorem check_gradient_one_learning_rate_witness :
    (check_gradient example_checker "::").runs.length = 5 ∧
    ∀ c ∈ (check_gradient example_checker "::").runs,
      run_call.only_rate_under_test example_checker.arith c :=
  ⟨by rfl, (check_gradient_one_learning_rate example_checker "::" (-1) "fc" 0
    example_weights).1⟩

/-- C14 fails on the code: with `check_gradient_weights = "fc:0:1"` the weight checked in the
weight set `[1, 2]` is the one with id 1; the update run leaves the weights as they are, so
the change of that weight is `2 - 2 = 0`; the code records
`-(weight_list[1] - original_weights[0]) / learning_rate = -(2 - 1) / 1e6`, reading the saved
weight at the position in `weight_id_list` instead of at the weight id. -/
theorem gradient_backprop_reads_saved_weight_at_position :
    (check_weight_set example_checker 1 "fc" 0 example_weights (fun _ _ => 0)).weight_id_list
      = [1] ∧
    (check_weight_set example_checker 1 "fc" 0 example_weights (fun _ _ => 0)).original_weights
      = [1, 2] ∧
    weight_list_of (example_checker.run example_weights
      (with_learning_rate (fun _ _ => 0) "fc" 0 1000000)).1 "fc" 0 = [1, 2] ∧
    (check_weight_set example_checker 1 "fc" 0 example_weights (fun _ _ => 0)).checks.map
      (fun c => c.gradient_backprop) = [-(2 - 1) / 1000000] ∧
    exact_arith.div (exact_arith.neg (exact_arith.sub 2 2)) 1000000 = 0 ∧
    (-(2 - 1) / 1000000 : ℚ) ≠ 0 := by
  refine ⟨by decide, rfl, rfl, ?_, ?_, by norm_num⟩
  · have hids : weight_id_list (weight_list_of example_weights "fc" 0).length 1
        example_checker.check_gradient_max_weights_per_set example_checker.weight_gen = [1] := by
      decide
    have hrange : List.range 1 = [0] := rfl
    simp only [check_weight_set, hids, check_weights, List.map_cons, List.map_nil,
      gradient_backprops, List.length_singleton, hrange, List.getD_cons_zero]
    simp [example_checker, exact_arith, weight_list_of, example_weights,
      with_learning_rate_apply]
  · simp [exact_arith]

/-! ### The reader epochs of a task -/

theorem reader_epoch_ids_shift (rid m : Nat) (hrid : rid < 4294967296) :
    rid :: List.map (fun k => ((rid + 1) % 4294967296 + k) % 4294967296) (List.range m)
      = List.map (fun k => (rid + k) % 4294967296) (List.range (m + 1)) := by
  rw [List.range_succ_eq_map, List.map_cons, List.map_map]
  have h0 : (rid + 0) % 4294967296 = rid := by omega
  rw [h0]
  congr 1
  apply List.map_congr_left
  intro k _
  simp only [Function.comp]
  omega

theorem epoch_loop_reader_epoch_ids {σ : Type} (tr : network_trainer σ) (fuel : Nat) :
    ∀ (w : σ) (task : training_task_state) (rid : Nat), rid < 4294967296 →
      reader_epoch_ids (epoch_loop tr fuel w task rid).calls =
        List.map (fun k => (rid + k) % 4294967296)
          (List.range ((epoch_loop tr fuel w task rid).calls.countP
            (call.is_train_step fun _ => true))) := by
  induction fuel with
  | zero => intro w task rid _; rfl
  | succ fuel ih =>
    intro w task rid hrid
    have h1 : List.map (fun k => (rid + k) % 4294967296) (List.range 1) = [rid] := by
      simp [List.range_succ, Nat.mod_eq_of_lt hrid]
    simp only [epoch_loop]
    split
    · simpa [reader_epoch_ids, List.countP_cons, call.is_train_step] using h1.symm
    · simpa [reader_epoch_ids, List.countP_cons, call.is_train_step] using h1.symm
    · split
      · simpa [reader_epoch_ids, List.countP_cons, call.is_train_step] using h1.symm
      · have hlt : (rid + 1) % 4294967296 < 4294967296 := Nat.mod_lt _ (by norm_num)
        have hrec := ih (tr.progress_push (tr.train_step (tr.set_epoch rid w) task).2
            (tr.train_step (tr.set_epoch rid w) task).1)
          (tr.train_step (tr.set_epoch rid w) task).2 ((rid + 1) % 4294967296) hlt
        have hshift := reader_epoch_ids_shift rid
          ((epoch_loop tr fuel (tr.progress_push (tr.train_step (tr.set_epoch rid w) task).2
            (tr.train_step (tr.set_epoch rid w) task).1)
            (tr.train_step (tr.set_epoch rid w) task).2
            ((rid + 1) % 4294967296)).calls.countP (call.is_train_step fun _ => true)) hrid
        norm_num only at hrec hshift ⊢
        simp only [List.cons_append, List.nil_append, reader_epoch_ids, List.countP_cons,
          call.is_train_step, Bool.false_eq_true, if_false, if_true, Nat.add_zero]
        have hnil : ∀ l : List call, ([] : List call).append l = l := fun _ => rfl
        rw [hnil, hrec, hshift]

/-- C17: for a task peeked with start epoch `s` (an `unsigned int`), the arguments of the
`reader.set_epoch` calls made for the task are, in order, `s + k` (in `unsigned int`) for
`k = 0, 1, ...` up to the number of `train_step` calls, so `s + k` itself as long as it
fits in 32 bits; each `set_epoch` call is immediately followed by a `train_step` call, each
`train_step` call immediately preceded by a `set_epoch` call, and the calls of the task,
if any, start with a `set_epoch`. -/
theorem run_task_reader_epochs {σ : Type} (tr : network_trainer σ) (fuel : Nat) (w : σ)
    (e : network_data_peek_entry) (data : network_data) (hs : e.start_epoch < 2 ^ 32) :
    reader_epoch_ids (run_task tr fuel w e data).calls =
      List.map (fun k => (e.start_epoch + k) % 2 ^ 32)
        (List.range ((run_task tr fuel w e data).calls.countP
          (call.is_train_step fun _ => true))) ∧
    (e.start_epoch + (run_task tr fuel w e data).calls.countP
        (call.is_train_step fun _ => true) ≤ 2 ^ 32 →
      reader_epoch_ids (run_task tr fuel w e data).calls =
        List.map (fun k => e.start_epoch + k)
          (List.range ((run_task tr fuel w e data).calls.countP
            (call.is_train_step fun _ => true)))) ∧
    List.Chain' (fun a b => (∀ rid, a = call.set_epoch rid → ∃ t, b = call.train_step t) ∧
        (∀ t, b = call.train_step t → ∃ rid, a = call.set_epoch rid))
      (run_task tr fuel w e data).calls ∧
    (∀ c ∈ (run_task tr fuel w e data).calls.head?, ∃ rid, c = call.set_epoch rid) := by
  have hids : reader_epoch_ids (run_task tr fuel w e data).calls =
      List.map (fun k => (e.start_epoch + k) % 2 ^ 32)
        (List.range ((run_task tr fuel w e data).calls.countP
          (call.is_train_step fun _ => true))) := by
    unfold run_task
    split
    · rfl
    · norm_num only at hs ⊢
      exact epoch_loop_reader_epoch_ids tr fuel w _ _ hs
  refine ⟨hids, ?_, ?_, ?_⟩
  · intro hfit
    rw [hids]
    apply List.map_congr_left
    intro k hk
    have hk2 := List.mem_range.mp hk
    exact Nat.mod_eq_of_lt (by omega)
  · rcases run_task_calls tr fuel w e data with ⟨hnil, _⟩ | hcalls
    · rw [hnil]; exact List.chain'_nil
    · refine List.Chain'.imp ?_ (epoch_calls_chain hcalls)
      intro a b hab
      constructor
      · intro rid ha
        subst ha
        exact hab
      · intro t hb
        subst hb
        cases a with
        | peek e1 => rcases hab with ⟨_, h1⟩ | ⟨_, h1⟩ <;> cases h1
        | set_epoch r => exact ⟨r, rfl⟩
        | train_step u => cases hab
        | progress_push u =>
          rcases hab with ⟨_, _, h1⟩ | ⟨_, h1 | ⟨_, h1⟩⟩ <;> cases h1
        | push u => obtain ⟨_, h1⟩ := hab; cases h1
  · rcases run_task_calls tr fuel w e data with ⟨hnil, _⟩ | hcalls
    · rw [hnil]; simp
    · exact epoch_calls_head hcalls

/-- Witness of C17: with `steady_trainer` (`epoch_count = 3`) a task peeked at start epoch 1
has the reader epochs 1 and 2. -/
theorem run_task_reader_epochs_witness :
    reader_epoch_ids (run_task steady_trainer 5 [] ⟨7, 1, some ⟨1⟩, none, none⟩ ⟨1⟩).calls
      = [1, 2] := by
  have h := (run_task_reader_epochs steady_trainer 5 [] ⟨7, 1, some ⟨1⟩, none, none⟩ ⟨1⟩
    (by decide)).1
  rw [h]
  decide

/-! ### `get_schema` -/

theorem force_data_layers_eq {β : Type} (data_layer : β) (names : List String) :
    ∀ (new_layers : List (layer β)) (exclude : List String),
      force_data_layers data_layer names (new_layers, exclude) =
        (new_layers ++ names.map (fun name => ⟨name, data_layer⟩), exclude ++ names) := by
  induction names with
  | nil => intro new_layers exclude; simp [force_data_layers]
  | cons name rest ih =>
    intro new_layers exclude
    simp [force_data_layers, ih]

theorem keep_other_layers_eq {β : Type} (exclude : List String) (layers : List (layer β)) :
    ∀ new_layers : List (layer β),
      keep_other_layers exclude layers new_layers =
        new_layers ++ layers.filter (fun l => decide (l.instance_name ∉ exclude)) := by
  induction layers with
  | nil => intro new_layers; simp [keep_other_layers]
  | cons l rest ih =>
    intro new_layers
    by_cases h : l.instance_name ∈ exclude
    · simp [keep_other_layers, h, ih]
    · simp [keep_other_layers, h, ih]

/-- C18: with inference usage and a non-empty list `F` of forced data layer names,
`get_schema` returns one new data layer per name of `F`, in the order of `F`, followed by the
loaded layers whose instance name is not in `F`, in their original order; for any other
usage, and for an empty `F`, it returns the loaded schema unchanged. -/
theorem get_schema_forces_data_layers {β : Type} (data_layer : β) (F : List String)
    (loaded : List (layer β)) (usage : schema_usage) :
    (usage = schema_usage.schema_usage_inference ∧ F ≠ [] →
      get_schema data_layer F loaded usage =
        F.map (fun name => ⟨name, data_layer⟩) ++
          loaded.filter (fun l => decide (l.instance_name ∉ F))) ∧
    (usage ≠ schema_usage.schema_usage_inference → get_schema data_layer F loaded usage = loaded) ∧
    (F = [] → get_schema data_layer F loaded usage = loaded) ∧
    List.Sublist (loaded.filter (fun l => decide (l.instance_name ∉ F))) loaded := by
  refine ⟨?_, ?_, ?_, List.filter_sublist _⟩
  · intro h
    simp only [get_schema, h, ne_eq, not_false_eq_true, and_self, if_true,
      force_data_layers_eq, keep_other_layers_eq, List.nil_append]
  · intro h
    simp [get_schema, h]
  · intro h
    simp [get_schema, h]

/-- Witness of C18: forcing `a` and `c` in the schema `a, b, c, d` gives `a, c, b, d`, the
first two being new data layers. -/
theorem get_schema_forces_data_layers_witness :
    get_schema "data" ["a", "c"] [⟨"a", "conv"⟩, ⟨"b", "relu"⟩, ⟨"c", "conv"⟩, ⟨"d", "mse"⟩]
        schema_usage.schema_usage_inference =
      [⟨"a", "data"⟩, ⟨"c", "data"⟩, ⟨"b", "relu"⟩, ⟨"d", "mse"⟩] := by
  rw [(get_schema_forces_data_layers "data" ["a", "c"]
    [⟨"a", "conv"⟩, ⟨"b", "relu"⟩, ⟨"c", "conv"⟩, ⟨"d", "mse"⟩]
    schema_usage.schema_usage_inference).1 ⟨rfl, by simp⟩]
  rfl

/-! ### The starting index of batch training -/

theorem is_digit_iff (c : Char) : is_digit c = true ↔ 48 ≤ c.toNat ∧ c.toNat ≤ 57 := by
  simp [is_digit]

theorem atol_of_digits (c : Char) (rest : List Char) (hc : is_digit c = true) :
    atol (c :: rest) = min ((atol_digits 0 (c :: rest) : Nat) : Int) (2 ^ 63 - 1) := by
  obtain ⟨h1, h2⟩ := (is_digit_iff c).mp hc
  have hspace : isspace c = false := by
    simp only [isspace, Bool.or_eq_false_iff, decide_eq_false_iff_not, Bool.and_eq_false_imp,
      decide_eq_true_eq]
    omega
  have hminus : c ≠ '-' := by
    intro h
    rw [h] at h1
    exact absurd h1 (by decide)
  have hplus : c ≠ '+' := by
    intro h
    rw [h] at h1
    exact absurd h1 (by decide)
  simp only [atol, List.dropWhile_cons, hspace, Bool.false_eq_true, if_false, hminus, hplus]

theorem long_to_int_of_small (v : Nat) (h : v < 2 ^ 31) : long_to_int (v : Int) = v := by
  unfold long_to_int static_cast_int
  norm_num only at h ⊢
  have h1 : ((v : Int) % 4294967296).toNat = v := by omega
  rw [h1]
  have h2 : v % 4294967296 = v := by omega
  rw [h2, if_pos h]

theorem trained_digits_value (name : String) (digits : List Char)
    (h : trained_ann_index_digits name = some digits) :
    atol digits = min ((atol_digits 0 digits : Nat) : Int) (2 ^ 63 - 1) ∧
      trained_index name = some (atol_digits 0 digits) := by
  refine ⟨?_, by simp [trained_index, h]⟩
  unfold trained_ann_index_digits at h
  split at h
  · cases h
  · next ds _ =>
    split at h
    · next hds =>
      cases h
      cases digits with
      | nil => exact absurd rfl hds.1
      | cons c rest =>
        have hc : is_digit c = true := by
          have := hds.2
          simp only [List.all_cons, Bool.and_eq_true] at this
          exact this.1
        exact atol_of_digits c rest hc
    · cases h

theorem max_trained_index_spec (folders : List String)
    (hfit : ∀ name ∈ folders, ∀ i, trained_index name = some i → i < 2 ^ 31) :
    ∀ acc : Int,
      acc ≤ max_trained_index folders acc ∧
      (∀ name ∈ folders, ∀ i, trained_index name = some i →
        (i : Int) ≤ max_trained_index folders acc) ∧
      (max_trained_index folders acc = acc ∨
        ∃ name ∈ folders, ∃ i, trained_index name = some i ∧
          max_trained_index folders acc = (i : Int)) := by
  induction folders with
  | nil => intro acc; simp [max_trained_index]
  | cons name rest ih =>
    intro acc
    have hrest : ∀ n ∈ rest, ∀ i, trained_index n = some i → i < 2 ^ 31 :=
      fun n hn => hfit n (List.mem_cons_of_mem _ hn)
    simp only [max_trained_index]
    split
    · next digits hd =>
      obtain ⟨hval, hidx⟩ := trained_digits_value name digits hd
      have hsmall := hfit name (List.mem_cons_self _ _) _ hidx
      have hclip : min ((atol_digits 0 digits : Nat) : Int) (2 ^ 63 - 1)
          = ((atol_digits 0 digits : Nat) : Int) := by
        apply min_eq_left
        norm_num only at hsmall ⊢
        omega
      rw [hval, hclip, long_to_int_of_small _ hsmall]
      obtain ⟨h1, h2, h3⟩ := ih hrest (max acc ((atol_digits 0 digits : Nat) : Int))
      refine ⟨le_trans (le_max_left _ _) h1, ?_, ?_⟩
      · intro n hn i hi
        rcases List.mem_cons.mp hn with rfl | hn
        · rw [hidx] at hi
          cases hi
          exact le_trans (le_max_right _ _) h1
        · exact h2 n hn i hi
      · rcases h3 with h3 | ⟨n, hn, i, hi, h3⟩
        · rcases max_choice acc ((atol_digits 0 digits : Nat) : Int) with hm | hm
          · left; rw [h3, hm]
          · right
            exact ⟨name, List.mem_cons_self _ _, _, hidx, by rw [h3, hm]⟩
        · right
          exact ⟨n, List.mem_cons_of_mem _ hn, i, hi, h3⟩
    · next hd =>
      obtain ⟨h1, h2, h3⟩ := ih hrest acc
      refine ⟨h1, ?_, ?_⟩
      · intro n hn i hi
        rcases List.mem_cons.mp hn with rfl | hn
        · simp [trained_index, hd] at hi
        · exact h2 n hn i hi
      · rcases h3 with h3 | ⟨n, hn, i, hi, h3⟩
        · left; exact h3
        · right
          exact ⟨n, List.mem_cons_of_mem _ hn, i, hi, h3⟩

theorem raise_starting_index_spec (tasks : List network_data_peek_entry) :
    ∀ start : Nat,
      start ≤ raise_starting_index tasks start ∧
      ∀ t ∈ tasks, (t.index + 1) % 2 ^ 32 ≤ raise_starting_index tasks start := by
  induction tasks with
  | nil => intro start; simp [raise_starting_index]
  | cons t rest ih =>
    intro start
    obtain ⟨h1, h2⟩ := ih (max start ((t.index + 1) % 2 ^ 32))
    simp only [raise_starting_index]
    refine ⟨le_trans (le_max_left _ _) h1, ?_⟩
    intro u hu
    rcases List.mem_cons.mp hu with rfl | hu
    · exact le_trans (le_max_right _ _) h1
    · exact h2 u hu

/-- C19: with `batch_offset >= 0` and no 32-bit overflow (every folder index plus one fits
an `int`, every folder index plus one plus `batch_offset`, and `batch_offset` itself, fit an
`unsigned int`, and so does every resumed index plus one), the starting index that `train`
hands to the task peeker is greater than the index of every folder named
`ann_trained_<digits>` and than the index of every resumed task, and it is `batch_offset`
when there is no such folder and no resumed task. -/
theorem train_starting_index_above_all (folders : List String) (batch_offset : Int)
    (tasks : List network_data_peek_entry)
    (hoff : 0 ≤ batch_offset) (hoff2 : batch_offset < 2 ^ 32)
    (hfit : ∀ name ∈ folders, ∀ i, trained_index name = some i →
      i + 1 < 2 ^ 31 ∧ (i : Int) + 1 + batch_offset < 2 ^ 32)
    (htasks : ∀ t ∈ tasks, t.index + 1 < 2 ^ 32) :
    (∀ name ∈ folders, ∀ i, trained_index name = some i →
      i < train_starting_index folders batch_offset tasks) ∧
    (∀ t ∈ tasks, t.index < train_starting_index folders batch_offset tasks) ∧
    ((∀ name ∈ folders, trained_index name = none) → tasks = [] →
      (train_starting_index folders batch_offset tasks : Int) = batch_offset) := by
  have hsmall : ∀ name ∈ folders, ∀ i, trained_index name = some i → i < 2 ^ 31 :=
    fun n hn i hi => by have := (hfit n hn i hi).1; omega
  obtain ⟨h1, h2, h3⟩ := max_trained_index_spec folders hsmall (-1)
  obtain ⟨h4, h5⟩ := raise_starting_index_spec tasks
    (get_starting_index_for_batch_training folders batch_offset)
  have hbound : max_trained_index folders (-1) + 1 + batch_offset < 2 ^ 32 := by
    rcases h3 with h3 | ⟨n, hn, i, hi, h3⟩
    · rw [h3]; omega
    · rw [h3]; exact (hfit n hn i hi).2
  have hstart : (get_starting_index_for_batch_training folders batch_offset : Int)
      = max_trained_index folders (-1) + 1 + batch_offset := by
    unfold get_starting_index_for_batch_training
    norm_num only at hbound ⊢
    omega
  refine ⟨?_, ?_, ?_⟩
  · intro n hn i hi
    have := h2 n hn i hi
    unfold train_starting_index
    omega
  · intro t ht
    have h6 := h5 t ht
    have h7 := htasks t ht
    unfold train_starting_index
    norm_num only at h6 h7 ⊢
    omega
  · intro hnone htasks_nil
    subst htasks_nil
    have hm : max_trained_index folders (-1) = -1 := by
      rcases h3 with h3 | ⟨n, hn, i, hi, _⟩
      · exact h3
      · rw [hnone n hn] at hi
        cases hi
    simp only [train_starting_index, raise_starting_index]
    rw [hstart, hm]
    omega

/-- Witness of C19: the batch folder holds `ann_trained_007`, `snapshots` and
`ann_trained_3`, `batch_offset` is 2 and the task 12 is resumed. -/
theorem train_starting_index_above_all_witness :
    (∀ name ∈ ["ann_trained_007", "snapshots", "ann_trained_3"], ∀ i,
      trained_index name = some i →
      i < train_starting_index ["ann_trained_007", "snapshots", "ann_trained_3"] 2
        [⟨12, 0, none, none, none⟩]) ∧
    (∀ t ∈ [(⟨12, 0, none, none, none⟩ : network_data_peek_entry)],
      t.index < train_starting_index ["ann_trained_007", "snapshots", "ann_trained_3"] 2
        [⟨12, 0, none, none, none⟩]) ∧
    ((∀ name ∈ ["ann_trained_007", "snapshots", "ann_trained_3"], trained_index name = none) →
      [(⟨12, 0, none, none, none⟩ : network_data_peek_entry)] = [] →
      (train_starting_index ["ann_trained_007", "snapshots", "ann_trained_3"] 2
        [⟨12, 0, none, none, none⟩] : Int) = 2) :=
  train_starting_index_above_all ["ann_trained_007", "snapshots", "ann_trained_3"] 2
    [⟨12, 0, none, none, none⟩] (by decide) (by decide)
    (by
      intro name hn i hi
      simp only [List.mem_cons, List.mem_singleton, List.not_mem_nil, or_false] at hn
      rcases hn with rfl | rfl | rfl
      · have h : trained_index "ann_trained_007" = some 7 := by rfl
        rw [h] at hi; cases hi; decide
      · have h : trained_index "snapshots" = none := by rfl
        rw [h] at hi; cases hi
      · have h : trained_index "ann_trained_3" = some 3 := by rfl
        rw [h] at hi; cases hi; decide)
    (by
      intro t ht
      simp only [List.mem_singleton] at ht
      subst ht
      decide)

/-! ### The snapshot list -/

theorem has_snapshot_iff (entries : List directory_entry) (i e : Nat) :
    has_snapshot entries i e ↔ ∃ it ∈ entries, entry_snapshot it = some (i, e) := by
  unfold has_snapshot entry_snapshot
  constructor
  · rintro ⟨it, hit, hdir, ds, es, hmatch, rfl, rfl⟩
    exact ⟨it, hit, by simp [hdir, hmatch]⟩
  · rintro ⟨it, hit, h⟩
    by_cases hdir : it.is_directory = true
    · simp only [hdir, if_true, Option.map_eq_some'] at h
      obtain ⟨⟨ds, es⟩, hmatch, heq⟩ := h
      simp only [Prod.mk.injEq] at heq
      exact ⟨it, hit, hdir, ds, es, hmatch, heq.1, heq.2⟩
    · simp [hdir] at h

theorem has_snapshot_append (entries : List directory_entry) (it : directory_entry)
    (i e : Nat) :
    has_snapshot (entries ++ [it]) i e ↔
      has_snapshot entries i e ∨ entry_snapshot it = some (i, e) := by
  simp only [has_snapshot_iff, List.mem_append, List.mem_singleton]
  constructor
  · rintro ⟨d, hd | rfl, h⟩
    · exact Or.inl ⟨d, hd, h⟩
    · exact Or.inr h
  · rintro (⟨d, hd, h⟩ | h)
    · exact ⟨d, Or.inl hd, h⟩
    · exact ⟨it, Or.inr rfl, h⟩

theorem snapshot_step_eq (excl : List Nat) (res : Nat → Option Nat) (it : directory_entry) :
    snapshot_step excl res it =
      match entry_snapshot it with
      | none => res
      | some (j, e0) =>
        if j ∉ excl then
          match res j with
          | none => Function.update res j (some e0)
          | some e => Function.update res j (some (max e e0))
        else res := by
  unfold snapshot_step entry_snapshot
  by_cases hdir : it.is_directory = true
  · simp only [hdir, if_true]
    cases snapshot_ann_index_digits it.folder_name with
    | none => rfl
    | some d => rfl
  · simp [hdir]

theorem snapshot_list_of_step (excl : List Nat) (entries : List directory_entry)
    (res : Nat → Option Nat) (it : directory_entry) (h : snapshot_list_of excl entries res) :
    snapshot_list_of excl (entries ++ [it]) (snapshot_step excl res it) := by
  rw [snapshot_step_eq]
  cases hsnap : entry_snapshot it with
  | none =>
    intro i
    have hsame : ∀ e, has_snapshot (entries ++ [it]) i e ↔ has_snapshot entries i e := by
      intro e
      rw [has_snapshot_append, hsnap]
      simp
    simp only [hsame]
    exact h i
  | some p =>
    obtain ⟨j, e0⟩ := p
    simp only
    by_cases hj : j ∈ excl
    · simp only [hj, not_true_eq_false, if_false]
      intro i
      obtain ⟨h1, h2⟩ := h i
      constructor
      · intro hnone
        rcases h1 hnone with hex | hno
        · exact Or.inl hex
        · by_cases hij : i = j
          · exact Or.inl (hij ▸ hj)
          · right
            intro e he
            rcases (has_snapshot_append _ _ _ _).mp he with he | he
            · exact hno e he
            · rw [hsnap] at he
              simp only [Option.some.injEq, Prod.mk.injEq] at he
              exact hij he.1.symm
      · intro v hv
        obtain ⟨h3, h4, h5⟩ := h2 v hv
        refine ⟨h3, (has_snapshot_append _ _ _ _).mpr (Or.inl h4), ?_⟩
        intro e he
        rcases (has_snapshot_append _ _ _ _).mp he with he | he
        · exact h5 e he
        · rw [hsnap] at he
          simp only [Option.some.injEq, Prod.mk.injEq] at he
          exact absurd (he.1 ▸ hj) h3
    · simp only [hj, not_false_eq_true, if_true]
      intro i
      obtain ⟨h1, h2⟩ := h i
      by_cases hij : i = j
      · subst hij
        cases hres : res i with
        | none =>
          refine ⟨fun hn => ?_, fun v hv => ?_⟩
          · simp at hn
          simp only [Function.update_same, Option.some.injEq] at hv
          subst hv
          refine ⟨hj, (has_snapshot_append _ _ _ _).mpr (Or.inr hsnap), ?_⟩
          intro e he
          rcases (has_snapshot_append _ _ _ _).mp he with he | he
          · rcases h1 hres with hex | hno
            · exact absurd hex hj
            · exact absurd he (hno e)
          · rw [hsnap] at he
            simp only [Option.some.injEq, Prod.mk.injEq] at he
            exact le_of_eq he.2.symm
        | some v0 =>
          obtain ⟨_, h4, h5⟩ := h2 v0 hres
          refine ⟨fun hn => ?_, fun v hv => ?_⟩
          · simp at hn
          simp only [Function.update_same, Option.some.injEq] at hv
          subst hv
          refine ⟨hj, ?_, ?_⟩
          · rcases max_choice v0 e0 with hm | hm
            · rw [hm]; exact (has_snapshot_append _ _ _ _).mpr (Or.inl h4)
            · rw [hm]; exact (has_snapshot_append _ _ _ _).mpr (Or.inr hsnap)
          · intro e he
            rcases (has_snapshot_append _ _ _ _).mp he with he | he
            · exact le_trans (h5 e he) (le_max_left _ _)
            · rw [hsnap] at he
              simp only [Option.some.injEq, Prod.mk.injEq] at he
              rw [← he.2]
              exact le_max_right _ _
      · have hupd : ∀ x, Function.update res j x i = res i :=
          fun x => Function.update_noteq hij x res
        have hsame : ∀ e, has_snapshot (entries ++ [it]) i e ↔ has_snapshot entries i e := by
          intro e
          rw [has_snapshot_append, hsnap]
          constructor
          · rintro (he | he)
            · exact he
            · simp only [Option.some.injEq, Prod.mk.injEq] at he
              exact absurd he.1.symm hij
          · exact Or.inl
        cases res j with
        | none =>
          simp only [hupd, hsame]
          exact ⟨h1, h2⟩
        | some v0 =>
          simp only [hupd, hsame]
          exact ⟨h1, h2⟩

theorem get_snapshot_ann_list_spec (excl : List Nat) (entries : List directory_entry) :
    snapshot_list_of excl entries (get_snapshot_ann_list excl entries) := by
  unfold get_snapshot_ann_list
  induction entries using List.reverseRecOn with
  | nil =>
    intro i
    refine ⟨fun _ => Or.inr ?_, fun v hv => by cases hv⟩
    intro e he
    obtain ⟨it, hit, _⟩ := he
    cases hit
  | append_singleton entries it ih =>
    rw [List.foldl_append]
    exact snapshot_list_of_step excl entries _ it ih

theorem get_snapshot_ann_list_has_snapshot (exclusion_ann_list : List Nat)
    (entries : List directory_entry) (i : Nat) :
    ((∃ v, get_snapshot_ann_list exclusion_ann_list entries i = some v) ↔
      i ∉ exclusion_ann_list ∧ ∃ e, has_snapshot entries i e) ∧
    (∀ v, get_snapshot_ann_list exclusion_ann_list entries i = some v →
      has_snapshot entries i v ∧ ∀ e, has_snapshot entries i e → e ≤ v) := by
  obtain ⟨h1, h2⟩ := get_snapshot_ann_list_spec exclusion_ann_list entries i
  refine ⟨⟨?_, ?_⟩, fun v hv => (h2 v hv).2⟩
  · rintro ⟨v, hv⟩
    obtain ⟨h3, h4, _⟩ := h2 v hv
    exact ⟨h3, v, h4⟩
  · rintro ⟨hex, e, he⟩
    cases hres : get_snapshot_ann_list exclusion_ann_list entries i with
    | none =>
      rcases h1 hres with h | h
      · exact absurd h hex
      · exact absurd he (h e)
    | some v => exact ⟨v, rfl⟩

theorem atol_of_all_digits (digits : List Char) (hne : digits ≠ [])
    (hall : digits.all is_digit = true) :
    atol digits = min ((atol_digits 0 digits : Nat) : Int) (2 ^ 63 - 1) := by
  cases digits with
  | nil => exact absurd rfl hne
  | cons c rest =>
    simp only [List.all_cons, Bool.and_eq_true] at hall
    exact atol_of_digits c rest hall.1

theorem long_to_unsigned_atol_of_small (digits : List Char) (hne : digits ≠ [])
    (hall : digits.all is_digit = true) (hsmall : atol_digits 0 digits < 2 ^ 32) :
    long_to_unsigned (atol digits) = atol_digits 0 digits := by
  rw [atol_of_all_digits digits hne hall]
  have hclip : min ((atol_digits 0 digits : Nat) : Int) (2 ^ 63 - 1)
      = ((atol_digits 0 digits : Nat) : Int) := by
    apply min_eq_left
    norm_num only at hsmall ⊢
    omega
  rw [hclip]
  unfold long_to_unsigned
  norm_num only at hsmall ⊢
  omega

theorem snapshot_digits_are_digits (name : String) (index_digits epoch_digits : List Char)
    (h : snapshot_ann_index_digits name = some (index_digits, epoch_digits)) :
    (index_digits ≠ [] ∧ index_digits.all is_digit = true) ∧
      (epoch_digits ≠ [] ∧ epoch_digits.all is_digit = true) := by
  unfold snapshot_ann_index_digits at h
  split at h
  · cases h
  · next rest _ =>
    split at h
    · cases h
    · next es _ =>
      split at h
      · next hds =>
        simp only [Option.some.injEq, Prod.mk.injEq] at h
        obtain ⟨h1, h2⟩ := h
        subst h1
        subst h2
        exact ⟨⟨hds.1, List.all_takeWhile⟩, hds.2⟩
      · cases h

theorem trained_digits_are_digits (name : String) (digits : List Char)
    (h : trained_ann_index_digits name = some digits) :
    digits ≠ [] ∧ digits.all is_digit = true := by
  unfold trained_ann_index_digits at h
  split at h
  · cases h
  · split at h
    · next hds =>
      cases h
      exact hds
    · cases h

theorem has_snapshot_iff_named (entries : List directory_entry)
    (hfit : ∀ it ∈ entries, it.is_directory = true → ∀ i e,
      snapshot_index_epoch it.folder_name = some (i, e) → i < 2 ^ 32 ∧ e < 2 ^ 32)
    (i e : Nat) :
    has_snapshot entries i e ↔ snapshot_folder_named entries i e := by
  unfold has_snapshot snapshot_folder_named
  constructor
  · rintro ⟨it, hit, hdir, ds, es, hmatch, hi, he⟩
    have hsnap : snapshot_index_epoch it.folder_name
        = some (atol_digits 0 ds, atol_digits 0 es) := by
      simp [snapshot_index_epoch, hmatch]
    obtain ⟨hd, hes⟩ := snapshot_digits_are_digits _ _ _ hmatch
    obtain ⟨f1, f2⟩ := hfit it hit hdir _ _ hsnap
    rw [long_to_unsigned_atol_of_small ds hd.1 hd.2 f1] at hi
    rw [long_to_unsigned_atol_of_small es hes.1 hes.2 f2] at he
    exact ⟨it, hit, hdir, by rw [hsnap, hi, he]⟩
  · rintro ⟨it, hit, hdir, hsnap⟩
    obtain ⟨f1, f2⟩ := hfit it hit hdir _ _ hsnap
    unfold snapshot_index_epoch at hsnap
    simp only [Option.map_eq_some', Prod.mk.injEq] at hsnap
    obtain ⟨⟨ds, es⟩, hmatch, hi, he⟩ := hsnap
    simp only at hi he
    obtain ⟨hd, hes⟩ := snapshot_digits_are_digits _ _ _ hmatch
    refine ⟨it, hit, hdir, ds, es, hmatch, ?_, ?_⟩
    · rw [long_to_unsigned_atol_of_small ds hd.1 hd.2 (by rw [hi]; exact f1), hi]
    · rw [long_to_unsigned_atol_of_small es hes.1 hes.2 (by rw [he]; exact f2), he]

theorem mem_get_trained_ann_list_of_named (batch_entries : List directory_entry) (i : Nat)
    (hi : i < 2 ^ 32) (h : trained_folder_named batch_entries i) :
    i ∈ get_trained_ann_list batch_entries := by
  obtain ⟨it, hit, hdir, hidx⟩ := h
  unfold trained_index at hidx
  simp only [Option.map_eq_some'] at hidx
  obtain ⟨digits, hmatch, hval⟩ := hidx
  obtain ⟨hne, hall⟩ := trained_digits_are_digits _ _ hmatch
  unfold get_trained_ann_list
  rw [List.mem_filterMap]
  refine ⟨it, hit, ?_⟩
  simp only [hdir, if_true, hmatch, Option.map_some', Option.some.injEq]
  rw [long_to_unsigned_atol_of_small digits hne hall (by rw [hval]; exact hi), hval]

theorem named_of_mem_get_trained_ann_list (batch_entries : List directory_entry)
    (hfit : ∀ it ∈ batch_entries, it.is_directory = true → ∀ i,
      trained_index it.folder_name = some i → i < 2 ^ 32)
    (i : Nat) (h : i ∈ get_trained_ann_list batch_entries) :
    trained_folder_named batch_entries i := by
  unfold get_trained_ann_list at h
  rw [List.mem_filterMap] at h
  obtain ⟨it, hit, hval⟩ := h
  by_cases hdir : it.is_directory = true
  · simp only [hdir, if_true, Option.map_eq_some'] at hval
    obtain ⟨digits, hmatch, hval⟩ := hval
    obtain ⟨hne, hall⟩ := trained_digits_are_digits _ _ hmatch
    have hidx : trained_index it.folder_name = some (atol_digits 0 digits) := by
      simp [trained_index, hmatch]
    have hsmall := hfit it hit hdir _ hidx
    rw [long_to_unsigned_atol_of_small digits hne hall hsmall] at hval
    exact ⟨it, hit, hdir, by rw [hidx, hval]⟩
  · simp [hdir] at hval

/-- C20 fails as stated: the folder `ann_trained_4294967296_epoch_1` gives the key 0, for
which no folder is named, and no key 4294967296; and of the folders
`ann_trained_7_epoch_4294967296` and `ann_trained_7_epoch_5` the value stored for 7 is 5,
not the maximum epoch: index and epoch are cast to `unsigned int`. -/
theorem get_snapshot_ann_list_wraps_large_numbers :
    get_snapshot_ann_list [] [⟨"ann_trained_4294967296_epoch_1", true⟩] 0 = some 1 ∧
    (¬ ∃ e, snapshot_folder_named [⟨"ann_trained_4294967296_epoch_1", true⟩] 0 e) ∧
    snapshot_folder_named [⟨"ann_trained_4294967296_epoch_1", true⟩] 4294967296 1 ∧
    get_snapshot_ann_list [] [⟨"ann_trained_4294967296_epoch_1", true⟩] 4294967296 = none ∧
    snapshot_folder_named
      [⟨"ann_trained_7_epoch_4294967296", true⟩, ⟨"ann_trained_7_epoch_5", true⟩]
      7 4294967296 ∧
    get_snapshot_ann_list []
      [⟨"ann_trained_7_epoch_4294967296", true⟩, ⟨"ann_trained_7_epoch_5", true⟩] 7
      = some 5 := by
  have h1 : snapshot_index_epoch "ann_trained_4294967296_epoch_1" = some (4294967296, 1) := by
    rfl
  have h2 : snapshot_index_epoch "ann_trained_7_epoch_4294967296" = some (7, 4294967296) := by
    rfl
  refine ⟨by rfl, ?_, ?_, by rfl, ?_, by rfl⟩
  · rintro ⟨e, it, hit, _, hsnap⟩
    rw [List.mem_singleton] at hit
    subst hit
    rw [h1] at hsnap
    simp at hsnap
  · exact ⟨_, List.mem_singleton.mpr rfl, rfl, h1⟩
  · exact ⟨_, List.mem_cons_self _ _, rfl, h2⟩

/-- C20, amended: when the index and the epoch in the name of every snapshot folder are
below `2^32`, the map returned by `get_snapshot_ann_list` has a value for the index `i` if
and only if `i` is not excluded and some directory is named `ann_trained_<i>_epoch_<e>`,
and the value is the epoch of such a directory and at least the epoch of every such
directory, that is, the maximum epoch.  With the exclusion set that
`get_snapshot_ann_list_entry_list` passes, the indices of the trained networks, the map has
no value for a network below `2^32` that has a directory `ann_trained_<i>`; and when the
indices of all these directories are below `2^32`, it has a value for `i` exactly when no
directory is named `ann_trained_<i>` and some directory is named
`ann_trained_<i>_epoch_<e>`, the value being the maximum epoch. -/
theorem get_snapshot_ann_list_latest_epoch (exclusion_ann_list : List Nat)
    (batch_entries entries : List directory_entry)
    (hfit : ∀ it ∈ entries, it.is_directory = true → ∀ i e,
      snapshot_index_epoch it.folder_name = some (i, e) → i < 2 ^ 32 ∧ e < 2 ^ 32) :
    (∀ i, ((∃ v, get_snapshot_ann_list exclusion_ann_list entries i = some v) ↔
        i ∉ exclusion_ann_list ∧ ∃ e, snapshot_folder_named entries i e) ∧
      (∀ v, get_snapshot_ann_list exclusion_ann_list entries i = some v →
        snapshot_folder_named entries i v ∧
          ∀ e, snapshot_folder_named entries i e → e ≤ v)) ∧
    (∀ i, i < 2 ^ 32 → trained_folder_named batch_entries i →
      snapshot_ann_list batch_entries entries i = none) ∧
    ((∀ it ∈ batch_entries, it.is_directory = true → ∀ i,
        trained_index it.folder_name = some i → i < 2 ^ 32) →
      ∀ i, ((∃ v, snapshot_ann_list batch_entries entries i = some v) ↔
          ¬ trained_folder_named batch_entries i ∧ ∃ e, snapshot_folder_named entries i e) ∧
        (∀ v, snapshot_ann_list batch_entries entries i = some v →
          snapshot_folder_named entries i v ∧
            ∀ e, snapshot_folder_named entries i e → e ≤ v)) := by
  have hnamed := has_snapshot_iff_named entries hfit
  have hgen : ∀ (excl : List Nat) (i : Nat),
      ((∃ v, get_snapshot_ann_list excl entries i = some v) ↔
        i ∉ excl ∧ ∃ e, snapshot_folder_named entries i e) ∧
      (∀ v, get_snapshot_ann_list excl entries i = some v →
        snapshot_folder_named entries i v ∧
          ∀ e, snapshot_folder_named entries i e → e ≤ v) := by
    intro excl i
    obtain ⟨h1, h2⟩ := get_snapshot_ann_list_has_snapshot excl entries i
    simp only [hnamed] at h1 h2
    exact ⟨h1, h2⟩
  refine ⟨hgen exclusion_ann_list, ?_, ?_⟩
  · intro i hi htrained
    have hmem := mem_get_trained_ann_list_of_named batch_entries i hi htrained
    cases hres : snapshot_ann_list batch_entries entries i with
    | none => rfl
    | some v =>
      have := ((hgen (get_trained_ann_list batch_entries) i).1.mp ⟨v, hres⟩).1
      exact absurd hmem this
  · intro hbatch i
    obtain ⟨h1, h2⟩ := hgen (get_trained_ann_list batch_entries) i
    refine ⟨?_, h2⟩
    unfold snapshot_ann_list
    rw [h1]
    constructor
    · rintro ⟨hnot, he⟩
      refine ⟨fun htrained => hnot ?_, he⟩
      obtain ⟨it, hit, hdir, hidx⟩ := htrained
      exact mem_get_trained_ann_list_of_named batch_entries i (hbatch it hit hdir i hidx)
        ⟨it, hit, hdir, hidx⟩
    · rintro ⟨hnot, he⟩
      exact ⟨fun hmem => hnot (named_of_mem_get_trained_ann_list batch_entries hbatch i hmem),
        he⟩

/-- Witness of C20, amended: two snapshots of network 7, of epochs 12 and 5, a snapshot of
the trained network 3, and a file that is not a directory. -/
theorem get_snapshot_ann_list_latest_epoch_witness :
    snapshot_ann_list [⟨"ann_trained_3", true⟩, ⟨"snapshots", true⟩]
        [⟨"ann_trained_007_epoch_00012", true⟩, ⟨"ann_trained_7_epoch_5", true⟩,
          ⟨"ann_trained_3_epoch_5", true⟩, ⟨"ann_trained_9_epoch_5", false⟩] 7 = some 12 ∧
      snapshot_ann_list [⟨"ann_trained_3", true⟩, ⟨"snapshots", true⟩]
        [⟨"ann_trained_007_epoch_00012", true⟩, ⟨"ann_trained_7_epoch_5", true⟩,
          ⟨"ann_trained_3_epoch_5", true⟩, ⟨"ann_trained_9_epoch_5", false⟩] 3 = none :=
  ⟨by rfl, (get_snapshot_ann_list_latest_epoch []
    [⟨"ann_trained_3", true⟩, ⟨"snapshots", true⟩]
    [⟨"ann_trained_007_epoch_00012", true⟩, ⟨"ann_trained_7_epoch_5", true⟩,
      ⟨"ann_trained_3_epoch_5", true⟩, ⟨"ann_trained_9_epoch_5", false⟩]
    (by
      intro it hit hdir i e hsnap
      simp only [List.mem_cons, List.mem_singleton, List.not_mem_nil, or_false] at hit
      rcases hit with rfl | rfl | rfl | rfl
      · have h : snapshot_index_epoch "ann_trained_007_epoch_00012" = some (7, 12) := by rfl
        rw [h] at hsnap; cases hsnap; decide
      · have h : snapshot_index_epoch "ann_trained_7_epoch_5" = some (7, 5) := by rfl
        rw [h] at hsnap; cases hsnap; decide
      · have h : snapshot_index_epoch "ann_trained_3_epoch_5" = some (3, 5) := by rfl
        rw [h] at hsnap; cases hsnap; decide
      · cases hdir)).2.1 3 (by decide)
    ⟨⟨"ann_trained_3", true⟩, List.mem_cons_self _ _, rfl, by rfl⟩⟩

/-! ### The action schedule -/

theorem inputs_of_lt (g : schema_graph) (hg : g.well_formed) (k i : Nat)
    (hi : i ∈ g.inputs_of k) : i < k := by
  unfold schema_graph.inputs_of at hi
  split at hi
  · next node hnode => exact hg k node hnode i hi
  · cases hi

theorem reach_mono (g : schema_graph) (k : Nat) :
    ∀ marked : List Nat, ∀ j ∈ marked, j ∈ g.reach k marked := by
  induction k with
  | zero => intro marked j hj; exact hj
  | succ k ih =>
    intro marked j hj
    simp only [schema_graph.reach]
    split
    · exact ih _ j (List.mem_append_right _ hj)
    · exact ih _ j hj

theorem reach_subset (g : schema_graph) (k : Nat) :
    ∀ m₁ m₂ : List Nat, (∀ j ∈ m₁, j ∈ m₂) → ∀ j ∈ g.reach k m₁, j ∈ g.reach k m₂ := by
  induction k with
  | zero => intro m₁ m₂ h j hj; exact h j hj
  | succ k ih =>
    intro m₁ m₂ h j hj
    simp only [schema_graph.reach] at hj ⊢
    by_cases h1 : k ∈ m₁
    · have h2 : k ∈ m₂ := h k h1
      rw [if_pos h1] at hj
      rw [if_pos h2]
      refine ih _ _ ?_ j hj
      intro x hx
      rcases List.mem_append.mp hx with hx | hx
      · exact List.mem_append_left _ hx
      · exact List.mem_append_right _ (h x hx)
    · rw [if_neg h1] at hj
      by_cases h2 : k ∈ m₂
      · rw [if_pos h2]
        exact ih _ _ (fun x hx => List.mem_append_right _ (h x hx)) j hj
      · rw [if_neg h2]
        exact ih _ _ h j hj

theorem reach_stable (g : schema_graph) (hg : g.well_formed) (k : Nat) :
    ∀ (marked : List Nat) (j : Nat), k ≤ j → j ∈ g.reach k marked → j ∈ marked := by
  induction k with
  | zero => intro marked j _ hj; exact hj
  | succ k ih =>
    intro marked j hkj hj
    simp only [schema_graph.reach] at hj
    split at hj
    · have := ih _ j (by omega) hj
      rcases List.mem_append.mp this with h | h
      · have := inputs_of_lt g hg k j h
        omega
      · exact h
    · exact ih _ j (by omega) hj

theorem reach_closed (g : schema_graph) (hg : g.well_formed) (k : Nat) :
    ∀ (marked : List Nat) (j : Nat), j < k → j ∈ g.reach k marked →
      ∀ i ∈ g.inputs_of j, i ∈ g.reach k marked := by
  induction k with
  | zero => intro marked j hj; omega
  | succ k ih =>
    intro marked j hjk hj i hi
    simp only [schema_graph.reach] at hj ⊢
    by_cases hk : k ∈ marked
    · rw [if_pos hk] at hj ⊢
      by_cases hjeq : j = k
      · subst hjeq
        exact reach_mono g j _ i (List.mem_append_left _ hi)
      · exact ih _ j (by omega) hj i hi
    · rw [if_neg hk] at hj ⊢
      by_cases hjeq : j = k
      · subst hjeq
        exact absurd (reach_stable g hg j marked j le_rfl hj) hk
      · exact ih _ j (by omega) hj i hi

theorem pair_sublist_range (n i k : Nat) (hik : i < k) (hkn : k < n) :
    List.Sublist [i, k] (List.range n) := by
  induction n with
  | zero => omega
  | succ n ih =>
    rw [List.range_succ]
    by_cases hk : k = n
    · subst hk
      have h1 : List.Sublist [i] (List.range k) :=
        List.singleton_sublist.mpr (List.mem_range.mpr hik)
      exact h1.append (List.Sublist.refl [k])
    · exact (ih (by omega)).trans (List.sublist_append_left _ _)

theorem sublist_flatMap_of_mem {α β : Type} (f : α → List β) (l : List α) (a : α)
    (h : a ∈ l) : List.Sublist (f a) (l.flatMap f) := by
  obtain ⟨l₁, l₂, rfl⟩ := List.append_of_mem h
  simp only [List.flatMap_append, List.flatMap_cons]
  exact (List.sublist_append_left _ _).trans (List.sublist_append_right _ _)

theorem pair_sublist_flatMap {α β : Type} (f : α → List β) (l : List α) (a b : α) (x y : β)
    (h : List.Sublist [a, b] l) (hx : x ∈ f a) (hy : y ∈ f b) :
    List.Sublist [x, y] (l.flatMap f) := by
  induction l with
  | nil => cases h
  | cons c rest ih =>
    simp only [List.flatMap_cons]
    cases h with
    | cons _ h2 => exact (ih h2).trans (List.sublist_append_right _ _)
    | cons₂ _ h2 =>
      have hb : b ∈ rest := List.singleton_sublist.mp h2
      have h3 : List.Sublist [x] (f a) := List.singleton_sublist.mpr hx
      have h4 : List.Sublist [y] (rest.flatMap f) :=
        (List.singleton_sublist.mpr hy).trans (sublist_flatMap_of_mem f rest b hb)
      exact h3.append h4

theorem mem_backward_actions_of (g : schema_graph) (error_sources excluded : List Nat)
    (k : Nat) (a : action) (h : a ∈ backward_actions_of g error_sources excluded k) :
    a.layer = k ∧ a.phase ≠ phase.forward ∧ k ∈ error_marked g error_sources ∧
      (⟨k, phase.backward_error⟩ : action) ∈ backward_actions_of g error_sources excluded k := by
  unfold backward_actions_of at h ⊢
  rcases List.mem_append.mp h with h | h
  · split at h
    · next hk =>
      simp only [List.mem_singleton] at h
      subst h
      refine ⟨rfl, by simp, hk, ?_⟩
      simp [hk]
    · cases h
  · split at h
    · next hk =>
      simp only [List.mem_singleton] at h
      subst h
      refine ⟨rfl, by simp, hk.1, ?_⟩
      simp [hk.1]
    · cases h

theorem backward_actions_of_nodup (g : schema_graph) (error_sources excluded : List Nat)
    (k : Nat) : (backward_actions_of g error_sources excluded k).Nodup := by
  unfold backward_actions_of
  split <;> split <;> simp

theorem error_sublist_weight (g : schema_graph) (error_sources excluded : List Nat) (k : Nat)
    (h : (⟨k, phase.backward_weight⟩ : action) ∈ backward_actions_of g error_sources excluded k) :
    List.Sublist [(⟨k, phase.backward_error⟩ : action), ⟨k, phase.backward_weight⟩]
      (backward_actions_of g error_sources excluded k) := by
  have hk := (mem_backward_actions_of g error_sources excluded k _ h).2.2.1
  unfold backward_actions_of at h ⊢
  rw [if_pos hk] at h ⊢
  split
  · exact List.Sublist.refl _
  · next hno =>
    rw [if_neg hno] at h
    simp at h

theorem mem_backward_part (g : schema_graph) (error_sources excluded : List Nat) (a : action)
    (h : a ∈ (List.range g.length).reverse.flatMap
      (backward_actions_of g error_sources excluded)) :
    a.layer < g.length ∧ a ∈ backward_actions_of g error_sources excluded a.layer := by
  obtain ⟨k, hk, ha⟩ := List.mem_flatMap.mp h
  have hl := (mem_backward_actions_of g error_sources excluded k a ha).1
  rw [hl]
  exact ⟨List.mem_range.mp (List.mem_reverse.mp hk), ha⟩

theorem mem_forward_part (g : schema_graph) (outputs error_sources : List Nat) (a : action) :
    a ∈ List.map (fun k => (⟨k, phase.forward⟩ : action))
        ((List.range g.length).filter
          (fun k => decide (k ∈ forward_marked g outputs error_sources))) ↔
      a.phase = phase.forward ∧ a.layer < g.length ∧
        a.layer ∈ forward_marked g outputs error_sources := by
  simp only [List.mem_map, List.mem_filter, List.mem_range, decide_eq_true_eq]
  constructor
  · rintro ⟨k, ⟨h1, h2⟩, rfl⟩
    exact ⟨rfl, h1, h2⟩
  · rintro ⟨h1, h2, h3⟩
    refine ⟨a.layer, ⟨h2, h3⟩, ?_⟩
    cases a with
    | mk layer ph =>
      simp only at h1
      rw [h1]

theorem action_schedule_nodup (g : schema_graph) (outputs error_sources excluded : List Nat) :
    (action_schedule g outputs error_sources excluded).Nodup := by
  unfold action_schedule
  rw [List.nodup_append]
  refine ⟨?_, ?_, ?_⟩
  · refine List.Nodup.map ?_ ((List.nodup_range _).filter _)
    intro x y hxy
    simp only [action.mk.injEq, and_true] at hxy
    exact hxy
  · rw [List.nodup_flatMap]
    refine ⟨fun k _ => backward_actions_of_nodup g error_sources excluded k, ?_⟩
    have hnd : (List.range g.length).reverse.Nodup :=
      List.nodup_reverse.mpr (List.nodup_range _)
    refine List.Pairwise.imp ?_ hnd
    intro x y hxy
    simp only [Function.onFun]
    rw [List.disjoint_left]
    intro a hax hay
    have h1 := (mem_backward_actions_of g error_sources excluded x a hax).1
    have h2 := (mem_backward_actions_of g error_sources excluded y a hay).1
    exact hxy (h1.symm.trans h2)
  · rw [List.disjoint_left]
    intro a ha hb
    have h1 := ((mem_forward_part g outputs error_sources a).mp ha).1
    have h2 := mem_backward_part g error_sources excluded a hb
    exact (mem_backward_actions_of g error_sources excluded a.layer a h2.2).2.1 h1

/-- C12: for a well-formed schema graph, the schedule that the scheduler emits holds each
action once, and (1) every forward action appears after the forward actions of all inputs
of its layer, (2) a backward-error action appears after the backward-error action of every
consumer of its layer that has one, (3) every forward action appears before every backward
action, in particular before those that consume its output, and the layer of a backward
action has its forward action in the schedule, (4) the backward-weight action of a layer
appears after the backward-error action of the same layer. -/
theorem action_schedule_respects_dependencies (g : schema_graph)
    (outputs error_sources excluded : List Nat) (hg : g.well_formed) :
    (action_schedule g outputs error_sources excluded).Nodup ∧
    (∀ k, (⟨k, phase.forward⟩ : action) ∈ action_schedule g outputs error_sources excluded →
      ∀ i ∈ g.inputs_of k,
        appears_before (action_schedule g outputs error_sources excluded)
          ⟨i, phase.forward⟩ ⟨k, phase.forward⟩) ∧
    (∀ k c,
      (⟨k, phase.backward_error⟩ : action) ∈ action_schedule g outputs error_sources excluded →
      k ∈ g.inputs_of c →
      (⟨c, phase.backward_error⟩ : action) ∈ action_schedule g outputs error_sources excluded →
      appears_before (action_schedule g outputs error_sources excluded)
        ⟨c, phase.backward_error⟩ ⟨k, phase.backward_error⟩) ∧
    (∀ a b, a ∈ action_schedule g outputs error_sources excluded →
      b ∈ action_schedule g outputs error_sources excluded →
      a.phase = phase.forward → b.phase ≠ phase.forward →
      appears_before (action_schedule g outputs error_sources excluded) a b) ∧
    (∀ b, b ∈ action_schedule g outputs error_sources excluded → b.phase ≠ phase.forward →
      (⟨b.layer, phase.forward⟩ : action) ∈ action_schedule g outputs error_sources excluded) ∧
    (∀ k, (⟨k, phase.backward_weight⟩ : action) ∈
        action_schedule g outputs error_sources excluded →
      appears_before (action_schedule g outputs error_sources excluded)
        ⟨k, phase.backward_error⟩ ⟨k, phase.backward_weight⟩) := by
  have hfwd : ∀ a, a ∈ action_schedule g outputs error_sources excluded →
      a.phase = phase.forward →
      a ∈ List.map (fun k => (⟨k, phase.forward⟩ : action))
        ((List.range g.length).filter
          (fun k => decide (k ∈ forward_marked g outputs error_sources))) := by
    intro a ha hph
    rcases List.mem_append.mp ha with h | h
    · exact h
    · have h2 := mem_backward_part g error_sources excluded a h
      exact absurd hph (mem_backward_actions_of g error_sources excluded a.layer a h2.2).2.1
  have hbwd : ∀ a, a ∈ action_schedule g outputs error_sources excluded →
      a.phase ≠ phase.forward →
      a ∈ (List.range g.length).reverse.flatMap
        (backward_actions_of g error_sources excluded) := by
    intro a ha hph
    rcases List.mem_append.mp ha with h | h
    · exact absurd ((mem_forward_part g outputs error_sources a).mp h).1 hph
    · exact h
  refine ⟨action_schedule_nodup g outputs error_sources excluded, ?_, ?_, ?_, ?_, ?_⟩
  · intro k hk i hi
    obtain ⟨_, hlen, hmark⟩ := (mem_forward_part g outputs error_sources _).mp (hfwd _ hk rfl)
    simp only at hlen hmark
    have hik := inputs_of_lt g hg k i hi
    have himark : i ∈ forward_marked g outputs error_sources :=
      reach_closed g hg g.length _ k hlen hmark i hi
    have h1 := (pair_sublist_range g.length i k hik hlen).filter
      (fun k => decide (k ∈ forward_marked g outputs error_sources))
    have h2 : List.filter (fun k => decide (k ∈ forward_marked g outputs error_sources)) [i, k]
        = [i, k] := by
      simp [himark, hmark]
    rw [h2] at h1
    exact (h1.map (fun k => (⟨k, phase.forward⟩ : action))).trans
      (List.sublist_append_left _ _)
  · intro k c hk hkc hc
    have hk2 := mem_backward_part g error_sources excluded _ (hbwd _ hk (by simp))
    have hc2 := mem_backward_part g error_sources excluded _ (hbwd _ hc (by simp))
    simp only at hk2 hc2
    have hlt := inputs_of_lt g hg c k hkc
    have h1 : List.Sublist [c, k] (List.range g.length).reverse := by
      have := (pair_sublist_range g.length k c hlt hc2.1).reverse
      simpa using this
    exact (pair_sublist_flatMap _ _ c k _ _ h1 hc2.2 hk2.2).trans
      (List.sublist_append_right _ _)
  · intro a b ha hb hpa hpb
    have h1 : List.Sublist [a] _ := List.singleton_sublist.mpr (hfwd a ha hpa)
    have h2 : List.Sublist [b] _ := List.singleton_sublist.mpr (hbwd b hb hpb)
    exact h1.append h2
  · intro b hb hpb
    have h2 := mem_backward_part g error_sources excluded b (hbwd b hb hpb)
    have h3 := (mem_backward_actions_of g error_sources excluded b.layer b h2.2).2.2.1
    have h4 : b.layer ∈ forward_marked g outputs error_sources :=
      reach_subset g g.length error_sources (outputs ++ error_sources)
        (fun j hj => List.mem_append_right _ hj) _ h3
    exact List.mem_append_left _
      ((mem_forward_part g outputs error_sources ⟨b.layer, phase.forward⟩).mpr ⟨rfl, h2.1, h4⟩)
  · intro k hk
    have h2 := mem_backward_part g error_sources excluded _ (hbwd _ hk (by simp))
    simp only at h2
    have h3 := error_sublist_weight g error_sources excluded k h2.2
    have h4 := sublist_flatMap_of_mem (backward_actions_of g error_sources excluded)
      (List.range g.length).reverse k (List.mem_reverse.mpr (List.mem_range.mpr h2.1))
    exact (h3.trans h4).trans (List.sublist_append_right _ _)

/-- Witness of C12: in the schedule of `example_graph` for the output and error source 3,
layer 1 excluded from the weight update, the backward-weight action of layer 2 appears
after its backward-error action. -/
theorem action_schedule_respects_dependencies_witness :
    appears_before (action_schedule example_graph [3] [3] [1])
      ⟨2, phase.backward_error⟩ ⟨2, phase.backward_weight⟩ :=
  (action_schedule_respects_dependencies example_graph [3] [3] [1]
    (by
      intro k node hnode i hi
      have hk : k < 4 := by
        by_contra hge
        have : example_graph[k]? = none := List.getElem?_eq_none (by simp [example_graph]; omega)
        rw [this] at hnode
        cases hnode
      interval_cases k <;> simp [example_graph] at hnode <;> subst hnode <;> simp at hi <;>
        omega)).2.2.2.2.2 2 (by decide)

/-! ### The buffer plan -/

theorem foldl_max_le (l : List Nat) :
    ∀ init : Nat, init ≤ l.foldl max init ∧ ∀ x ∈ l, x ≤ l.foldl max init := by
  induction l with
  | nil => intro init; simp
  | cons a rest ih =>
    intro init
    obtain ⟨h1, h2⟩ := ih (max init a)
    simp only [List.foldl_cons]
    refine ⟨le_trans (le_max_left _ _) h1, ?_⟩
    intro x hx
    rcases List.mem_cons.mp hx with rfl | hx
    · exact le_trans (le_max_right _ _) h1
    · exact h2 x hx

theorem death_point_ge (schedule : List scheduled_action) (k : Nat) :
    k ≤ death_point schedule k ∧
    (∀ j a, schedule[j]? = some a → k ∈ a.consumes → j ≤ death_point schedule k) ∧
    (∀ a r, schedule[k]? = some a → a.retained_until = some r → r ≤ death_point schedule k) := by
  obtain ⟨h1, h2⟩ := foldl_max_le (consumers schedule k) k
  refine ⟨le_trans h1 (le_max_left _ _), ?_, ?_⟩
  · intro j a hj hk
    have hlen : j < schedule.length := by
      obtain ⟨h, _⟩ := List.getElem?_eq_some_iff.mp hj
      exact h
    have hmem : j ∈ consumers schedule k := by
      simp only [consumers, List.mem_filter, List.mem_range, hj, decide_eq_true_eq]
      exact ⟨hlen, hk⟩
    exact le_trans (h2 j hmem) (le_max_left _ _)
  · intro a r ha hr
    simp only [death_point, ha, hr, Option.getD_some]
    exact le_max_right _ _

theorem pick_min_waste_mem (slots : List memory_slot) (candidates : List Nat) :
    ∀ (best : Option Nat) (r : Nat), pick_min_waste slots candidates best = some r →
      r ∈ candidates ∨ best = some r := by
  induction candidates with
  | nil => intro best r h; exact Or.inr h
  | cons s rest ih =>
    intro best r h
    cases best with
    | none =>
      simp only [pick_min_waste] at h
      rcases ih _ r h with h1 | h1
      · exact Or.inl (List.mem_cons_of_mem _ h1)
      · simp only [Option.some.injEq] at h1
        exact Or.inl (h1 ▸ List.mem_cons_self _ _)
    | some b =>
      simp only [pick_min_waste] at h
      split at h
      · rcases ih _ r h with h1 | h1
        · exact Or.inl (List.mem_cons_of_mem _ h1)
        · simp only [Option.some.injEq] at h1
          exact Or.inl (h1 ▸ List.mem_cons_self _ _)
      · rcases ih _ r h with h1 | h1
        · exact Or.inl (List.mem_cons_of_mem _ h1)
        · exact Or.inr h1

theorem best_fit_spec (slots : List memory_slot) (position size s : Nat)
    (h : best_fit slots position size = some s) :
    ∃ sl, slots[s]? = some sl ∧ sl.death < position ∧ size ≤ sl.size := by
  rcases pick_min_waste_mem slots _ none s h with h1 | h1
  · simp only [List.mem_filter, List.mem_range, Bool.and_eq_true, decide_eq_true_eq] at h1
    obtain ⟨hlen, hd, hs⟩ := h1
    have hget : slots[s]? = some slots[s] := List.getElem?_eq_getElem hlen
    simp only [List.getD_eq_getElem?_getD, hget, Option.getD_some] at hd hs
    exact ⟨slots[s], hget, hd, hs⟩
  · cases h1

theorem buffer_plan_invariant_step (schedule : List scheduled_action) (k : Nat)
    (st : buffer_plan_state) (h : buffer_plan_invariant schedule k st) :
    buffer_plan_invariant schedule (k + 1) (assign_slot schedule st k) := by
  obtain ⟨hlen, hslot, hover⟩ := h
  have hk := (death_point_ge schedule k).1
  cases hfit : best_fit st.slots k (schedule.getD k ⟨0, [], none⟩).output_size with
  | some s =>
    obtain ⟨sl, hsl, hfree, _⟩ := best_fit_spec _ _ _ _ hfit
    have hs_lt : s < st.slots.length := (List.getElem?_eq_some_iff.mp hsl).1
    simp only [assign_slot, hfit]
    refine ⟨by simp [hlen], ?_, ?_⟩
    · intro i si d hi
      by_cases hik : i < k
      · rw [List.getElem?_append_left (by omega)] at hi
        obtain ⟨h1, sl2, h2, h3⟩ := hslot i si d hi
        refine ⟨h1, ?_⟩
        by_cases hsi : si = s
        · subst hsi
          refine ⟨_, List.getElem?_set_self hs_lt, ?_⟩
          simp only
          rw [hsl] at h2
          cases h2
          omega
        · exact ⟨sl2, by rw [List.getElem?_set_ne (Ne.symm hsi)]; exact h2, h3⟩
      · have hieq : i = k := by
          have : i < (st.plan ++ [(s, death_point schedule k)]).length :=
            (List.getElem?_eq_some_iff.mp hi).1
          simp [hlen] at this
          omega
        subst hieq
        rw [← hlen, List.getElem?_concat_length] at hi
        simp only [Option.some.injEq, Prod.mk.injEq] at hi
        obtain ⟨rfl, rfl⟩ := hi
        rw [hlen]
        exact ⟨rfl, _, List.getElem?_set_self hs_lt, le_rfl⟩
    · intro i j si di sj dj hij hi hj hs
      have hjlt : j < k + 1 := by
        have : j < (st.plan ++ [(s, death_point schedule k)]).length :=
          (List.getElem?_eq_some_iff.mp hj).1
        simpa [hlen] using this
      rw [List.getElem?_append_left (by omega)] at hi
      by_cases hjk : j < k
      · rw [List.getElem?_append_left (by omega)] at hj
        exact hover i j si di sj dj hij hi hj hs
      · have hjeq : j = k := by omega
        subst hjeq
        rw [← hlen, List.getElem?_concat_length] at hj
        simp only [Option.some.injEq, Prod.mk.injEq] at hj
        obtain ⟨rfl, rfl⟩ := hj
        obtain ⟨_, sl2, h2, h3⟩ := hslot i si di hi
        rw [hs, hsl] at h2
        cases h2
        omega
  | none =>
    simp only [assign_slot, hfit]
    refine ⟨by simp [hlen], ?_, ?_⟩
    · intro i si d hi
      by_cases hik : i < k
      · rw [List.getElem?_append_left (by omega)] at hi
        obtain ⟨h1, sl2, h2, h3⟩ := hslot i si d hi
        have hsi : si < st.slots.length := (List.getElem?_eq_some_iff.mp h2).1
        exact ⟨h1, sl2, by rw [List.getElem?_append_left hsi]; exact h2, h3⟩
      · have hieq : i = k := by
          have : i < (st.plan ++ [(st.slots.length, death_point schedule k)]).length :=
            (List.getElem?_eq_some_iff.mp hi).1
          simp [hlen] at this
          omega
        subst hieq
        rw [← hlen, List.getElem?_concat_length] at hi
        simp only [Option.some.injEq, Prod.mk.injEq] at hi
        obtain ⟨rfl, rfl⟩ := hi
        rw [hlen]
        exact ⟨rfl, _, List.getElem?_concat_length _ _, le_rfl⟩
    · intro i j si di sj dj hij hi hj hs
      have hjlt : j < k + 1 := by
        have : j < (st.plan ++ [(st.slots.length, death_point schedule k)]).length :=
          (List.getElem?_eq_some_iff.mp hj).1
        simpa [hlen] using this
      rw [List.getElem?_append_left (by omega)] at hi
      by_cases hjk : j < k
      · rw [List.getElem?_append_left (by omega)] at hj
        exact hover i j si di sj dj hij hi hj hs
      · have hjeq : j = k := by omega
        subst hjeq
        rw [← hlen, List.getElem?_concat_length] at hj
        simp only [Option.some.injEq, Prod.mk.injEq] at hj
        obtain ⟨rfl, rfl⟩ := hj
        obtain ⟨_, sl2, h2, _⟩ := hslot i si di hi
        have hsi : si < st.slots.length := (List.getElem?_eq_some_iff.mp h2).1
        omega

theorem buffer_plan_upto_invariant (schedule : List scheduled_action) (k : Nat) :
    buffer_plan_invariant schedule k (buffer_plan_upto schedule k) := by
  induction k with
  | zero =>
    refine ⟨rfl, ?_, ?_⟩
    · intro i s d hi
      simp [buffer_plan_upto] at hi
    · intro i j si di sj dj _ hi
      simp [buffer_plan_upto] at hi
  | succ k ih =>
    have : buffer_plan_upto schedule (k + 1) =
        assign_slot schedule (buffer_plan_upto schedule k) k := by
      simp [buffer_plan_upto, List.range_succ, List.foldl_append]
    rw [this]
    exact buffer_plan_invariant_step schedule k _ ih

/-- C13: the buffer plan of a schedule has one entry per tensor; two tensors `i < j` that
are assigned the same memory slot have lifetimes that do not overlap (the death point of
`i` is before the position `j` at which `j` comes to life); and the death point of every
tensor is at least its own position, the position of each action that consumes it, and the
position of the action it is retained for. -/
theorem buffer_plan_no_overlap (schedule : List scheduled_action) :
    (buffer_plan schedule).length = schedule.length ∧
    (∀ i j si di sj dj : Nat, i < j → (buffer_plan schedule)[i]? = some (si, di) →
      (buffer_plan schedule)[j]? = some (sj, dj) → si = sj → di < j) ∧
    (∀ k s d : Nat, (buffer_plan schedule)[k]? = some (s, d) →
      k ≤ d ∧
      (∀ j a, schedule[j]? = some a → k ∈ a.consumes → j ≤ d) ∧
      (∀ a r, schedule[k]? = some a → a.retained_until = some r → r ≤ d)) := by
  obtain ⟨h1, h2, h3⟩ := buffer_plan_upto_invariant schedule schedule.length
  refine ⟨h1, h3, ?_⟩
  intro k s d hk
  obtain ⟨hd, _⟩ := h2 k s d hk
  rw [hd]
  exact death_point_ge schedule k

/-- Witness of C13: in the plan of `example_schedule` the tensors 1 and 3 share the slot 1,
and the tensor 1 has died at position 2, before the tensor 3 comes to life. -/
theorem buffer_plan_no_overlap_witness :
    (buffer_plan example_schedule)[1]? = some (1, 2) ∧
    (buffer_plan example_schedule)[3]? = some (1, 4) ∧ 2 < 3 :=
  ⟨by decide, by decide,
    (buffer_plan_no_overlap example_schedule).2.1 1 3 1 2 1 4 (by decide) (by decide)
      (by decide) rfl⟩

/-! ### The working buffer of the cuDNN convolution tester -/

theorem multiply_window_sizes_eq (window_sizes : List Nat) :
    ∀ count : Nat,
      multiply_window_sizes window_sizes (count % 4294967296)
        = (count * window_sizes.prod) % 4294967296 := by
  induction window_sizes with
  | nil => intro count; simp [multiply_window_sizes]
  | cons w rest ih =>
    intro count
    simp only [multiply_window_sizes, List.prod_cons]
    norm_num only
    rw [Nat.mod_mul_mod, ih, Nat.mul_assoc]

/-- C21: for a tester with at least one input configuration,
`get_temporary_working_fixed_buffer_size` reports at least 1048576 bytes, and when
`E = max(input feature maps, output feature maps) * product of the window sizes` fits in an
unsigned 32-bit integer it reports `max(4 * E, 1048576)` bytes. -/
theorem working_buffer_size_at_least_one_mebibyte (flag : Bool) (window_sizes : List Nat)
    (input0 : layer_configuration_specific) (inputs : List layer_configuration_specific)
    (output : layer_configuration_specific) :
    ∃ size, get_temporary_working_fixed_buffer_size flag window_sizes (input0 :: inputs) output
        = Except.ok (size, flag) ∧
      1048576 ≤ size ∧
      (max input0.feature_map_count output.feature_map_count * window_sizes.prod < 2 ^ 32 →
        size = max (4 * (max input0.feature_map_count output.feature_map_count
          * window_sizes.prod)) 1048576) := by
  refine ⟨_, rfl, le_max_right _ _, ?_⟩
  intro hfit
  have h := multiply_window_sizes_eq window_sizes
    (max input0.feature_map_count output.feature_map_count)
  norm_num only at h hfit ⊢
  rw [h, Nat.mod_eq_of_lt hfit]
  have h2 : max input0.feature_map_count output.feature_map_count * window_sizes.prod * 4
      % 18446744073709551616
      = 4 * (max input0.feature_map_count output.feature_map_count * window_sizes.prod) := by
    omega
  rw [h2]

/-- Witness of C21: 3 input and 8 output feature maps with a 3 x 3 window give 72 elements,
288 bytes, so the size reported is 1048576. -/
theorem working_buffer_size_at_least_one_mebibyte_witness :
    get_temporary_working_fixed_buffer_size true [3, 3] [⟨3, [5, 5]⟩] ⟨8, [5, 5]⟩
      = Except.ok (1048576, true) := by
  obtain ⟨size, h1, _, h3⟩ := working_buffer_size_at_least_one_mebibyte true [3, 3]
    ⟨3, [5, 5]⟩ [] ⟨8, [5, 5]⟩
  rw [h1, h3 (by decide)]
  rfl

/-! ### `is_broken` as a single comparison -/

theorem sanity_check_eq_single_comparison (e : double) :
    sanity_check e = sanity_check_single_comparison e := by
  cases e with
  | nan => simp [sanity_check, sanity_check_single_comparison, double.lt]
  | neg_inf =>
    simp [sanity_check, sanity_check_single_comparison, double.lt, double.gt, double.neg,
      threshold]
  | pos_inf =>
    simp [sanity_check, sanity_check_single_comparison, double.lt, double.gt, double.neg,
      threshold]
  | finite q =>
    simp only [sanity_check, sanity_check_single_comparison, double.lt, double.gt, double.neg,
      threshold]
    by_cases h : q < 10000000000
    · have h3 : (-10000000000 : ℚ) < -q := by linarith
      have h4 : ¬ (-q < (-10000000000 : ℚ)) := by linarith
      simp [h, h3, h4]
    · simp [h]

theorem is_broken_values_eq_any (l : List double) :
    is_broken_values l = l.any (fun error => !sanity_check_single_comparison error) := by
  induction l with
  | nil => rfl
  | cons e rest ih =>
    simp only [is_broken_values, List.any_cons, ih, sanity_check_eq_single_comparison]
    cases sanity_check_single_comparison e <;> simp

theorem is_broken_map_eq_any (m : List (String × error_stat)) :
    is_broken_map m =
      m.any (fun it => it.2.2.any (fun error => !sanity_check_single_comparison error)) := by
  induction m with
  | nil => rfl
  | cons it rest ih =>
    simp only [is_broken_map, List.any_cons, ih, is_broken_values_eq_any]
    cases it.2.2.any (fun error => !sanity_check_single_comparison error) <;> simp

theorem is_broken_map_false_of_all_below (m : List (String × error_stat))
    (h : ∀ it ∈ m, ∀ e ∈ it.2.2, double.lt e threshold = true) : is_broken_map m = false := by
  rw [is_broken_map_eq_any]
  simp only [List.any_eq_false, List.any_eq_true, Bool.not_eq_true', not_exists, not_and,
    Bool.not_eq_false, sanity_check_single_comparison]
  intro it hit e he
  exact h it hit e he

/-- C22: the three-part sanity test of `is_broken` is the single comparison
`error < 1.0e10`, and `is_broken` is the function that tests the values of the last history
entry with this comparison: it returns true if and only if one of these values is NaN or at
least `1e10`; when all of them are below `1e10`, as every finite value below `1e10` and
minus infinity are, it returns false; and the entries before the last one do not affect the
result. -/
theorem is_broken_is_single_comparison (state : training_task_state)
    (earlier : List history_entry) (back : history_entry) :
    (∀ e, sanity_check e = sanity_check_single_comparison e) ∧
    is_broken state = is_broken_single_comparison state ∧
    (is_broken { state with history := earlier ++ [back] } = some true ↔
      ∃ it ∈ back.2, ∃ e ∈ it.2.2, nan_or_at_least_threshold e) ∧
    ((∀ it ∈ back.2, ∀ e ∈ it.2.2, double.lt e threshold = true) →
      is_broken { state with history := earlier ++ [back] } = some false) ∧
    double.lt double.neg_inf threshold = true ∧
    (∀ q : ℚ, q < 10000000000 → double.lt (double.finite q) threshold = true) ∧
    is_broken { state with history := earlier ++ [back] }
      = is_broken { state with history := [back] } := by
  have hlast : (earlier ++ [back]).getLast? = some back := by simp
  refine ⟨sanity_check_eq_single_comparison, ?_, ?_, ?_, rfl, ?_, ?_⟩
  · unfold is_broken is_broken_single_comparison
    cases state.history.getLast? with
    | none => rfl
    | some b => simp only [is_broken_map_eq_any]
  · simp only [is_broken, hlast, Option.some.injEq]
    exact is_broken_map_iff back.2
  · intro h
    simp only [is_broken, hlast, Option.some.injEq]
    exact is_broken_map_false_of_all_below back.2 h
  · intro q hq
    simp [double.lt, threshold, hq]
  · simp only [is_broken, hlast, List.getLast?_singleton]

/-- Witness of C22: the latest entry of `task_recovered` holds `-1e12` and minus infinity, an
earlier entry holds `1e12`; the task is not reported broken. -/
theorem is_broken_is_single_comparison_witness :
    is_broken task_recovered = some false :=
  (is_broken_is_single_comparison task_recovered
    [(0, [("loss", (⟨1, [1]⟩, [double.finite 1000000000000]))])]
    (1, [("loss", (⟨1, [2]⟩, [double.finite (-1000000000000), double.neg_inf]))])).2.2.2.1
    (by decide)

/-! ### Tasks that are already complete -/

/-- C23: a peeked task whose current epoch on allocation, its start epoch, is already at
least `epoch_count` is skipped: no call at all is made for it (no `set_epoch`, no
`train_step`, no progress push, no final push), the world is left as it is, and the outer
loop goes on with the next peek. -/
theorem train_skips_complete_task {σ : Type} (tr : network_trainer σ) (fuel : Nat) (w : σ)
    (e : network_data_peek_entry) (data : network_data)
    (hstart : tr.get_current_epoch (new_task tr e data) = e.start_epoch)
    (hge : tr.epoch_count ≤ e.start_epoch) :
    (run_task tr fuel w e data).calls = [] ∧
    (run_task tr fuel w e data).stopped = status.done ∧
    (run_task tr fuel w e data).world = w ∧
    (∀ w0, tr.peek w0 = (e, w) → e.data = some data →
      (train_loop tr (fuel + 1) w0).calls = call.peek e :: (train_loop tr fuel w).calls ∧
      (train_loop tr (fuel + 1) w0).stopped = (train_loop tr fuel w).stopped ∧
      (train_loop tr (fuel + 1) w0).world = (train_loop tr fuel w).world) := by
  have hl : is_last_epoch tr (new_task tr e data) = true := by
    simp only [is_last_epoch, hstart, decide_eq_true_eq]
    exact hge
  have hrun : run_task tr fuel w e data = ⟨status.done, w, []⟩ := by
    simp only [run_task, hl, if_true]
  refine ⟨by rw [hrun], by rw [hrun], by rw [hrun], ?_⟩
  intro w0 hpeek hdata
  simp only [train_loop, hpeek, hdata, hrun, List.nil_append, and_self]

/-- Witness of C23: with `example_trainer` (`epoch_count = 2`) a task peeked at start epoch 2
gets no call. -/
theorem train_skips_complete_task_witness :
    (run_task example_trainer 5 [] ⟨4, 2, some ⟨1⟩, none, none⟩ ⟨1⟩).calls = [] :=
  (train_skips_complete_task example_trainer 5 [] ⟨4, 2, some ⟨1⟩, none, none⟩ ⟨1⟩ rfl
    (by decide)).1

/-! ### Swaps and the shuffle of a dataset -/

theorem set_append_singleton_perm {α : Type} (l : List α) :
    ∀ (idx : Nat) (a y : α), l[idx]? = some a →
      List.Perm (l.set idx y ++ [a]) (l ++ [y]) := by
  induction l with
  | nil => intro idx a y h; simp at h
  | cons x rest ih =>
    intro idx a y h
    cases idx with
    | zero =>
      simp only [List.getElem?_cons_zero, Option.some.injEq] at h
      subst h
      simp only [List.set_cons_zero, List.cons_append]
      exact ((List.perm_append_singleton x rest).cons y).trans
        ((List.Perm.swap x y rest).trans ((List.perm_append_singleton y rest).symm.cons x))
    | succ idx =>
      simp only [List.getElem?_cons_succ] at h
      simp only [List.set_cons_succ, List.cons_append]
      exact (ih idx a y h).cons x

theorem set_set_perm {α : Type} (l : List α) :
    ∀ (i j : Nat) (a b : α), l[i]? = some a → l[j]? = some b →
      List.Perm ((l.set i b).set j a) l := by
  induction l with
  | nil => intro i j a b h; simp at h
  | cons x rest ih =>
    intro i j a b hi hj
    cases i with
    | zero =>
      simp only [List.getElem?_cons_zero, Option.some.injEq] at hi
      subst hi
      cases j with
      | zero =>
        simp only [List.getElem?_cons_zero, Option.some.injEq] at hj
        subst hj
        simp
      | succ j =>
        simp only [List.getElem?_cons_succ] at hj
        simp only [List.set_cons_zero, List.set_cons_succ]
        exact ((List.perm_append_singleton b (rest.set j x)).symm.trans
          (set_append_singleton_perm rest j b x hj)).trans (List.perm_append_singleton x rest)
    | succ i =>
      simp only [List.getElem?_cons_succ] at hi
      cases j with
      | zero =>
        simp only [List.getElem?_cons_zero, Option.some.injEq] at hj
        subst hj
        simp only [List.set_cons_succ, List.set_cons_zero]
        exact ((List.perm_append_singleton a (rest.set i x)).symm.trans
          (set_append_singleton_perm rest i a x hi)).trans (List.perm_append_singleton x rest)
      | succ j =>
        simp only [List.getElem?_cons_succ] at hj
        simp only [List.set_cons_succ]
        exact (ih i j a b hi hj).cons x

theorem swap_elements_perm {α : Type} (l : List α) (i j : Nat) :
    List.Perm (swap_elements l i j) l := by
  unfold swap_elements
  split
  · next a b hi hj => exact set_set_perm l i j a b hi hj
  · exact List.Perm.refl l

theorem shuffle_loop_perm (rnd : Nat → Nat) (i : Nat) :
    ∀ (draw : Nat) (l : List Nat), List.Perm (shuffle_loop rnd i draw l) l := by
  induction i with
  | zero => intro draw l; exact List.Perm.refl l
  | succ i ih =>
    intro draw l
    simp only [shuffle_loop]
    exact (ih _ _).trans (swap_elements_perm l _ _)

theorem range_filterMap_getElem {β γ : Type} (g : β → Option γ) (l : List β) :
    (List.range l.length).filterMap (fun i => (l[i]?).bind g) = l.filterMap g := by
  induction l using List.reverseRecOn with
  | nil => rfl
  | append_singleton l a ih =>
    rw [List.length_append, List.length_singleton, List.range_succ, List.filterMap_append,
      List.filterMap_append]
    have h1 : List.filterMap (fun i => ((l ++ [a])[i]?).bind g) (List.range l.length)
        = List.filterMap (fun i => (l[i]?).bind g) (List.range l.length) := by
      apply List.filterMap_congr
      intro i hi
      rw [List.getElem?_append_left (List.mem_range.mp hi)]
    rw [h1, ih]
    simp [List.filterMap_cons]

theorem shuffle_file_eq {α : Type} (shuffled : List Nat) (entries : List α) :
    shuffle_file shuffled shuffled.length entries = shuffled.filterMap (fun j => entries[j]?) :=
  range_filterMap_getElem (fun j => entries[j]?) shuffled

theorem range_filterMap_self {α : Type} (entries : List α) :
    (List.range entries.length).filterMap (fun j => entries[j]?) = entries := by
  have h := range_filterMap_getElem (fun a : α => some a) entries
  simp only [List.filterMap_some] at h
  have h2 : (fun i : Nat => (entries[i]?).bind fun a => some a)
      = fun j : Nat => entries[j]? := by
    funext i
    cases entries[i]? <;> rfl
  rw [h2] at h
  exact h

theorem common_entry_count_same {α : Type} (n : Int) (hn : 0 ≤ n)
    (files : List (data_file α)) (h : ∀ f ∈ files, f.entry_count = n) :
    common_entry_count files n = Except.ok n := by
  induction files with
  | nil => rfl
  | cons f rest ih =>
    have hf : f.entry_count = n := h f (List.mem_cons_self _ _)
    have hrest : ∀ g ∈ rest, g.entry_count = n := fun g hg => h g (List.mem_cons_of_mem _ hg)
    have hlt : ¬ f.entry_count < 0 := by omega
    have h1 : ¬ n < 0 := by omega
    have h2 : ¬ n ≠ f.entry_count := by rw [hf]; simp
    simp only [common_entry_count, hlt, if_false, if_neg h1, if_neg h2]
    exact ih hrest

theorem common_entry_count_uniform {α : Type} (n : Int) (hn : 0 ≤ n)
    (files : List (data_file α)) (hfiles : files ≠ [])
    (h : ∀ f ∈ files, f.entry_count = n) :
    common_entry_count files (-1) = Except.ok n := by
  cases files with
  | nil => exact absurd rfl hfiles
  | cons f rest =>
    have hf : f.entry_count = n := h f (List.mem_cons_self _ _)
    have hrest : ∀ g ∈ rest, g.entry_count = n := fun g hg => h g (List.mem_cons_of_mem _ hg)
    have hlt : ¬ n < 0 := by omega
    have h1 : (-1 : Int) < 0 := by decide
    simp only [common_entry_count, hf, hlt, if_false, if_pos h1]
    exact common_entry_count_same n hn rest hrest

/-- C25: for every entry count `n` and every sequence of random draws, the vector
`shuffled_indexes` is a permutation of `0..n-1`: it has `n` elements, no element twice, and
every source position below `n` exactly once.  A file of `n` entries is rewritten as a
permutation of its entries, the entry at the destination `i` being the entry at the source
`shuffled_indexes[i]`; and for `n >= 1` `shuffle_data` rewrites every file of a dataset
whose files all have `n` entries with this one vector. -/
theorem shuffle_data_permutes (rnd : Nat → Nat) (n : Nat) :
    List.Perm (shuffled_indexes rnd n) (List.range n) ∧
    (shuffled_indexes rnd n).length = n ∧
    (shuffled_indexes rnd n).Nodup ∧
    (∀ j, j < n → (shuffled_indexes rnd n).count j = 1) ∧
    (∀ (α : Type) (entries : List α), entries.length = n →
      List.Perm (shuffle_file (shuffled_indexes rnd n) n entries) entries ∧
      shuffle_file (shuffled_indexes rnd n) n entries =
        (shuffled_indexes rnd n).filterMap (fun j => entries[j]?)) ∧
    (∀ (α : Type) (name : String) (files : List (data_file α)), 1 ≤ n → files ≠ [] →
      (∀ f ∈ files, f.entry_count = (n : Int)) →
      shuffle_data rnd name files = Except.ok (files.map (fun it =>
        { it with entries := shuffle_file (shuffled_indexes rnd n) n it.entries }))) := by
  have hperm : List.Perm (shuffled_indexes rnd n) (List.range n) :=
    shuffle_loop_perm rnd (n - 1) 0 (List.range n)
  have hlen : (shuffled_indexes rnd n).length = n := by
    rw [hperm.length_eq, List.length_range]
  have hnodup : (shuffled_indexes rnd n).Nodup := hperm.symm.nodup (List.nodup_range n)
  refine ⟨hperm, hlen, hnodup, ?_, ?_, ?_⟩
  · intro j hj
    exact List.count_eq_one_of_mem hnodup (hperm.mem_iff.mpr (List.mem_range.mpr hj))
  · intro α entries hentries
    have heq : shuffle_file (shuffled_indexes rnd n) n entries =
        (shuffled_indexes rnd n).filterMap (fun j => entries[j]?) := by
      have := shuffle_file_eq (shuffled_indexes rnd n) entries
      rw [hlen] at this
      exact this
    refine ⟨?_, heq⟩
    rw [heq]
    have h2 := hperm.filterMap (fun j => entries[j]?)
    rw [← hentries, range_filterMap_self] at h2
    rw [← hentries]
    exact h2
  · intro α name files hn hfiles hcount
    have h := common_entry_count_uniform (n : Int) (by omega) files hfiles hcount
    have h1 : ¬ ((n : Int) < 0) := by omega
    have h2 : ¬ ((n : Int) = 0) := by omega
    simp only [shuffle_data, h, h1, h2, if_false, Int.toNat_ofNat]

/-- Witness of C25: a dataset of two files with three entries each. -/
theorem shuffle_data_permutes_witness :
    shuffle_data (fun d => 7 * d + 3) "ds"
        [data_file.mk "x" 3 ["a", "b", "c"], data_file.mk "y" 3 ["p", "q", "r"]]
      = Except.ok (List.map (fun it : data_file String =>
          { it with
            entries := shuffle_file (shuffled_indexes (fun d => 7 * d + 3) 3) 3 it.entries })
          [data_file.mk "x" 3 ["a", "b", "c"], data_file.mk "y" 3 ["p", "q", "r"]]) :=
  (shuffle_data_permutes (fun d => 7 * d + 3) 3).2.2.2.2.2 String "ds"
    [data_file.mk "x" 3 ["a", "b", "c"], data_file.mk "y" 3 ["p", "q", "r"]]
    (by decide) (by simp)
    (by
      intro f hf
      simp only [List.mem_cons, List.mem_singleton, List.not_mem_nil, or_false] at hf
      rcases hf with rfl | rfl <;> rfl)

/-! ### The weight ids selected by `check_gradient` -/

theorem static_cast_int_of_lt (n : Nat) (h : n < 2 ^ 31) : static_cast_int n = (n : Int) := by
  have e : n % 2 ^ 32 = n := Nat.mod_eq_of_lt (lt_trans h (by norm_num))
  unfold static_cast_int
  rw [e, if_pos h]

theorem pick_candidates_zero (weight_gen : Nat → Nat) (i : Nat) (candidates ids : List Int) :
    pick_candidates weight_gen 0 i candidates ids = ids := rfl

theorem swap_at_length (l : List Int) (i j : Nat) : (swap_at l i j).length = l.length := by
  simp [swap_at]

theorem swap_at_take_perm (l : List Int) (index k : Nat) (hik : index ≤ k)
    (hk : k < l.length) :
    List.Perm (l.getD index 0 :: (swap_at l index k).take k) (l.take (k + 1)) := by
  have hidx : index < l.length := by omega
  have ha : l.getD index 0 = l[index] := by simp [List.getD, hidx]
  have hck : l.getD k 0 = l[k] := by simp [List.getD, hk]
  have htake : l.take (k + 1) = l.take k ++ [l[k]] := by
    rw [List.take_succ]
    simp [hk]
  have hlen : (l.take k).length = k := by
    rw [List.length_take]
    omega
  unfold swap_at
  rw [List.set_take, List.set_take, ha, hck, htake]
  rw [List.set_eq_of_length_le (by rw [List.length_set, hlen])]
  rcases Nat.lt_or_eq_of_le hik with hlt | heq
  · have hget : (l.take k)[index]? = some l[index] := by
      rw [List.getElem?_take_of_lt hlt]
      simp [hidx]
    exact (List.perm_append_singleton _ _).symm.trans
      (set_append_singleton_perm _ _ _ _ hget)
  · subst heq
    rw [List.set_eq_of_length_le (by rw [hlen])]
    exact (List.perm_append_singleton _ _).symm

theorem pick_candidates_perm (weight_gen : Nat → Nat) (count : Nat) :
    ∀ (i : Nat) (candidates ids : List Int), i + count ≤ candidates.length →
      ∃ picked rest, pick_candidates weight_gen count i candidates ids = ids ++ picked ∧
        List.Perm (picked ++ rest) (candidates.take (candidates.length - i)) := by
  induction count with
  | zero =>
    intro i candidates ids _
    exact ⟨[], candidates.take (candidates.length - i), by simp [pick_candidates],
      List.Perm.refl _⟩
  | succ count ih =>
    intro i candidates ids h
    obtain ⟨picked, rest, heq, hperm⟩ := ih (i + 1)
      (swap_at candidates (weight_gen i % (candidates.length - 1 - i + 1))
        (candidates.length - 1 - i))
      (ids ++ [candidates.getD (weight_gen i % (candidates.length - 1 - i + 1)) 0])
      (by rw [swap_at_length]; omega)
    refine ⟨candidates.getD (weight_gen i % (candidates.length - 1 - i + 1)) 0 :: picked,
      rest, ?_, ?_⟩
    · simp only [pick_candidates]
      rw [heq, List.append_assoc, List.singleton_append]
    · rw [swap_at_length] at hperm
      have hk1 : candidates.length - (i + 1) = candidates.length - 1 - i := by omega
      have hk2 : candidates.length - i = candidates.length - 1 - i + 1 := by omega
      rw [hk1] at hperm
      rw [hk2, List.cons_append]
      have hle : weight_gen i % (candidates.length - 1 - i + 1) ≤ candidates.length - 1 - i :=
        Nat.lt_succ_iff.mp (Nat.mod_lt _ (Nat.succ_pos _))
      exact (hperm.cons _).trans
        (swap_at_take_perm candidates _ (candidates.length - 1 - i) hle (by omega))

theorem weight_id_list_eq_pick (size : Nat) (max_weights : Int) (weight_gen : Nat → Nat)
    (hsize : 2 ≤ size) (hint : size < 2 ^ 31) :
    weight_id_list size (-1) max_weights weight_gen =
      pick_candidates weight_gen (min ((size : Int) - 2) max_weights).toNat 0
        (List.map (fun i : Nat => (i : Int) + 1) (List.range (size - 2)))
        ([0] ++ [(size : Int) - 1]) := by
  have h1 : static_cast_int ((size + 2 ^ 64 - 2) % 2 ^ 64) = (size : Int) - 2 := by
    have e1 : (size + 2 ^ 64 - 2) % 2 ^ 64 = size - 2 := by
      norm_num at hint ⊢
      omega
    rw [e1, static_cast_int_of_lt (size - 2) (by omega)]
    omega
  have h2 : ((size : Int) - 2).toNat = size - 2 := by omega
  have h3 : static_cast_int (size - 2) = (size : Int) - 2 := by
    rw [static_cast_int_of_lt (size - 2) (by omega)]
    omega
  have h4 : static_cast_int size = (size : Int) := static_cast_int_of_lt size hint
  have hs0 : size > 0 := by omega
  have hs1 : size > 1 := by omega
  simp only [weight_id_list, ne_eq, not_true_eq_false, if_false, h1, h2, List.length_map,
    List.length_range, h3, h4, hs0, hs1, if_true]

theorem weight_id_list_zero_max (size : Nat) (weight_gen : Nat → Nat) :
    weight_id_list size (-1) 0 weight_gen =
      (if size > 0 then [0] else []) ++
        (if size > 1 then [static_cast_int size - 1] else []) := by
  have hzero : ∀ x : Int, (min x 0).toNat = 0 := fun x =>
    Int.toNat_eq_zero.mpr (min_le_right x 0)
  unfold weight_id_list
  simp only [ne_eq, not_true_eq_false, if_false, hzero, pick_candidates_zero]

theorem weight_id_list_small (size : Nat) (max_weights : Int) (weight_gen : Nat → Nat)
    (hsize : size < 2) :
    weight_id_list size (-1) max_weights weight_gen = if size = 0 then [] else [0] := by
  have hzero : ∀ x : Int, (min 0 x).toNat = 0 := fun x =>
    Int.toNat_eq_zero.mpr (min_le_left 0 x)
  have e0 : static_cast_int 0 = 0 := by decide
  have hcases : size = 0 ∨ size = 1 := by omega
  rcases hcases with h | h <;> subst h
  · have e : static_cast_int ((0 + 2 ^ 64 - 2) % 2 ^ 64) = -2 := by decide
    unfold weight_id_list
    rw [e]
    simp [e0, hzero, pick_candidates_zero]
  · have e : static_cast_int ((1 + 2 ^ 64 - 2) % 2 ^ 64) = -1 := by decide
    unfold weight_id_list
    rw [e]
    simp [e0, hzero, pick_candidates_zero]

/-- C24 as stated fails: a weight set of `2^31 + 1` weights with
`check_gradient_max_weights_per_set = 0` selects the ids `0` and `-2147483648`, because the
size is cast to `int` before `1` is subtracted; the second id is not in `[0, n)` and `n - 1`
is not selected. -/
theorem weight_id_list_wraps_above_int_max :
    weight_id_list 2147483649 (-1) 0 (fun _ => 0) = [0, -2147483648] ∧
    ¬ (∀ id ∈ weight_id_list 2147483649 (-1) 0 (fun _ => 0),
        0 ≤ id ∧ id < ((2147483649 : Nat) : Int)) ∧
    ((2147483649 : Nat) : Int) - 1 ∉ weight_id_list 2147483649 (-1) 0 (fun _ => 0) := by
  have h : weight_id_list 2147483649 (-1) 0 (fun _ => 0) = [0, -2147483648] := by
    rw [weight_id_list_zero_max]
    have e : static_cast_int 2147483649 - 1 = -2147483648 := by decide
    rw [e]
    rfl
  rw [h]
  refine ⟨rfl, ?_, ?_⟩
  · intro hall
    have := (hall (-2147483648) (by simp)).1
    omega
  · simp

/-- C24, amended: with no specific weight id requested, for every weight-set size `n` below
`2^31`, every non-negative `check_gradient_max_weights_per_set` `m` and every sequence of
random draws, the selected weight ids are pairwise distinct, each lies in `[0, n)`, the list
contains `0` when `n >= 1` and `n - 1` when `n >= 2`, and its length is
`min(n, 2) + min(max(n - 2, 0), m)`. -/
theorem weight_id_list_distinct_in_range (n : Nat) (m : Int) (weight_gen : Nat → Nat)
    (hint : n < 2 ^ 31) (hm : 0 ≤ m) :
    (weight_id_list n (-1) m weight_gen).Nodup ∧
    (∀ id ∈ weight_id_list n (-1) m weight_gen, 0 ≤ id ∧ id < (n : Int)) ∧
    (1 ≤ n → (0 : Int) ∈ weight_id_list n (-1) m weight_gen) ∧
    (2 ≤ n → (n : Int) - 1 ∈ weight_id_list n (-1) m weight_gen) ∧
    ((weight_id_list n (-1) m weight_gen).length : Int) =
      min (n : Int) 2 + min (max ((n : Int) - 2) 0) m := by
  by_cases hsmall : n < 2
  · rw [weight_id_list_small n m weight_gen hsmall]
    have hcases : n = 0 ∨ n = 1 := by omega
    rcases hcases with h | h <;> subst h
    · refine ⟨by simp, by simp, by simp, by simp, ?_⟩
      simp [hm]
    · refine ⟨by simp, by simp, by simp, by simp, ?_⟩
      simp [hm]
  · have hsize : 2 ≤ n := by omega
    have hlen := weight_id_list_length n m weight_gen hsize hint hm
    rw [weight_id_list_eq_pick n m weight_gen hsize hint] at hlen ⊢
    have hcount : 0 + (min ((n : Int) - 2) m).toNat ≤
        (List.map (fun i : Nat => (i : Int) + 1) (List.range (n - 2))).length := by
      rw [List.length_map, List.length_range]
      have : min ((n : Int) - 2) m ≤ (n : Int) - 2 := min_le_left _ _
      omega
    obtain ⟨picked, rest, heq, hperm⟩ := pick_candidates_perm weight_gen
      (min ((n : Int) - 2) m).toNat 0
      (List.map (fun i : Nat => (i : Int) + 1) (List.range (n - 2)))
      ([0] ++ [(n : Int) - 1]) hcount
    rw [Nat.sub_zero, List.take_length] at hperm
    rw [heq] at hlen ⊢
    have hcand : (List.map (fun i : Nat => (i : Int) + 1) (List.range (n - 2))).Nodup :=
      (List.nodup_range (n - 2)).map (fun a b hab => by
        have hab2 : (a : Int) + 1 = (b : Int) + 1 := hab
        omega)
    have hpicked_nodup : picked.Nodup :=
      (List.nodup_append.mp (hperm.nodup_iff.mpr hcand)).1
    have hpicked_mem : ∀ id ∈ picked, 1 ≤ id ∧ id ≤ (n : Int) - 2 := by
      intro id hid
      have hmem := hperm.mem_iff.mp (List.mem_append_left rest hid)
      obtain ⟨i, hi, rfl⟩ := List.mem_map.mp hmem
      have := List.mem_range.mp hi
      omega
    refine ⟨?_, ?_, ?_, ?_, ?_⟩
    · rw [List.nodup_append]
      refine ⟨?_, hpicked_nodup, ?_⟩
      · have hne : (0 : Int) ≠ (n : Int) - 1 := by omega
        simp [hne]
      · intro a ha hb
        have hb2 := hpicked_mem a hb
        simp only [List.singleton_append, List.mem_cons, List.mem_singleton,
          List.not_mem_nil, or_false] at ha
        rcases ha with rfl | rfl <;> omega
    · intro id hid
      rcases List.mem_append.mp hid with h | h
      · simp only [List.singleton_append, List.mem_cons, List.mem_singleton,
          List.not_mem_nil, or_false] at h
        rcases h with rfl | rfl <;> omega
      · have := hpicked_mem id h
        omega
    · intro _
      simp
    · intro _
      simp
    · rw [hlen]
      have e1 : min (n : Int) 2 = 2 := min_eq_right (by omega)
      have e2 : max ((n : Int) - 2) 0 = (n : Int) - 2 := max_eq_left (by omega)
      rw [e1, e2]

/-- Witness of C24, amended: seven weights, at most three random candidates. -/
theorem weight_id_list_distinct_in_range_witness :
    (7 : Nat) < 2 ^ 31 ∧ (0 : Int) ≤ 3 ∧
    (weight_id_list 7 (-1) 3 (fun i => 5 * i + 2)).Nodup ∧
    ((weight_id_list 7 (-1) 3 (fun i => 5 * i + 2)).length : Int) =
      min ((7 : Nat) : Int) 2 + min (max (((7 : Nat) : Int) - 2) 0) 3 :=
  ⟨by decide, by decide,
    (weight_id_list_distinct_in_range 7 3 (fun i => 5 * i + 2) (by decide) (by decide)).1,
    (weight_id_list_distinct_in_range 7 3 (fun i => 5 * i + 2) (by decide)
      (by decide)).2.2.2.2⟩

/-! ### What the default `::` of `check_gradient_weights` selects -/

theorem weight_sets_to_check_all (size : Nat) (h : size < 2 ^ 31) :
    weight_sets_to_check size (-1) = List.map (fun i : Nat => (i : Int)) (List.range size) := by
  simp [weight_sets_to_check, static_cast_int_of_lt size h]

theorem same_shape_trans {F : Type} {a b c : network_weights F} (h1 : same_shape a b)
    (h2 : same_shape b c) : same_shape a c :=
  fun l => ⟨(h1 l).1.trans (h2 l).1, fun ws => ((h1 l).2 ws).trans ((h2 l).2 ws)⟩

theorem same_shape_run {F D : Type} (env : gradient_checker F D)
    (hrun : ∀ l ws, run_keeps_shape env l ws) (data : network_weights F)
    (rates : learning_rate_table F) : same_shape (env.run data rates).1 data :=
  fun l => ⟨(hrun l 0 data rates).1, fun ws => (hrun l ws data rates).2⟩

theorem same_shape_with_weight_list {F : Type} (data : network_weights F) (l : String)
    (ws : Nat) (w : List F) (h : w.length = (weight_list_of data l ws).length) :
    same_shape (with_weight_list data l ws w) data := by
  intro l2
  by_cases hl : l2 = l
  · subst hl
    refine ⟨with_weight_list_length data l2 ws w, fun ws2 => ?_⟩
    by_cases hws : ws2 = ws
    · subst hws
      by_cases hlt : ws2 < (data l2).length
      · rw [weight_list_of_with_weight_list data l2 ws2 w hlt, h]
      · rw [with_weight_list, weight_list_of, weight_list_of, Function.update_same,
          List.set_eq_of_length_le (Nat.le_of_not_lt hlt)]
    · simp [weight_list_of, with_weight_list, List.getD, List.getElem?_set_ne (Ne.symm hws)]
  · simp [weight_list_of, with_weight_list, Function.update_noteq hl]

theorem std_copy_length {F : Type} (src dst : List F) (h : src.length = dst.length) :
    (std_copy src dst).length = dst.length := by
  rw [std_copy_eq_src src dst (le_of_eq h.symm), h]

theorem restore_keeps_shape {F D : Type} (env : gradient_checker F D)
    (hrun : ∀ l ws, run_keeps_shape env l ws) (l : String) (ws : Nat)
    (rates : learning_rate_table F) (original : List F) (data data0 : network_weights F)
    (w : List F) (hshape : same_shape data data0)
    (horig : original.length = (weight_list_of data0 l ws).length)
    (hw : w.length = (weight_list_of data l ws).length) :
    same_shape
      (with_weight_list (env.run (with_weight_list data l ws w) rates).1 l ws
        (std_copy original
          (weight_list_of (env.run (with_weight_list data l ws w) rates).1 l ws)))
      data0 := by
  have s1 : same_shape (env.run (with_weight_list data l ws w) rates).1 data0 :=
    same_shape_trans (same_shape_run env hrun _ rates)
      (same_shape_trans (same_shape_with_weight_list data l ws w hw) hshape)
  refine same_shape_trans (same_shape_with_weight_list _ l ws _ ?_) s1
  exact std_copy_length _ _ (horig.trans ((s1 l).2 ws).symm)

theorem check_weights_ids {F D : Type} (env : gradient_checker F D) (l : String) (ws : Nat)
    (rates : learning_rate_table F) (original backprops : List F) (ids : List Int) :
    ∀ (k : Nat) (data : network_weights F),
      (check_weights env l ws rates original backprops ids k data).1.map
        (fun c => c.weight_id) = ids := by
  induction ids with
  | nil => intro k data; rfl
  | cons id rest ih =>
    intro k data
    simp only [check_weights, List.map_cons, ih]

theorem check_weights_shape {F D : Type} (env : gradient_checker F D)
    (hrun : ∀ l ws, run_keeps_shape env l ws) (l : String) (ws : Nat)
    (rates : learning_rate_table F) (original backprops : List F) (ids : List Int)
    (data0 : network_weights F)
    (horig : original.length = (weight_list_of data0 l ws).length) :
    ∀ (k : Nat) (data : network_weights F), same_shape data data0 →
      same_shape (check_weights env l ws rates original backprops ids k data).2 data0 := by
  induction ids with
  | nil => intro k data h; exact h
  | cons id rest ih =>
    intro k data hshape
    simp only [check_weights]
    refine ih (k + 1) _ ?_
    exact restore_keeps_shape env hrun l ws rates original _ data0 _
      (restore_keeps_shape env hrun l ws rates original data data0 _ hshape horig
        (by rw [List.length_set]))
      horig (by rw [List.length_set])

theorem check_weight_set_shape {F D : Type} (env : gradient_checker F D)
    (hrun : ∀ l ws, run_keeps_shape env l ws) (param_weight_id : Int) (l : String) (ws : Nat)
    (data : network_weights F) (rates : learning_rate_table F) :
    same_shape (check_weight_set env param_weight_id l ws data rates).data data ∧
    (check_weight_set env param_weight_id l ws data rates).checks.map (fun c => c.weight_id)
      = weight_id_list (weight_list_of data l ws).length param_weight_id
          env.check_gradient_max_weights_per_set env.weight_gen := by
  simp only [check_weight_set, check_weights_ids, and_true]
  refine check_weights_shape env hrun l ws _ _ _ _ data rfl 0 _ ?_
  have s1 := same_shape_run env hrun data
    (with_learning_rate rates l ws env.arith.large_rate)
  refine same_shape_trans (same_shape_with_weight_list _ l ws _ ?_) s1
  exact std_copy_length _ _ ((s1 l).2 ws).symm

theorem default_selection_congr {F : Type} (a b : network_weights F) (h : same_shape a b)
    (pid m : Int) (gen : Nat → Nat) (l : String) :
    List.map (fun ws : Nat =>
        (l, ws, weight_id_list (weight_list_of a l ws).length pid m gen))
      (List.range (a l).length)
    = List.map (fun ws : Nat =>
        (l, ws, weight_id_list (weight_list_of b l ws).length pid m gen))
      (List.range (b l).length) := by
  rw [(h l).1]
  apply List.map_congr_left
  intro ws _
  rw [(h l).2 ws]

theorem check_layer_checked {F D : Type} (env : gradient_checker F D)
    (hrun : ∀ l ws, run_keeps_shape env l ws) (pid : Int) (l : String) (sets : List Nat) :
    ∀ st : check_state F D, st.failed = none →
      (∀ ws ∈ sets, ws < (st.data l).length) →
      (check_layer env pid l (List.map (fun i : Nat => (i : Int)) sets) st).failed = none ∧
      same_shape (check_layer env pid l (List.map (fun i : Nat => (i : Int)) sets) st).data
        st.data ∧
      (check_layer env pid l (List.map (fun i : Nat => (i : Int)) sets) st).checked_weights
        = st.checked_weights ++ List.map (fun ws : Nat =>
            (l, ws, weight_id_list (weight_list_of st.data l ws).length pid
              env.check_gradient_max_weights_per_set env.weight_gen)) sets := by
  induction sets with
  | nil =>
    intro st hf _
    exact ⟨hf, fun _ => ⟨rfl, fun _ => rfl⟩, by simp [check_layer]⟩
  | cons ws rest ih =>
    intro st hf hsets
    have hlt := hsets ws (List.mem_cons_self _ _)
    obtain ⟨hs, hids⟩ := check_weight_set_shape env hrun pid l ws st.data st.learning_rates
    have hstep : check_layer env pid l (List.map (fun i : Nat => (i : Int)) (ws :: rest)) st
        = check_layer env pid l (List.map (fun i : Nat => (i : Int)) rest)
          { data := (check_weight_set env pid l ws st.data st.learning_rates).data
            learning_rates :=
              (check_weight_set env pid l ws st.data st.learning_rates).learning_rates
            runs := st.runs ++ (check_weight_set env pid l ws st.data st.learning_rates).runs
            checked := st.checked ++
              [(l, ws, check_weight_set env pid l ws st.data st.learning_rates)]
            failed := none } := by
      have h0 : (0 : Int) ≤ (ws : Int) := Int.ofNat_nonneg ws
      simp only [List.map_cons, check_layer, hf, h0, Int.toNat_ofNat, hlt, and_self, if_true]
    rw [hstep]
    obtain ⟨i1, i2, i3⟩ := ih
      { data := (check_weight_set env pid l ws st.data st.learning_rates).data
        learning_rates :=
          (check_weight_set env pid l ws st.data st.learning_rates).learning_rates
        runs := st.runs ++ (check_weight_set env pid l ws st.data st.learning_rates).runs
        checked := st.checked ++
          [(l, ws, check_weight_set env pid l ws st.data st.learning_rates)]
        failed := none } rfl
      (fun ws2 h2 => by
        show ws2 < ((check_weight_set env pid l ws st.data st.learning_rates).data l).length
        rw [(hs l).1]
        exact hsets ws2 (List.mem_cons_of_mem _ h2))
    refine ⟨i1, same_shape_trans i2 hs, ?_⟩
    have hmap : List.map (fun ws2 : Nat =>
          (l, ws2, weight_id_list (weight_list_of
            (check_weight_set env pid l ws st.data st.learning_rates).data l ws2).length pid
            env.check_gradient_max_weights_per_set env.weight_gen)) rest
        = List.map (fun ws2 : Nat =>
          (l, ws2, weight_id_list (weight_list_of st.data l ws2).length pid
            env.check_gradient_max_weights_per_set env.weight_gen)) rest := by
      apply List.map_congr_left
      intro ws2 _
      rw [(hs l).2 ws2]
    rw [i3, hmap]
    simp only [check_state.checked_weights, List.map_append, List.map_cons, List.map_nil,
      hids, List.append_assoc, List.singleton_append]

theorem check_layers_checked {F D : Type} (env : gradient_checker F D)
    (hrun : ∀ l ws, run_keeps_shape env l ws) (names layers : List String) :
    ∀ st : check_state F D, st.failed = none → (∀ l, (st.data l).length < 2 ^ 31) →
      (check_layers env ⟨"", -1, -1⟩ names layers st).failed = none ∧
      same_shape (check_layers env ⟨"", -1, -1⟩ names layers st).data st.data ∧
      (check_layers env ⟨"", -1, -1⟩ names layers st).checked_weights
        = st.checked_weights ++
          (layers.filter (fun l => decide (l ∈ names))).flatMap (fun l =>
            List.map (fun ws : Nat =>
              (l, ws, weight_id_list (weight_list_of st.data l ws).length (-1)
                env.check_gradient_max_weights_per_set env.weight_gen))
            (List.range (st.data l).length)) := by
  induction layers with
  | nil =>
    intro st hf _
    exact ⟨hf, fun _ => ⟨rfl, fun _ => rfl⟩, by simp [check_layers]⟩
  | cons l rest ih =>
    intro st hf hsmall
    by_cases hmem : l ∈ names
    · have hstep : check_layers env ⟨"", -1, -1⟩ names (l :: rest) st
          = check_layers env ⟨"", -1, -1⟩ names rest
            (check_layer env (-1) l
              (List.map (fun i : Nat => (i : Int)) (List.range (st.data l).length)) st) := by
        simp only [check_layers, hf, hmem, not_true_eq_false, if_false, ne_eq, false_and,
          weight_sets_to_check_all _ (hsmall l)]
      obtain ⟨c1, c2, c3⟩ := check_layer_checked env hrun (-1) l
        (List.range (st.data l).length) st hf (fun ws h => List.mem_range.mp h)
      obtain ⟨i1, i2, i3⟩ := ih _ c1 (fun l2 => by rw [(c2 l2).1]; exact hsmall l2)
      rw [hstep]
      refine ⟨i1, same_shape_trans i2 c2, ?_⟩
      rw [i3, c3, List.filter_cons_of_pos (by simpa using hmem), List.flatMap_cons,
        List.append_assoc]
      have hfun : (fun l2 => List.map (fun ws : Nat =>
            (l2, ws, weight_id_list (weight_list_of (check_layer env (-1) l
              (List.map (fun i : Nat => (i : Int)) (List.range (st.data l).length)) st).data
              l2 ws).length (-1) env.check_gradient_max_weights_per_set env.weight_gen))
          (List.range ((check_layer env (-1) l
            (List.map (fun i : Nat => (i : Int)) (List.range (st.data l).length)) st).data
            l2).length))
          = fun l2 => List.map (fun ws : Nat =>
            (l2, ws, weight_id_list (weight_list_of st.data l2 ws).length (-1)
              env.check_gradient_max_weights_per_set env.weight_gen))
          (List.range (st.data l2).length) :=
        funext (default_selection_congr _ _ c2 (-1) _ _)
      rw [hfun]
    · have hstep : check_layers env ⟨"", -1, -1⟩ names (l :: rest) st
          = check_layers env ⟨"", -1, -1⟩ names rest st := by
        simp only [check_layers, hf, hmem, not_false_eq_true, if_true]
      rw [hstep, List.filter_cons_of_neg (by simpa using hmem)]
      exact ih st hf hsmall

theorem check_gradient_default_checked {F D : Type} (env : gradient_checker F D)
    (hrun : ∀ l ws, run_keeps_shape env l ws) (data : network_weights F)
    (names layers : List String) (hsetup : env.setup = Except.ok (data, names, layers))
    (hsmall : ∀ l, (data l).length < 2 ^ 31) :
    (check_gradient env "::").failed = none ∧
    (check_gradient env "::").checked_weights
      = (layers.reverse.filter (fun l => decide (l ∈ names))).flatMap (fun l =>
          List.map (fun ws : Nat =>
            (l, ws, weight_id_list (weight_list_of data l ws).length (-1)
              env.check_gradient_max_weights_per_set env.weight_gen))
          (List.range (data l).length)) := by
  have hparse : parse_check_gradient_weights "::" = Except.ok ⟨"", -1, -1⟩ := rfl
  obtain ⟨h1, _, h3⟩ := check_layers_checked env hrun names layers.reverse
    { data := data, learning_rates := fun _ _ => env.arith.zero, runs := [], checked := [],
      failed := none } rfl hsmall
  simp only [check_gradient, hparse, hsetup]
  exact ⟨h1, by rw [h3]; simp [check_state.checked_weights]⟩

theorem weight_id_list_all_iff (n : Nat) (m : Int) (weight_gen : Nat → Nat)
    (hint : n < 2 ^ 31) (hm : 0 ≤ m) :
    (∀ id : Int, 0 ≤ id → id < (n : Int) → id ∈ weight_id_list n (-1) m weight_gen) ↔
      (n : Int) - 2 ≤ m := by
  by_cases hsmall : n < 2
  · rw [weight_id_list_small n m weight_gen hsmall]
    have hcases : n = 0 ∨ n = 1 := by omega
    rcases hcases with h | h <;> subst h
    · constructor
      · intro _; omega
      · intro _ id h0 h1; omega
    · constructor
      · intro _; omega
      · intro _ id h0 h1
        have : id = 0 := by omega
        simp [this]
  · have hsize : 2 ≤ n := by omega
    have hlen := weight_id_list_length n m weight_gen hsize hint hm
    constructor
    · intro hall
      by_contra hlt
      have hsub : List.map (fun i : Nat => (i : Int)) (List.range n) ⊆
          weight_id_list n (-1) m weight_gen := by
        intro id hid
        obtain ⟨i, hi, rfl⟩ := List.mem_map.mp hid
        have := List.mem_range.mp hi
        exact hall i (by omega) (by omega)
      have hnodup : (List.map (fun i : Nat => (i : Int)) (List.range n)).Nodup :=
        (List.nodup_range n).map (fun a b hab => by
          have hab2 : (a : Int) = (b : Int) := hab
          omega)
      have hle := (List.subperm_of_subset hnodup hsub).length_le
      rw [List.length_map, List.length_range] at hle
      have hmin : min ((n : Int) - 2) m = m := min_eq_right (by omega)
      rw [hmin] at hlen
      omega
    · intro hle id h0 h1
      rw [weight_id_list_eq_pick n m weight_gen hsize hint]
      have hmin : min ((n : Int) - 2) m = (n : Int) - 2 := min_eq_left hle
      have hcount : (min ((n : Int) - 2) m).toNat = n - 2 := by rw [hmin]; omega
      rw [hcount]
      obtain ⟨picked, rest, heq, hperm⟩ := pick_candidates_perm weight_gen (n - 2) 0
        (List.map (fun i : Nat => (i : Int) + 1) (List.range (n - 2)))
        ([0] ++ [(n : Int) - 1]) (by rw [List.length_map, List.length_range]; omega)
      rw [Nat.sub_zero, List.take_length] at hperm
      have hplen := pick_candidates_length weight_gen (n - 2) 0
        (List.map (fun i : Nat => (i : Int) + 1) (List.range (n - 2)))
        ([0] ++ [(n : Int) - 1])
      rw [heq, List.length_append] at hplen
      have hl := hperm.length_eq
      rw [List.length_append, List.length_map, List.length_range] at hl
      have hrest : rest = [] := List.eq_nil_of_length_eq_zero (by omega)
      rw [hrest, List.append_nil] at hperm
      rw [heq]
      by_cases hz : id = 0
      · simp [hz]
      · by_cases hn : id = (n : Int) - 1
        · simp [hn]
        · apply List.mem_append_right
          apply hperm.mem_iff.mpr
          refine List.mem_map.mpr ⟨(id - 1).toNat, List.mem_range.mpr (by omega), by omega⟩

theorem weight_id_list_first_last (n : Nat) (m : Int) (weight_gen : Nat → Nat)
    (hsize : 2 ≤ n) (hint : n < 2 ^ 31) (hm : 0 ≤ m) :
    ∃ picked, weight_id_list n (-1) m weight_gen = 0 :: ((n : Int) - 1) :: picked ∧
      (picked.length : Int) = min ((n : Int) - 2) m := by
  have hlen := weight_id_list_length n m weight_gen hsize hint hm
  rw [weight_id_list_eq_pick n m weight_gen hsize hint] at hlen ⊢
  obtain ⟨picked, _, heq, _⟩ := pick_candidates_perm weight_gen
    (min ((n : Int) - 2) m).toNat 0
    (List.map (fun i : Nat => (i : Int) + 1) (List.range (n - 2)))
    ([0] ++ [(n : Int) - 1]) (by
      rw [List.length_map, List.length_range]
      have : min ((n : Int) - 2) m ≤ (n : Int) - 2 := min_le_left _ _
      omega)
  rw [heq] at hlen ⊢
  refine ⟨picked, rfl, ?_⟩
  simp only [List.length_append, List.length_singleton, Nat.cast_add, Nat.cast_one] at hlen
  omega

/-- C11 fails as stated: with the default `::` and the default
`check_gradient_max_weights_per_set` of 20, `check_gradient` checks 22 of the 23 weights of
the weight set of `wide_checker`, and the weight 2 is not among them; whatever the random
generator draws, some weight of a set of 23 is not selected.  An empty weight id field
stands for the first weight, the last one and a bounded sample of the others, not for all
weights. -/
theorem default_check_gradient_weights_skips_a_weight :
    parse_check_gradient_weights "::" = Except.ok ⟨"", -1, -1⟩ ∧
    wide_checker.setup = Except.ok (wide_weights, ["fc"], ["fc"]) ∧
    (weight_list_of wide_weights "fc" 0).length = 23 ∧
    (check_gradient wide_checker "::").failed = none ∧
    (check_gradient wide_checker "::").checked_weights
      = [("fc", 0, [0, 22, 1, 21, 20, 19, 18, 17, 16, 15, 14, 13, 12, 11, 10, 9, 8, 7, 6, 5,
          4, 3])] ∧
    (∀ c ∈ (check_gradient wide_checker "::").checked_weights, (2 : Int) ∉ c.2.2) ∧
    ∀ weight_gen : Nat → Nat,
      ¬ ∀ id : Int, 0 ≤ id → id < ((23 : Nat) : Int) →
        id ∈ weight_id_list 23 (-1) 20 weight_gen := by
  have h : (check_gradient wide_checker "::").checked_weights
      = [("fc", 0, [0, 22, 1, 21, 20, 19, 18, 17, 16, 15, 14, 13, 12, 11, 10, 9, 8, 7, 6, 5,
          4, 3])] := by
    rfl
  refine ⟨rfl, rfl, rfl, rfl, h, ?_, ?_⟩
  · rw [h]
    intro c hc
    rw [List.mem_singleton] at hc
    subst hc
    decide
  · intro weight_gen hall
    have hle := (weight_id_list_all_iff 23 20 weight_gen (by decide) (by decide)).mp hall
    norm_num at hle

/-- C11, amended: `check_gradient` accepts `check_gradient_weights` exactly when the string
has two colons, that is three fields; otherwise it ends with the `std::runtime_error`
"Invalid check_gradient_weights parameter: ..." and no call of `backprop->run` has been made.
An empty field leaves the default: the empty layer name, the weight set `-1`, the weight id
`-1`.  With the default `::`, a `backprop->run` that keeps the shape of the weights and
fewer than `2^31` weight sets in every layer, `check_gradient` ends without exception and
visits every layer that has weights, in reverse forward propagation order, and every weight
set of each, checking in a set of `n` weights the ids of `weight_id_list n (-1)`; the weight
set `-1` stands for all weight sets of a layer; the weight id `-1` selects the first
weight, the last weight and `min(n - 2, check_gradient_max_weights_per_set)` others of a set
of `n >= 2` weights, and it selects all `n` weights of a set if and only if
`n - 2 <= check_gradient_max_weights_per_set`. -/
theorem check_gradient_weights_accepted_iff_two_colons {F D : Type}
    (env : gradient_checker F D) (s : String) :
    ((∃ p, parse_check_gradient_weights s = Except.ok p) ↔ s.toList.count ':' = 2) ∧
    (s.toList.count ':' ≠ 2 →
      (check_gradient env s).failed = some (failure.runtime_error
        ("Invalid check_gradient_weights parameter: " ++ s)) ∧
      (check_gradient env s).runs = []) ∧
    (∀ layer weight_set weight_id : List Char,
      ':' ∉ layer → ':' ∉ weight_set → ':' ∉ weight_id →
      parse_check_gradient_weights (String.mk (layer ++ ':' :: (weight_set ++ ':' :: weight_id)))
        = Except.ok
          { param_layer_name := if layer.isEmpty then "" else String.mk (c_str layer)
            param_weight_set :=
              if weight_set.isEmpty then -1 else long_to_int (atol (c_str weight_set))
            param_weight_id :=
              if weight_id.isEmpty then -1 else long_to_int (atol (c_str weight_id)) }) ∧
    parse_check_gradient_weights "::" = Except.ok ⟨"", -1, -1⟩ ∧
    (∀ (data : network_weights F) (names layers : List String),
      env.setup = Except.ok (data, names, layers) →
      (∀ l ws, run_keeps_shape env l ws) → (∀ l, (data l).length < 2 ^ 31) →
      (check_gradient env "::").failed = none ∧
      (check_gradient env "::").checked_weights
        = (layers.reverse.filter (fun l => decide (l ∈ names))).flatMap (fun l =>
            List.map (fun ws : Nat =>
              (l, ws, weight_id_list (weight_list_of data l ws).length (-1)
                env.check_gradient_max_weights_per_set env.weight_gen))
            (List.range (data l).length))) ∧
    (∀ size : Nat, size < 2 ^ 31 →
      weight_sets_to_check size (-1) = List.map (fun i : Nat => (i : Int)) (List.range size)) ∧
    (∀ n : Nat, n < 2 ^ 31 → 0 ≤ env.check_gradient_max_weights_per_set →
      ((∀ id : Int, 0 ≤ id → id < (n : Int) →
          id ∈ weight_id_list n (-1) env.check_gradient_max_weights_per_set env.weight_gen) ↔
        (n : Int) - 2 ≤ env.check_gradient_max_weights_per_set) ∧
      (2 ≤ n → ∃ picked,
        weight_id_list n (-1) env.check_gradient_max_weights_per_set env.weight_gen
          = 0 :: ((n : Int) - 1) :: picked ∧
        (picked.length : Int) = min ((n : Int) - 2) env.check_gradient_max_weights_per_set)) := by
  refine ⟨?_, ?_, ?_, rfl, ?_, weight_sets_to_check_all, ?_⟩
  · rw [parse_ok_iff, split_length]
    omega
  · intro h
    have hlen : (split ':' s.toList).length ≠ 3 := by
      rw [split_length]
      omega
    simp only [check_gradient, parse_error_of_length_ne s hlen, and_self]
  · intro layer weight_set weight_id h1 h2 h3
    have hsplit : split ':' (layer ++ ':' :: (weight_set ++ ':' :: weight_id))
        = [layer, weight_set, weight_id] := by
      rw [split_append_sep _ _ _ h1, split_append_sep _ _ _ h2, split_of_not_mem _ _ h3]
    simp only [parse_check_gradient_weights, String.toList, hsplit]
  · intro data names layers hsetup hrun hsmall
    exact check_gradient_default_checked env hrun data names layers hsetup hsmall
  · intro n hn hm
    exact ⟨weight_id_list_all_iff n _ _ hn hm,
      fun hsize => weight_id_list_first_last n _ _ hsize hn hm⟩

/-- Witness of C11, amended: `conv1:2` has one colon and is rejected before any run; with
`::` the two weights of the weight set of `example_checker` are checked. -/
theorem check_gradient_weights_accepted_iff_two_colons_witness :
    ((check_gradient example_checker "conv1:2").failed = some (failure.runtime_error
        ("Invalid check_gradient_weights parameter: " ++ "conv1:2")) ∧
      (check_gradient example_checker "conv1:2").runs = []) ∧
    (check_gradient example_checker "::").checked_weights = [("fc", 0, [0, 1])] :=
  ⟨(check_gradient_weights_accepted_iff_two_colons example_checker "conv1:2").2.1 (by decide),
    ((check_gradient_weights_accepted_iff_two_colons example_checker "::").2.2.2.2.1
      example_weights ["fc"] ["fc"] rfl (fun _ _ _ _ => ⟨rfl, rfl⟩)
      (fun l => by
        show (if l = "fc" then [[(1 : ℚ), 2]] else []).length < 2 ^ 31
        split <;> decide)).2.trans (by rfl)⟩

end nnforge
